import Mathlib

/-!
# maze-generator-c: the carving engine of `main.c` over the `blist` container

Shallow embedding of `src/src/blist.c` and of the carving core of
`src/src/main.c` (`main` set-up, `out_of_bounds`, `can_move`, `get_paths`,
`count_paths`, `head_push_branch`, `head_switch_branch`, `update`).

Conventions of the embedding
* C `int` values are `Int`.  Signed overflow and division by zero have no meaning
  in C, so the set-up of `main` checks every `int` operation it performs against
  the 32-bit range (`int_ok`, `div_ok`) and ends in `main_result.undefined` when
  one fails; theorems about runs take the range conditions as the hypothesis
  `int_config`.  The only unsigned wrap-around the program relies on (`i--` on a
  `size_t` loop index that is `0`) is modelled explicitly modulo `SIZE_MOD`.
* An allocation whose size is a negative `int` converted to `size_t` fails, as it
  asks for more than the address space holds; every other allocation is taken
  to succeed.
* A `blist_t` keeps its buffer as a list of typed slots: one slot stands for the
  `size` bytes of one element.  Slots at or beyond `length` hold stale data, as
  in C.  The `destructor` field is `NULL` throughout this program and is left out.
* `rand()` is a stream `rnd : Nat → Nat`; the state counts the calls made so far,
  so the k-th call returns `rnd k`.
* A memory access outside a buffer is undefined in C.  The set-up of `main`
  checks the index of its store into the map.  The tick (`update` and what it
  calls) is total: a read past the end of a buffer gives a default value, a
  write past the end is dropped, and a negative map index is clamped to 0.  The
  invariants proved below show that states reachable from a valid configuration
  never index outside a buffer.
-/

namespace MazeGen

/-! ## blist.c -/

/-- Modulus of `size_t` arithmetic. -/
def SIZE_MOD : Nat := 2 ^ 64

/-- The struct `blist_s`: buffer, number of elements, number of allocated slots. -/
structure blist_t (α : Type) where
  array : List α
  length : Nat
  capacity : Nat
deriving DecidableEq, Repr

instance {α : Type} : Inhabited (blist_t α) := ⟨⟨[], 0, 0⟩⟩

/-- Function `blist_init`: a buffer of `capacity` slots (none when `capacity` is 0), no elements. -/
def blist_init {α : Type} [Inhabited α] (capacity : Nat) : blist_t α :=
  { array := List.replicate capacity default, length := 0, capacity := capacity }

/-- Function `blist_create`: `blist_new` followed by `blist_init`. -/
def blist_create {α : Type} [Inhabited α] (capacity : Nat) : blist_t α :=
  blist_init capacity

/-- Function `blist_extend`: capacity doubles (or becomes 10 from 0); `realloc` keeps the
old slots and adds fresh ones.  A buffer of `capacity * size` bytes fits in memory, so
`capacity << 1` stays below `SIZE_MOD` and the shift is a plain doubling. -/
def blist_extend {α : Type} [Inhabited α] (self : blist_t α) : blist_t α :=
  let capacity := if self.capacity ≠ 0 then self.capacity * 2 else 10
  { self with
    capacity := capacity
    array := self.array ++ List.replicate (capacity - self.array.length) default }

/-- Function `blist_get`: the slot at `index`. -/
def blist_get {α : Type} [Inhabited α] (self : blist_t α) (index : Nat) : α :=
  self.array.getD index default

/-- A store through the pointer returned by `blist_get(self, index)`: the slot
at `index` is overwritten, nothing else changes. -/
def blist_write {α : Type} (self : blist_t α) (index : Nat) (data : α) : blist_t α :=
  { array := self.array.set index data, length := self.length, capacity := self.capacity }

/-- Function `blist_copyget`: a copy of the slot at `index`. -/
def blist_copyget {α : Type} [Inhabited α] (self : blist_t α) (index : Nat) : α :=
  blist_get self index

/-- Function `blist_set`: extend when `index >= capacity`, then overwrite the slot. -/
def blist_set {α : Type} [Inhabited α] (self : blist_t α) (index : Nat) (data : α) :
    blist_t α :=
  let self1 := if index ≥ self.capacity then blist_extend self else self
  { self1 with array := self1.array.set index data }

/-- Function `blist_push`: extend when full, then `blist_set(self, self->length++, data)`. -/
def blist_push {α : Type} [Inhabited α] (self : blist_t α) (data : α) : blist_t α :=
  let self1 := if self.length = self.capacity then blist_extend self else self
  let self2 := blist_set self1 self1.length data
  { self2 with length := self1.length + 1 }

/-- Function `blist_pop`: drop the last element when there is one. -/
def blist_pop {α : Type} (self : blist_t α) : blist_t α :=
  if self.length ≠ 0 then { self with length := self.length - 1 } else self

/-- The shifting loop of `blist_remove`: `n` times copy slot `i + 1` into slot `i`
and advance `i`. -/
def blist_shift {α : Type} [Inhabited α] : Nat → Nat → List α → List α
  | 0, _, array => array
  | n + 1, i, array => blist_shift n (i + 1) (array.set i (array.getD (i + 1) default))

/-- Function `blist_remove`: shift the slots after `index` one place to the left (the loop
runs from `index` to `length - 1`, that is `length - 1 - index` times), then
`length--`. -/
def blist_remove {α : Type} [Inhabited α] (self : blist_t α) (index : Nat) : blist_t α :=
  { self with
    array := blist_shift (self.length - 1 - index) index self.array
    length := self.length - 1 }

/-! ## main.c : data -/

/-- The struct `point_s`. -/
structure point_t where
  x : Int
  y : Int
deriving DecidableEq, Repr, Inhabited

/-- The struct `paths_s`: the array `int _[5]`; slot 0 is the count. -/
structure paths_t where
  slots : List Int
deriving DecidableEq, Repr

/-- The struct `head_s`. -/
structure head_t where
  point : point_t
  direction : Int
  branches : blist_t point_t
deriving DecidableEq, Repr, Inhabited

/-- The three values `main` ever assigns to the global `mode`. -/
inductive Mode where
  | MODE_RANDOM_SWITCHING
  | MODE_DEPTH_FIRST
  | MODE_BREADTH_FIRST
deriving DecidableEq, Repr

def MOVE_UP : Int := 1
def MOVE_RIGHT : Int := 2
def MOVE_DOWN : Int := 3
def MOVE_LEFT : Int := 4

/-- The globals read by the path evaluator and written by head movement:
`step`, `maze_width`, `maze_height` (in cells, after `main` rescaled them),
`switch_chance`, `mode`, `map`, and the number of `rand()` calls made so far. -/
structure Env where
  step : Int
  maze_width : Int
  maze_height : Int
  switch_chance : Int
  mode : Mode
  map : List Nat
  rand_calls : Nat
deriving DecidableEq, Repr

/-- The whole simulation state: the globals above and the global `heads`. -/
structure State where
  env : Env
  heads : blist_t head_t
deriving DecidableEq, Repr

/-- One call of `rand()`. -/
def rand (rnd : Nat → Nat) (e : Env) : Nat × Env :=
  (rnd e.rand_calls, { e with rand_calls := e.rand_calls + 1 })

/-- The flat index `y * maze_width + x` used for every access to `map`. -/
def cell_index (e : Env) (x y : Int) : Nat :=
  (y * e.maze_width + x).toNat

/-! ## main.c : path evaluator -/

/-- Function `out_of_bounds`. -/
def out_of_bounds (e : Env) (x y : Int) : Bool :=
  decide (x < 0 ∨ x ≥ e.maze_width ∨ y < 0 ∨ y ≥ e.maze_height)

/-- Function `can_move`: in bounds and `map[y * maze_width + x] == 0`. -/
def can_move (e : Env) (x y : Int) : Bool :=
  !out_of_bounds e x y && e.map.getD (cell_index e x y) 0 == 0

/-- Function `get_paths`: the four tests in source order, each storing at `index++`. -/
def get_paths (e : Env) (point : point_t) : paths_t :=
  let paths : List Int := [0, 0, 0, 0, 0]
  let index : Nat := 1
  let (paths, index) :=
    if can_move e point.x (point.y - e.step) then (paths.set index MOVE_UP, index + 1)
    else (paths, index)
  let (paths, index) :=
    if can_move e (point.x + e.step) point.y then (paths.set index MOVE_RIGHT, index + 1)
    else (paths, index)
  let (paths, index) :=
    if can_move e point.x (point.y + e.step) then (paths.set index MOVE_DOWN, index + 1)
    else (paths, index)
  let (paths, index) :=
    if can_move e (point.x - e.step) point.y then (paths.set index MOVE_LEFT, index + 1)
    else (paths, index)
  { slots := paths.set 0 ((index : Int) - 1) }

/-- Function `count_paths`: slot 0 of `get_paths`. -/
def count_paths (e : Env) (point : point_t) : Int :=
  (get_paths e point).slots.getD 0 0

/-! ## main.c : heads -/

/-- Function `head_push_branch`. -/
def head_push_branch (head : head_t) (point : point_t) : head_t :=
  { head with branches := blist_push head.branches { x := point.x, y := point.y } }

/-- Function `head_switch_branch`: take one stored point according to `mode`, push the
current position when it still has paths, then jump to the taken point. -/
def head_switch_branch (rnd : Nat → Nat) (e : Env) (head : head_t) : Env × head_t :=
  let (e1, branch, branches) :=
    match e.mode with
    | Mode.MODE_RANDOM_SWITCHING =>
      let (r, e1) := rand rnd e
      let index := r % head.branches.length
      (e1, blist_copyget head.branches index, blist_remove head.branches index)
    | Mode.MODE_DEPTH_FIRST =>
      (e, blist_copyget head.branches (head.branches.length - 1), blist_pop head.branches)
    | Mode.MODE_BREADTH_FIRST =>
      (e, blist_copyget head.branches 0, blist_remove head.branches 0)
  let head1 : head_t := { head with branches := branches }
  let head2 := if count_paths e1 head1.point ≠ 0 then head_push_branch head1 head1.point else head1
  (e1, { head2 with point := { x := branch.x, y := branch.y } })

/-! ## main.c : update -/

/-- Lines 470-472 of `update`: the switch made with `switch_chance` probability.
The `&&` chain short-circuits, so `rand()` is called only when the first two
tests succeed. -/
def update_random_switch (rnd : Nat → Nat) (e : Env) (head : head_t) : Env × head_t :=
  if e.mode = Mode.MODE_RANDOM_SWITCHING ∧ head.branches.length > 0 then
    let (r, e1) := rand rnd e
    if ((r % 100 + 1 : Nat) : Int) ≤ e1.switch_chance then head_switch_branch rnd e1 head
    else (e1, head)
  else (e, head)

/-- Lines 474-487 of `update`: the `while(count_paths(&head->point) == 0)` loop.
The Boolean is the local `removed`.  Every pass that does not leave the loop
takes one point from the store and pushes none, so `branches.length + 1` passes
always suffice (`update_stuck_loop_fuel`). -/
def update_stuck_loop (rnd : Nat → Nat) : Nat → Env → head_t → Env × head_t × Bool
  | 0, e, head => (e, head, false)
  | fuel + 1, e, head =>
    if count_paths e head.point = 0 then
      if head.branches.length = 0 then (e, head, true)
      else
        let (e1, head1) := head_switch_branch rnd e head
        update_stuck_loop rnd fuel e1 head1
    else (e, head, false)

/-- One pass of the inner `for` loop (lines 504-521): move one cell in
`direction` and mark the cell reached. -/
def update_move_cell (direction : Int) (e : Env) (p : point_t) : Env × point_t :=
  let p1 : point_t :=
    if direction = MOVE_UP then { p with y := p.y - 1 }
    else if direction = MOVE_RIGHT then { p with x := p.x + 1 }
    else if direction = MOVE_DOWN then { p with y := p.y + 1 }
    else if direction = MOVE_LEFT then { p with x := p.x - 1 }
    else p
  ({ e with map := e.map.set (cell_index e p1.x p1.y) 1 }, p1)

/-- The inner loop `for(int i = 0; i < step; i++)` (lines 502-522), run
`n` times. -/
def update_move_loop (direction : Int) : Nat → Env → point_t → Env × point_t
  | 0, e, p => (e, p)
  | n + 1, e, p =>
    let (e1, p1) := update_move_cell direction e p
    update_move_loop direction n e1 p1

/-- Lines 495-527 of `update`: pick a listed direction at random, walk `step`
cells marking each, push the old position when it still has paths, record the
direction. -/
def update_move (rnd : Nat → Nat) (e : Env) (head : head_t) : Env × head_t :=
  let paths := get_paths e head.point
  let (r, e1) := rand rnd e
  let direction := paths.slots.getD (Int.tmod r (paths.slots.getD 0 0) + 1).toNat 0
  let old_head : point_t := { x := head.point.x, y := head.point.y }
  let (e2, p) := update_move_loop direction e1.step.toNat e1 head.point
  let head1 : head_t := { head with point := p }
  let head2 := if count_paths e2 old_head ≠ 0 then head_push_branch head1 old_head else head1
  (e2, { head2 with direction := direction })

/-- The body of the outer `for` loop of `update` for one head; the Boolean says
whether the head is to be removed from the pool. -/
def update_head (rnd : Nat → Nat) (e : Env) (head : head_t) : Env × head_t × Bool :=
  let (e1, head1) := update_random_switch rnd e head
  let (e2, head2, removed) := update_stuck_loop rnd (head1.branches.length + 1) e1 head1
  if removed then (e2, head2, true)
  else
    let (e3, head3) := update_move rnd e2 head2
    (e3, head3, false)

/-- The outer loop `for(size_t i = 0; i < heads->length; i++)` of `update`.
The head is changed in place through the pointer `blist_get(heads, i)`
(`blist_write`).  On
removal the code runs `blist_remove(heads, i--)` and `continue`, so the index
is decremented and incremented again, both modulo `SIZE_MOD`.  Each pass either
removes a head or advances `i`, so `heads->length - i` passes end the loop
(`update_loop_exit`). -/
def update_loop (rnd : Nat → Nat) : Nat → Nat → State → State
  | 0, _, s => s
  | fuel + 1, i, s =>
    if i < s.heads.length then
      let head := blist_get s.heads i
      let (e1, head1, removed) := update_head rnd s.env head
      let heads1 := blist_write s.heads i head1
      if removed then
        let heads2 := blist_remove heads1 i
        let i1 := (i + SIZE_MOD - 1) % SIZE_MOD
        update_loop rnd fuel ((i1 + 1) % SIZE_MOD) { env := e1, heads := heads2 }
      else
        update_loop rnd fuel ((i + 1) % SIZE_MOD) { env := e1, heads := heads1 }
    else s

/-- Function `update`: one tick. -/
def update (rnd : Nat → Nat) (s : State) : State :=
  update_loop rnd s.heads.length 0 s

/-! ## main.c : set-up and main loop -/

/-- The globals as they stand after command-line parsing: maze size in lattice
units, `step`, `numHeads`, `switch_chance`, `mode`, and the window size with its
defaults of line 91. -/
structure Config where
  maze_width : Int
  maze_height : Int
  step : Int
  numHeads : Int
  switch_chance : Int
  mode : Mode
  window_width : Int := 800
  window_height : Int := 640
deriving DecidableEq, Repr

/-- Largest value of a C `int` (32 bits). -/
def INT_MAX : Int := 2147483647

/-- Smallest value of a C `int` (32 bits). -/
def INT_MIN : Int := -2147483648

/-- The exact result `v` of a signed operation fits an `int`.  When it does not,
the operation overflows and C gives it no meaning. -/
def int_ok (v : Int) : Prop :=
  INT_MIN ≤ v ∧ v ≤ INT_MAX

instance (v : Int) : Decidable (int_ok v) := by
  unfold int_ok; infer_instance

/-- The quotient `a / b` and the remainder `a % b` of two `int`s have a meaning in
C: the divisor is not zero and the quotient fits an `int`. -/
def div_ok (a b : Int) : Prop :=
  b ≠ 0 ∧ int_ok (Int.tdiv a b)

instance (a b : Int) : Decidable (div_ok a b) := by
  unfold div_ok; infer_instance

/-- What `main` has done when it reaches its loop, or why it did not get there.
* `config_error`: the message and `return` of lines 213-214;
* `undefined`: an operation without meaning in C was executed (signed overflow,
  division or remainder by zero, a store outside the map);
* `alloc_failure`: `calloc` or `blist_create` returned `NULL` and `main`
  returned `EXIT_FAILURE` (lines 253-258 and 262-267);
* `started s`: the map and the pool were built, `s` is the state the loop of
  line 284 starts from. -/
inductive main_result where
  | config_error : main_result
  | undefined : main_result
  | alloc_failure : main_result
  | started : State → main_result
deriving DecidableEq, Repr

/-- The initialiser of line 271 with its three `rand()` results, followed by the
`blist_init(&head.branches, 10, ...)` of line 272: a head at a random lattice
point, with a random direction and an empty store of capacity 10.  The result is
`none` when `maze_width / step` or `maze_height / step` has no meaning, when one
of these quotients is zero (remainder by zero), or when a product with `step`
overflows.  A `rand()` result is not negative, so its remainder by a non-zero
`int` always fits. -/
def main_new_head (r1 r2 r3 : Nat) (e : Env) : Option head_t :=
  if div_ok e.maze_width e.step ∧ div_ok e.maze_height e.step ∧
      Int.tdiv e.maze_width e.step ≠ 0 ∧ Int.tdiv e.maze_height e.step ≠ 0 ∧
      int_ok (Int.tmod r1 (Int.tdiv e.maze_width e.step) * e.step) ∧
      int_ok (Int.tmod r2 (Int.tdiv e.maze_height e.step) * e.step) then
    some
      { point :=
          { x := Int.tmod r1 (Int.tdiv e.maze_width e.step) * e.step
            y := Int.tmod r2 (Int.tdiv e.maze_height e.step) * e.step }
        direction := Int.tmod r3 4
        branches := blist_init 10 }
  else none

/-- The store `map[head.point.y * maze_width + head.point.x] = 1` of line 281.
It has a meaning when the index arithmetic does not overflow and the index lies
inside the allocated map. -/
def main_mark (e : Env) (p : point_t) : Option Env :=
  if int_ok (p.y * e.maze_width) ∧ int_ok (p.y * e.maze_width + p.x) ∧
      0 ≤ p.y * e.maze_width + p.x ∧ p.y * e.maze_width + p.x < e.map.length then
    some { e with map := e.map.set (cell_index e p.x p.y) 1 }
  else none

/-- One round of the loop of lines 269-282: create a head, push it, mark its
cell.  The three `rand()` calls of the initialiser are taken in the order they
are written. -/
def main_add_head (rnd : Nat → Nat) (s : State) : Option State :=
  let (r1, e1) := rand rnd s.env
  let (r2, e2) := rand rnd e1
  let (r3, e3) := rand rnd e2
  match main_new_head r1 r2 r3 e3 with
  | none => none
  | some head =>
    let heads := blist_push s.heads head
    match main_mark e3 head.point with
    | none => none
    | some e4 => some { env := e4, heads := heads }

/-- The loop of lines 269-282, `n` rounds; `none` as soon as a round has no
meaning. -/
def main_heads (rnd : Nat → Nat) : Nat → State → Option State
  | 0, s => some s
  | n + 1, s =>
    match main_add_head rnd s with
    | none => none
    | some s1 => main_heads rnd n s1

/-- Lines 247-249: the cell size and the padding of the picture.  `fmin` is
applied to two `int` quotients, which a `double` holds exactly.  The result says
whether every operation has a meaning; the values themselves are used by the
renderer only. -/
def main_cell_size_ok (c : Config) (maze_width maze_height : Int) : Prop :=
  div_ok c.window_width maze_width ∧ div_ok c.window_height maze_height ∧
    int_ok (min (Int.tdiv c.window_width maze_width) (Int.tdiv c.window_height maze_height) *
      maze_width) ∧
    int_ok (c.window_width -
      min (Int.tdiv c.window_width maze_width) (Int.tdiv c.window_height maze_height) *
        maze_width) ∧
    int_ok (min (Int.tdiv c.window_width maze_width) (Int.tdiv c.window_height maze_height) *
      maze_height) ∧
    int_ok (c.window_height -
      min (Int.tdiv c.window_width maze_width) (Int.tdiv c.window_height maze_height) *
        maze_height)

instance (c : Config) (w h : Int) : Decidable (main_cell_size_ok c w h) := by
  unfold main_cell_size_ok; infer_instance

/-- Lines 211-282 of `main`, in the order of the source: the dimension check, the
rescaling of the maze size to cells (`int` arithmetic), the cell size, the
zeroed map, the head pool.  A negative `int` passed to `calloc` or to
`blist_create` converts to a `size_t` just below `2 ^ 64`, a request no
allocation satisfies; an allocation of any other size is taken to succeed, and so
is the creation of the window when the run is not quiet. -/
def main_setup (rnd : Nat → Nat) (c : Config) : main_result :=
  if c.maze_width = 1 ∨ c.maze_height = 1 then main_result.config_error
  else if ¬ (int_ok (c.maze_width * c.step) ∧ int_ok (c.maze_width * c.step - 1) ∧
      int_ok (c.maze_height * c.step) ∧ int_ok (c.maze_height * c.step - 1)) then
    main_result.undefined
  else
    let maze_width := c.maze_width * c.step - 1
    let maze_height := c.maze_height * c.step - 1
    if ¬ main_cell_size_ok c maze_width maze_height then main_result.undefined
    else if ¬ int_ok (maze_width * maze_height) then main_result.undefined
    else if maze_width * maze_height < 0 then main_result.alloc_failure
    else if c.numHeads < 0 then main_result.alloc_failure
    else
      let e : Env :=
        { step := c.step
          maze_width := maze_width
          maze_height := maze_height
          switch_chance := c.switch_chance
          mode := c.mode
          map := List.replicate (maze_width * maze_height).toNat 0
          rand_calls := 0 }
      match main_heads rnd c.numHeads.toNat
          { env := e, heads := blist_create c.numHeads.toNat } with
      | none => main_result.undefined
      | some s => main_result.started s

/-- The loop `while(heads->length && running)` of `main` with `running` held
true, cut off after `fuel` ticks. -/
def main_loop (rnd : Nat → Nat) : Nat → State → State
  | 0, s => s
  | fuel + 1, s => if s.heads.length ≠ 0 then main_loop rnd fuel (update rnd s) else s

/-! ## Views used in the statements -/

/-- The elements a list holds: its first `length` slots, in order. -/
def blist_t.elems {α : Type} (self : blist_t α) : List α :=
  self.array.take self.length

/-- Representation invariant of a list: the buffer has exactly `capacity` slots
and `length` does not exceed it. -/
def blist_t.wf {α : Type} (self : blist_t α) : Prop :=
  self.length ≤ self.capacity ∧ self.array.length = self.capacity

instance {α : Type} (self : blist_t α) : Decidable self.wf := by
  unfold blist_t.wf; infer_instance

/-- The value of the grid at cell `(x, y)`. -/
def cell (e : Env) (x y : Int) : Nat :=
  e.map.getD (cell_index e x y) 0

/-- Spec 4.1, `in_bounds(p)`: `0 ≤ p.x < W` and `0 ≤ p.y < H`. -/
def in_bounds (e : Env) (p : point_t) : Prop :=
  0 ≤ p.x ∧ p.x < e.maze_width ∧ 0 ≤ p.y ∧ p.y < e.maze_height

instance (e : Env) (p : point_t) : Decidable (in_bounds e p) := by
  unfold in_bounds; infer_instance

/-- A cell is visited when its map value is 1. -/
def visited (e : Env) (p : point_t) : Prop :=
  cell e p.x p.y = 1

instance (e : Env) (p : point_t) : Decidable (visited e p) := by
  unfold visited; infer_instance

/-- Spec 4.1, `is_free(p)`: in bounds and unvisited (map value 0). -/
def is_free (e : Env) (p : point_t) : Prop :=
  in_bounds e p ∧ cell e p.x p.y = 0

instance (e : Env) (p : point_t) : Decidable (is_free e p) := by
  unfold is_free; infer_instance

/-- Horizontal component of the unit vector of a direction. -/
def dir_dx (direction : Int) : Int :=
  if direction = MOVE_RIGHT then 1 else if direction = MOVE_LEFT then -1 else 0

/-- Vertical component of the unit vector of a direction (`y` grows downwards). -/
def dir_dy (direction : Int) : Int :=
  if direction = MOVE_DOWN then 1 else if direction = MOVE_UP then -1 else 0

/-- The point `p` displaced by `k` cells in `direction`. -/
def displaced (p : point_t) (direction : Int) (k : Int) : point_t :=
  { x := p.x + k * dir_dx direction, y := p.y + k * dir_dy direction }

/-- Spec 4.2, `legal_moves(p, step)`: the directions, in the order Up, Right,
Down, Left, whose destination `step` cells away is free. -/
def legal_moves (e : Env) (p : point_t) : List Int :=
  [MOVE_UP, MOVE_RIGHT, MOVE_DOWN, MOVE_LEFT].filter
    (fun d => decide (is_free e (displaced p d e.step)))

/-- The directions listed by `get_paths`: slots `1 .. count`. -/
def listed_paths (paths : paths_t) : List Int :=
  (paths.slots.drop 1).take (paths.slots.getD 0 0).toNat

/-- The grid is well formed: `step` is positive and `map` has one slot per cell. -/
def grid_wf (e : Env) : Prop :=
  0 < e.step ∧ e.map.length = (e.maze_width * e.maze_height).toNat

instance (e : Env) : Decidable (grid_wf e) := by
  unfold grid_wf; infer_instance

/-- Both environments have the same `step`, size, `switch_chance` and `mode`. -/
def same_cfg (e e1 : Env) : Prop :=
  e1.step = e.step ∧ e1.maze_width = e.maze_width ∧ e1.maze_height = e.maze_height ∧
    e1.switch_chance = e.switch_chance ∧ e1.mode = e.mode

/-- The map of `e1` is the map of `e` with some more slots set to 1. -/
def map_mono (e e1 : Env) : Prop :=
  e1.map.length = e.map.length ∧ ∀ i, e1.map.getD i 0 = e.map.getD i 0 ∨ e1.map.getD i 0 = 1

/-- A lattice point: both coordinates are multiples of `step`. -/
def on_lattice (e : Env) (p : point_t) : Prop :=
  e.step ∣ p.x ∧ e.step ∣ p.y

instance (e : Env) (p : point_t) : Decidable (on_lattice e p) := by
  unfold on_lattice; infer_instance

/-- A lattice point that is in bounds and visited. -/
def good_point (e : Env) (p : point_t) : Prop :=
  on_lattice e p ∧ in_bounds e p ∧ visited e p

instance (e : Env) (p : point_t) : Decidable (good_point e p) := by
  unfold good_point; infer_instance

/-- A head is sound in `e`: its store is well formed and its position and every
stored point are visited in-bounds lattice points. -/
def head_ok (e : Env) (h : head_t) : Prop :=
  h.branches.wf ∧ good_point e h.point ∧ ∀ b ∈ h.branches.elems, good_point e b

instance (e : Env) (h : head_t) : Decidable (head_ok e h) := by
  unfold head_ok; infer_instance

/-- The point `z` is the position of `h` or is held in its store. -/
def covers (h : head_t) (z : point_t) : Prop :=
  h.point = z ∨ z ∈ h.branches.elems

instance (h : head_t) (z : point_t) : Decidable (covers h z) := by
  unfold covers; infer_instance

/-- The index of the stored point `head_switch_branch` takes: random under
random switching, the last under depth first, the first under breadth first. -/
def switch_index (rnd : Nat → Nat) (e : Env) (head : head_t) : Nat :=
  match e.mode with
  | Mode.MODE_RANDOM_SWITCHING => rnd e.rand_calls % head.branches.length
  | Mode.MODE_DEPTH_FIRST => head.branches.length - 1
  | Mode.MODE_BREADTH_FIRST => 0

/-- The direction `update` picks for a head standing at `p`:
`paths._[rand() % paths._[0] + 1]`. -/
def chosen_direction (rnd : Nat → Nat) (e : Env) (p : point_t) : Int :=
  (get_paths e p).slots.getD
    (Int.tmod (rnd e.rand_calls) ((get_paths e p).slots.getD 0 0) + 1).toNat 0

/-- Number of visited cells of the map. -/
def visited_count (e : Env) : Nat :=
  e.map.count 1

/-- The head `h` in `e` comes from `h0` in `e0` by branch switches only: the
map is the same, the head is sound, it covers nothing new, and whatever it no
longer covers has no path left. -/
def switched (e0 : Env) (h0 : head_t) (e : Env) (h : head_t) : Prop :=
  same_cfg e0 e ∧ e.map = e0.map ∧ head_ok e h ∧ (∀ z, covers h z → covers h0 z) ∧
    ∀ z, covers h0 z → covers h z ∨ count_paths e0 z = 0

/-- What `update` has done to a head it removed: nothing to the map, and no
point the head covered has a path left. -/
def removed_summary (e0 : Env) (h0 : head_t) (e1 : Env) : Prop :=
  same_cfg e0 e1 ∧ e1.map = e0.map ∧ ∀ z, covers h0 z → count_paths e0 z = 0

/-- What `update` has done to a head it kept: the head went from a point `p` it
covered, in a direction `d` legal there, to the point `step` cells away; the
cells of that segment are in bounds and now visited, all other cells are as
before; the head covers its new position and otherwise only what it covered
before, and whatever it no longer covers has no path left. -/
def moved_summary (e0 : Env) (h0 : head_t) (e1 : Env) (h1 : head_t) : Prop :=
  same_cfg e0 e1 ∧ map_mono e0 e1 ∧ head_ok e1 h1 ∧
    ∃ p d, covers h0 p ∧ d ∈ legal_moves e0 p ∧ h1.point = displaced p d e0.step ∧
      h1.direction = d ∧
      (∀ j : Nat, 1 ≤ j → (j : Int) ≤ e0.step →
        in_bounds e0 (displaced p d j) ∧ visited e1 (displaced p d j)) ∧
      (∀ z, in_bounds e0 z → (∀ j : Nat, 1 ≤ j → (j : Int) ≤ e0.step → z ≠ displaced p d j) →
        cell e1 z.x z.y = cell e0 z.x z.y) ∧
      (∀ z, covers h1 z → z = h1.point ∨ covers h0 z) ∧
      ∀ z, covers h0 z → covers h1 z ∨ count_paths e1 z = 0

/-- The loop of `update` seen on the list of heads: each head in turn goes
through `update_head`; a removed head is dropped, a kept one is replaced by its
new value. -/
def run_heads (rnd : Nat → Nat) : Env → List head_t → Env × List head_t
  | e, [] => (e, [])
  | e, h :: t =>
    let r := update_head rnd e h
    let rest := run_heads rnd r.1 t
    (rest.1, if r.2.2 then rest.2 else r.2.1 :: rest.2)

/-- The head pool is well formed: its elements lie inside its buffer and its
length is a `size_t` value. -/
def pool_wf (heads : blist_t head_t) : Prop :=
  heads.length ≤ heads.array.length ∧ heads.length < SIZE_MOD

instance (heads : blist_t head_t) : Decidable (pool_wf heads) := by
  unfold pool_wf; infer_instance

/-- The pool invariant: the grid is well formed, every head is sound, and every
visited in-bounds lattice point that still has a path is covered by some head. -/
def pool_inv (e : Env) (l : List head_t) : Prop :=
  grid_wf e ∧ (∀ h ∈ l, head_ok e h) ∧
    ∀ z, good_point e z → count_paths e z ≠ 0 → ∃ h ∈ l, covers h z

/-- The invariant of the simulation state. -/
def state_inv (s : State) : Prop :=
  pool_wf s.heads ∧ pool_inv s.env s.heads.elems

/-- Spec 6, a valid configuration: both dimensions in lattice units exceed 1,
`step` is at least 1 and there is at least one head. -/
def valid_config (c : Config) : Prop :=
  1 < c.maze_width ∧ 1 < c.maze_height ∧ 1 ≤ c.step ∧ 1 ≤ c.numHeads

instance (c : Config) : Decidable (valid_config c) := by
  unfold valid_config; infer_instance

/-- The configuration keeps the `int` arithmetic of `main` in range: the head
count does not exceed `INT_MAX`, the window size is a non-negative `int`, and
the two products `units * step` and the map size `W * H` do not exceed
`INT_MAX`. -/
def int_config (c : Config) : Prop :=
  c.numHeads ≤ INT_MAX ∧ 0 ≤ c.window_width ∧ c.window_width ≤ INT_MAX ∧
    0 ≤ c.window_height ∧ c.window_height ≤ INT_MAX ∧
    c.maze_width * c.step ≤ INT_MAX ∧ c.maze_height * c.step ≤ INT_MAX ∧
    (c.maze_width * c.step - 1) * (c.maze_height * c.step - 1) ≤ INT_MAX

instance (c : Config) : Decidable (int_config c) := by
  unfold int_config; infer_instance

/-- The invariant of the head-creating loop of `main`: the pool and the grid
are well formed, a lattice step fits into either dimension, every head is sound
with an empty store, and every visited cell is the position of a head. -/
def setup_inv (s : State) : Prop :=
  s.heads.wf ∧ grid_wf s.env ∧ s.env.step ≤ s.env.maze_width ∧
    s.env.step ≤ s.env.maze_height ∧
    (∀ h ∈ s.heads.elems, head_ok s.env h ∧ h.branches.elems = []) ∧
    ∀ z, in_bounds s.env z → visited s.env z → ∃ h ∈ s.heads.elems, h.point = z

/-- Every slot of the map holds 0 or 1. -/
def binary_map (e : Env) : Prop :=
  ∀ i, e.map.getD i 0 ≤ 1

/-- Two cells are 4-adjacent: they differ by one in exactly one coordinate. -/
def adjacent (a b : point_t) : Prop :=
  (a.x = b.x ∧ (a.y = b.y + 1 ∨ b.y = a.y + 1)) ∨
    (a.y = b.y ∧ (a.x = b.x + 1 ∨ b.x = a.x + 1))

instance (a b : point_t) : Decidable (adjacent a b) := by
  unfold adjacent; infer_instance

/-- Two 4-adjacent cells that are both in bounds and visited. -/
def joined (e : Env) (a b : point_t) : Prop :=
  adjacent a b ∧ in_bounds e a ∧ visited e a ∧ in_bounds e b ∧ visited e b

/-- There is a path of 4-adjacent visited in-bounds cells from `a` to `b`. -/
def linked (e : Env) (a b : point_t) : Prop :=
  Relation.ReflTransGen (joined e) a b

/-- The visited cells form exactly one 4-connected region: there is a visited
cell, and any two visited cells are linked. -/
def one_region (e : Env) : Prop :=
  (∃ a, in_bounds e a ∧ visited e a) ∧
    ∀ a b, in_bounds e a → visited e a → in_bounds e b → visited e b → linked e a b

/-! ## Sample inputs -/

/-- A sample stream of `rand()` results. -/
def sample_rnd : Nat → Nat :=
  fun k => (k * 7919 + 13) % 1000

/-- A sample configuration: 3 x 3 lattice units, step 2, one head, depth first. -/
def sample_config : Config :=
  { maze_width := 3, maze_height := 3, step := 2, numHeads := 1, switch_chance := 10,
    mode := Mode.MODE_DEPTH_FIRST }

/-- The state `main` builds from `sample_config` with `sample_rnd`: a 5 x 5 grid
with one head at `(2, 0)`. -/
def sample_state : State :=
  { env :=
      { step := 2, maze_width := 5, maze_height := 5, switch_chance := 10,
        mode := Mode.MODE_DEPTH_FIRST,
        map := [0, 0, 1, 0, 0, 0, 0, 0, 0, 0, 0, 0, 0, 0, 0, 0, 0, 0, 0, 0, 0, 0, 0, 0, 0],
        rand_calls := 3 }
    heads :=
      { array := [{ point := { x := 2, y := 0 }, direction := 3, branches := blist_init 10 }],
        length := 1, capacity := 1 } }

/-- A sample head at `(4, 4)` whose store was empty before it pushed `(2, 0)` and
then `(0, 2)`. -/
def sample_head : head_t :=
  head_push_branch
    (head_push_branch { point := { x := 4, y := 4 }, direction := 0, branches := blist_init 10 }
      { x := 2, y := 0 })
    { x := 0, y := 2 }

/-- The sample grid with all nine lattice points visited, under a given mode and
switch chance. -/
def sample_full_env (mode : Mode) (switch_chance : Int) : Env :=
  { step := 2, maze_width := 5, maze_height := 5, switch_chance := switch_chance, mode := mode,
    map := [1, 1, 1, 0, 1, 1, 0, 0, 0, 1, 1, 1, 1, 0, 1, 0, 0, 1, 0, 1, 1, 1, 1, 1, 1],
    rand_calls := 0 }

/-- A stream of `rand()` results that is constantly 0. -/
def zero_rnd : Nat → Nat :=
  fun _ => 0

/-- A configuration with 3 x 3 lattice units and the non-positive step `-1`
(as given by `-step -1` on the command line). -/
def negative_step_config : Config :=
  { maze_width := 3, maze_height := 3, step := -1, numHeads := 1, switch_chance := 10,
    mode := Mode.MODE_DEPTH_FIRST }

/-- The smallest valid configuration: 2 x 2 lattice units, step 1, one head. -/
def smallest_config : Config :=
  { maze_width := 2, maze_height := 2, step := 1, numHeads := 1, switch_chance := 10,
    mode := Mode.MODE_DEPTH_FIRST }

/-- A configuration whose width is 1. -/
def width_one_config : Config :=
  { maze_width := 1, maze_height := 5, step := 2, numHeads := 1, switch_chance := 10,
    mode := Mode.MODE_DEPTH_FIRST }

/-- A configuration with 3 x 3 lattice units and step 0. -/
def zero_step_config : Config :=
  { maze_width := 3, maze_height := 3, step := 0, numHeads := 1, switch_chance := 10,
    mode := Mode.MODE_DEPTH_FIRST }

/-- A configuration with 3 x 3 lattice units, step 2 and the head count `-1`. -/
def negative_heads_config : Config :=
  { maze_width := 3, maze_height := 3, step := 2, numHeads := -1, switch_chance := 10,
    mode := Mode.MODE_DEPTH_FIRST }

/-- A valid configuration whose product `units * step` is `2 ^ 32`, outside the
`int` range. -/
def wide_config : Config :=
  { maze_width := 65536, maze_height := 65536, step := 65536, numHeads := 1,
    switch_chance := 10, mode := Mode.MODE_DEPTH_FIRST }

/-- A valid configuration whose sizes `W = H = 65537` fit an `int` while the map
size `W * H` does not. -/
def large_map_config : Config :=
  { maze_width := 32769, maze_height := 32769, step := 2, numHeads := 1,
    switch_chance := 10, mode := Mode.MODE_DEPTH_FIRST }

/-- The environment, the head and the flag `removed` at the point of `update`
where the stuck-switching loop has run for `head` (after line 487). -/
def after_stuck_loop (rnd : Nat → Nat) (e : Env) (head : head_t) : Env × head_t × Bool :=
  update_stuck_loop rnd ((update_random_switch rnd e head).2.branches.length + 1)
    (update_random_switch rnd e head).1 (update_random_switch rnd e head).2

/-- A 5 x 5 grid with two heads: the first, at `(0, 0)`, has no move and no
stored branch; the second, at `(2, 0)`, can still move. -/
def two_head_state : State :=
  { env :=
      { step := 2, maze_width := 5, maze_height := 5, switch_chance := 10,
        mode := Mode.MODE_DEPTH_FIRST,
        map := [1, 1, 1, 0, 0, 1, 0, 0, 0, 0, 1, 0, 0, 0, 0, 0, 0, 0, 0, 0, 0, 0, 0, 0, 0],
        rand_calls := 0 }
    heads :=
      { array :=
          [{ point := { x := 0, y := 0 }, direction := 3, branches := blist_init 10 },
            { point := { x := 2, y := 0 }, direction := 2, branches := blist_init 10 }],
        length := 2, capacity := 2 } }

/-- One of the four directions. -/
def is_direction (d : Int) : Prop :=
  d = MOVE_UP ∨ d = MOVE_RIGHT ∨ d = MOVE_DOWN ∨ d = MOVE_LEFT

instance (d : Int) : Decidable (is_direction d) := by
  unfold is_direction; infer_instance

/-- The corridor invariant: a visited in-bounds cell lying strictly inside the
segment that joins a lattice point `p` to its lattice neighbour in direction `d`
has that neighbour in bounds and visited (and, by symmetry, `p` as well): cells
between lattice points are only ever visited by a move along their segment. -/
def edge_inv (e : Env) : Prop :=
  ∀ (p : point_t) (d : Int) (j : Int), on_lattice e p → is_direction d → 0 < j → j < e.step →
    in_bounds e (displaced p d j) → visited e (displaced p d j) →
    in_bounds e (displaced p d e.step) ∧ visited e (displaced p d e.step)

/-- The invariant behind "a head never revisits a cell": the pool invariant, a
binary map and the corridor invariant. -/
def carve_inv (e : Env) (l : List head_t) : Prop :=
  pool_inv e l ∧ binary_map e ∧ edge_inv e

/-- The position of a head and the points of its Branch Store are pairwise
different: the store holds no point twice and does not hold the position. -/
def head_distinct (h : head_t) : Prop :=
  (h.point :: h.branches.elems).Nodup

instance (h : head_t) : Decidable (head_distinct h) := by
  unfold head_distinct; infer_instance

/-- A sample configuration with three heads under random switching. -/
def random_config : Config :=
  { maze_width := 4, maze_height := 3, step := 2, numHeads := 3, switch_chance := 50,
    mode := Mode.MODE_RANDOM_SWITCHING }

/-! ## Lemmas on blist -/

theorem blist_shift_length {α : Type} [Inhabited α] (n i : Nat) (array : List α) :
    (blist_shift n i array).length = array.length := by
  induction n generalizing i array with
  | zero => rfl
  | succ n ih => simp [blist_shift, ih]

theorem blist_shift_getElem? {α : Type} [Inhabited α] (n i : Nat) (array : List α)
    (h : i + n < array.length) (j : Nat) :
    (blist_shift n i array)[j]? = if i ≤ j ∧ j < i + n then array[j + 1]? else array[j]? := by
  induction n generalizing i array with
  | zero =>
    have h0 : ¬ (i ≤ j ∧ j < i) := by omega
    simp [blist_shift, h0]
  | succ n ih =>
    have hlen : i + 1 + n < (array.set i (array.getD (i + 1) default)).length := by
      rw [List.length_set]; omega
    rw [blist_shift, ih _ _ hlen]
    simp only [List.getElem?_set]
    by_cases hj : j = i
    · subst hj
      have h1 : j + 1 < array.length := by omega
      have h2 : j < array.length := by omega
      simp [h2, List.getD_eq_getElem?_getD, List.getElem?_eq_getElem h1]
    · have e1 : ¬ (i = j) := fun h => hj h.symm
      by_cases h4 : i + 1 ≤ j ∧ j < i + 1 + n
      · have h5 : i ≤ j ∧ j < i + (n + 1) := by omega
        have e3 : ¬ (i = j + 1) := by omega
        simp [h4, h5, e3]
      · have h5 : ¬ (i ≤ j ∧ j < i + (n + 1)) := by omega
        simp [h4, h5, e1]

theorem take_set_self {α : Type} (l : List α) (n : Nat) (a : α) :
    (l.set n a).take n = l.take n := by
  apply List.ext_getElem?
  intro j
  simp only [List.getElem?_take, List.getElem?_set]
  by_cases h : j < n
  · have h1 : ¬ (n = j) := by omega
    simp [h, h1]
  · simp [h]

theorem blist_remove_elems {α : Type} [Inhabited α] (self : blist_t α) (index : Nat)
    (hl : self.length ≤ self.array.length) (hi : index < self.length) :
    (blist_remove self index).elems = self.elems.eraseIdx index := by
  apply List.ext_getElem?
  intro j
  have hs : index + (self.length - 1 - index) < self.array.length := by omega
  simp only [blist_t.elems, blist_remove, List.getElem?_take, List.getElem?_eraseIdx,
    blist_shift_getElem? _ _ _ hs]
  by_cases h1 : j < self.length - 1
  · by_cases h2 : j < index
    · have h3 : ¬ (index ≤ j ∧ j < index + (self.length - 1 - index)) := by omega
      have h4 : j < self.length := by omega
      simp [h1, h2, h3, h4]
    · have h3 : index ≤ j ∧ j < index + (self.length - 1 - index) := by omega
      have h4 : j + 1 < self.length := by omega
      simp [h1, h2, h3, h4]
  · by_cases h2 : j < index
    · omega
    · have h4 : ¬ (j + 1 < self.length) := by omega
      simp [h1, h2, h4]

theorem blist_remove_length {α : Type} [Inhabited α] (self : blist_t α) (index : Nat) :
    (blist_remove self index).length = self.length - 1 := rfl

theorem blist_remove_capacity {α : Type} [Inhabited α] (self : blist_t α) (index : Nat) :
    (blist_remove self index).capacity = self.capacity := rfl

theorem blist_remove_array_length {α : Type} [Inhabited α] (self : blist_t α) (index : Nat) :
    (blist_remove self index).array.length = self.array.length := by
  simp [blist_remove, blist_shift_length]

theorem blist_remove_wf {α : Type} [Inhabited α] (self : blist_t α) (index : Nat)
    (h : self.wf) : (blist_remove self index).wf := by
  obtain ⟨h1, h2⟩ := h
  refine ⟨?_, ?_⟩
  · simp only [blist_remove_length, blist_remove_capacity]; omega
  · rw [blist_remove_array_length, blist_remove_capacity]; exact h2

theorem blist_pop_elems {α : Type} (self : blist_t α)
    (hl : self.length ≤ self.array.length) :
    (blist_pop self).elems = self.elems.dropLast := by
  unfold blist_pop blist_t.elems
  by_cases h : self.length = 0
  · simp [h]
  · simp only [ne_eq, h, not_false_eq_true, ↓reduceIte, List.dropLast_eq_take, List.length_take,
      List.take_take]
    congr 1
    omega

theorem blist_pop_length {α : Type} (self : blist_t α) :
    (blist_pop self).length = self.length - 1 := by
  unfold blist_pop
  by_cases h : self.length = 0 <;> simp [h]

theorem blist_pop_wf {α : Type} (self : blist_t α) (h : self.wf) : (blist_pop self).wf := by
  obtain ⟨h1, h2⟩ := h
  unfold blist_pop
  by_cases h0 : self.length = 0
  · simp [h0, blist_t.wf, h2]
  · simp only [ne_eq, h0, not_false_eq_true, ↓reduceIte, blist_t.wf]
    exact ⟨by omega, h2⟩

theorem blist_extend_wf {α : Type} [Inhabited α] (self : blist_t α) (h : self.wf) :
    (blist_extend self).wf ∧ self.capacity < (blist_extend self).capacity ∧
      (blist_extend self).length = self.length ∧
      (blist_extend self).array.take self.capacity = self.array := by
  obtain ⟨h1, h2⟩ := h
  unfold blist_extend blist_t.wf
  by_cases hc : self.capacity = 0
  · simp [hc, h2]
    omega
  · simp only [ne_eq, hc, not_false_eq_true, ↓reduceIte, List.length_append,
      List.length_replicate]
    refine ⟨⟨by omega, by omega⟩, by omega, trivial, ?_⟩
    rw [← h2]; simp

theorem blist_push_spec {α : Type} [Inhabited α] (self : blist_t α) (data : α) (h : self.wf) :
    (blist_push self data).wf ∧ (blist_push self data).elems = self.elems ++ [data] ∧
      (blist_push self data).length = self.length + 1 := by
  obtain ⟨hx1, hx2, hx3, hx4⟩ := blist_extend_wf self h
  obtain ⟨h1, h2⟩ := h
  by_cases hf : self.length = self.capacity
  · have hlt : self.length < (blist_extend self).capacity := by omega
    have hnot : ¬ (self.length ≥ (blist_extend self).capacity) := by omega
    have hal : self.length < (blist_extend self).array.length := by rw [hx1.2]; exact hlt
    refine ⟨?_, ?_, ?_⟩
    · simp only [blist_push, hf, ↓reduceIte, blist_set, hx3, blist_t.wf]
      rw [← hf]
      simp only [hnot, ↓reduceIte, List.length_set]
      exact ⟨hlt, hx1.2⟩
    · simp only [blist_push, hf, ↓reduceIte, blist_set, hx3, blist_t.elems]
      rw [← hf]
      simp only [hnot, ↓reduceIte]
      rw [List.take_succ, List.getElem?_set]
      simp only [↓reduceIte, hal, Option.toList_some]
      congr 1
      rw [take_set_self]
      rw [hf, hx4, ← h2, List.take_length]
    · simp [blist_push, hf, blist_set, hx3]
  · have hlt : self.length < self.capacity := by omega
    have hnot : ¬ (self.length ≥ self.capacity) := by omega
    have hal : self.length < self.array.length := by omega
    refine ⟨?_, ?_, ?_⟩
    · simp only [blist_push, hf, ↓reduceIte, blist_set, hnot, blist_t.wf, List.length_set]
      exact ⟨hlt, h2⟩
    · simp only [blist_push, hf, ↓reduceIte, blist_set, hnot, blist_t.elems]
      rw [List.take_succ, List.getElem?_set]
      simp only [↓reduceIte, hal, Option.toList_some]
      congr 1
      rw [take_set_self]
    · simp [blist_push, hf, blist_set, hnot]

theorem blist_init_wf {α : Type} [Inhabited α] (capacity : Nat) :
    (blist_init capacity : blist_t α).wf ∧ (blist_init capacity : blist_t α).elems = [] := by
  simp [blist_init, blist_t.wf, blist_t.elems]

theorem blist_get_elems {α : Type} [Inhabited α] (self : blist_t α) (index : Nat)
    (hi : index < self.length) :
    blist_get self index = self.elems.getD index default := by
  simp [blist_get, blist_t.elems, List.getD_eq_getElem?_getD, List.getElem?_take, hi]

theorem blist_elems_length {α : Type} (self : blist_t α)
    (hl : self.length ≤ self.array.length) : self.elems.length = self.length := by
  simp [blist_t.elems, hl]

/-! ## Path evaluator -/

theorem can_move_iff (e : Env) (x y : Int) :
    can_move e x y = true ↔ is_free e { x := x, y := y } := by
  simp only [can_move, out_of_bounds, is_free, in_bounds, cell, Bool.and_eq_true,
    Bool.not_eq_true', decide_eq_false_iff_not, beq_iff_eq]
  constructor
  · rintro ⟨h1, h2⟩
    exact ⟨by omega, h2⟩
  · rintro ⟨h1, h2⟩
    exact ⟨by omega, h2⟩

theorem displaced_up (p : point_t) (k : Int) :
    displaced p MOVE_UP k = { x := p.x, y := p.y - k } := by
  simp [displaced, dir_dx, dir_dy, MOVE_UP, MOVE_RIGHT, MOVE_LEFT, MOVE_DOWN]
  omega

theorem displaced_right (p : point_t) (k : Int) :
    displaced p MOVE_RIGHT k = { x := p.x + k, y := p.y } := by
  simp [displaced, dir_dx, dir_dy, MOVE_UP, MOVE_RIGHT, MOVE_LEFT, MOVE_DOWN]

theorem displaced_down (p : point_t) (k : Int) :
    displaced p MOVE_DOWN k = { x := p.x, y := p.y + k } := by
  simp [displaced, dir_dx, dir_dy, MOVE_UP, MOVE_RIGHT, MOVE_LEFT, MOVE_DOWN]

theorem displaced_left (p : point_t) (k : Int) :
    displaced p MOVE_LEFT k = { x := p.x - k, y := p.y } := by
  simp [displaced, dir_dx, dir_dy, MOVE_UP, MOVE_RIGHT, MOVE_LEFT, MOVE_DOWN]
  omega

theorem can_move_eq_decide (e : Env) (x y : Int) :
    can_move e x y = decide (is_free e { x := x, y := y }) := by
  rw [Bool.eq_iff_iff, can_move_iff]
  simp

theorem get_paths_eq (e : Env) (p : point_t) :
    (get_paths e p).slots =
      ((legal_moves e p).length : Int) ::
        (legal_moves e p ++ List.replicate (4 - (legal_moves e p).length) 0) := by
  unfold get_paths legal_moves
  rw [can_move_eq_decide, can_move_eq_decide, can_move_eq_decide, can_move_eq_decide,
    ← displaced_up, ← displaced_right, ← displaced_down, ← displaced_left]
  simp only [List.filter]
  generalize decide (is_free e (displaced p MOVE_UP e.step)) = b1
  generalize decide (is_free e (displaced p MOVE_RIGHT e.step)) = b2
  generalize decide (is_free e (displaced p MOVE_DOWN e.step)) = b3
  generalize decide (is_free e (displaced p MOVE_LEFT e.step)) = b4
  cases b1 <;> cases b2 <;> cases b3 <;> cases b4 <;> rfl

theorem legal_moves_mem (e : Env) (p : point_t) (d : Int) :
    d ∈ legal_moves e p ↔
      (d = MOVE_UP ∨ d = MOVE_RIGHT ∨ d = MOVE_DOWN ∨ d = MOVE_LEFT) ∧
        is_free e (displaced p d e.step) := by
  simp [legal_moves, List.mem_filter]

theorem legal_moves_length_le (e : Env) (p : point_t) : (legal_moves e p).length ≤ 4 := by
  unfold legal_moves
  exact (List.length_filter_le _ _).trans (by simp)

theorem count_paths_eq (e : Env) (p : point_t) :
    count_paths e p = ((legal_moves e p).length : Int) := by
  simp [count_paths, get_paths_eq]

theorem listed_paths_eq (e : Env) (p : point_t) :
    listed_paths (get_paths e p) = legal_moves e p := by
  simp [listed_paths, get_paths_eq]

theorem count_paths_ne_zero_iff (e : Env) (p : point_t) :
    count_paths e p ≠ 0 ↔ ∃ d, d ∈ legal_moves e p := by
  rw [count_paths_eq]
  constructor
  · intro h
    have h1 : legal_moves e p ≠ [] := by
      intro h2
      simp [h2] at h
    obtain ⟨d, hd⟩ := List.exists_mem_of_ne_nil _ h1
    exact ⟨d, hd⟩
  · rintro ⟨d, hd⟩ h
    have h1 : (legal_moves e p).length = 0 := by exact_mod_cast h
    rw [List.length_eq_zero] at h1
    simp [h1] at hd

/-- The direction `update` picks, `paths._[rand() % paths._[0] + 1]`, is one of the
listed directions whenever the count is not zero. -/
theorem chosen_direction_mem (e : Env) (p : point_t) (r : Nat) (h : count_paths e p ≠ 0) :
    (get_paths e p).slots.getD
      (Int.tmod r ((get_paths e p).slots.getD 0 0) + 1).toNat 0 ∈ legal_moves e p := by
  have hc : (get_paths e p).slots.getD 0 0 = ((legal_moves e p).length : Int) :=
    count_paths_eq e p
  rw [hc]
  rw [count_paths_eq] at h
  have hpos : 0 < (legal_moves e p).length := by
    rcases Nat.eq_zero_or_pos (legal_moves e p).length with h0 | h0
    · rw [h0] at h; exact absurd rfl h
    · exact h0
  have hk : (Int.tmod r ((legal_moves e p).length : Int) + 1).toNat =
      r % (legal_moves e p).length + 1 := by
    rw [Int.tmod_eq_emod (by positivity) (by positivity)]
    have : ((r : Int) % ((legal_moves e p).length : Int)) =
        ((r % (legal_moves e p).length : Nat) : Int) := by
      norm_cast
    rw [this]
    omega
  rw [hk, get_paths_eq]
  have hlt : r % (legal_moves e p).length < (legal_moves e p).length := Nat.mod_lt _ hpos
  simp only [List.getD_cons_succ]
  rw [List.getD_eq_getElem?_getD, List.getElem?_append_left hlt,
    List.getElem?_eq_getElem hlt]
  simp

/-! ## Grid arithmetic -/

theorem cell_index_lt (e : Env) (p : point_t) (hg : grid_wf e) (hp : in_bounds e p) :
    cell_index e p.x p.y < e.map.length := by
  obtain ⟨h1, h2, h3, h4⟩ := hp
  rw [hg.2]
  unfold cell_index
  have h5 : 0 ≤ (e.maze_height - 1 - p.y) * e.maze_width :=
    mul_nonneg (by omega) (by omega)
  have h6 : 0 ≤ p.y * e.maze_width := mul_nonneg h3 (by omega)
  have h7 : p.y * e.maze_width + p.x < e.maze_width * e.maze_height := by nlinarith
  omega

theorem cell_index_inj (e : Env) (p z : point_t) (hp : in_bounds e p) (hz : in_bounds e z)
    (h : cell_index e p.x p.y = cell_index e z.x z.y) : p = z := by
  obtain ⟨h1, h2, h3, h4⟩ := hp
  obtain ⟨k1, k2, k3, k4⟩ := hz
  unfold cell_index at h
  have a1 : 0 ≤ p.y * e.maze_width := mul_nonneg h3 (by omega)
  have a2 : 0 ≤ z.y * e.maze_width := mul_nonneg k3 (by omega)
  have h5 : p.y * e.maze_width + p.x = z.y * e.maze_width + z.x := by omega
  have hy : p.y = z.y := by
    rcases lt_trichotomy p.y z.y with hlt | heq | hgt
    · exfalso
      have : 0 ≤ (z.y - p.y - 1) * e.maze_width := mul_nonneg (by omega) (by omega)
      nlinarith
    · exact heq
    · exfalso
      have : 0 ≤ (p.y - z.y - 1) * e.maze_width := mul_nonneg (by omega) (by omega)
      nlinarith
  have hx : p.x = z.x := by
    rw [hy] at h5
    omega
  cases p; cases z
  simp only [point_t.mk.injEq]
  exact ⟨hx, hy⟩

/-- Writing 1 into a slot of the map only adds visited cells. -/
theorem getD_set_one (m : List Nat) (k i : Nat) :
    (m.set k 1).getD i 0 = m.getD i 0 ∨ (m.set k 1).getD i 0 = 1 := by
  simp only [List.getD_eq_getElem?_getD, List.getElem?_set]
  by_cases h : k = i
  · subst h
    by_cases h2 : k < m.length
    · right; simp [h2]
    · left
      have : m.length ≤ k := by omega
      simp [h2, List.getElem?_eq_none this]
  · left; simp [h]

theorem getD_set_one_eq (m : List Nat) (k : Nat) (h : k < m.length) :
    (m.set k 1).getD k 0 = 1 := by
  simp [List.getD_eq_getElem?_getD, List.getElem?_set, h]

theorem getD_set_one_ne (m : List Nat) (k i : Nat) (h : k ≠ i) :
    (m.set k 1).getD i 0 = m.getD i 0 := by
  simp [List.getD_eq_getElem?_getD, List.getElem?_set, h]

theorem same_cfg_refl (e : Env) : same_cfg e e := ⟨rfl, rfl, rfl, rfl, rfl⟩

theorem same_cfg_trans {e e1 e2 : Env} (h1 : same_cfg e e1) (h2 : same_cfg e1 e2) :
    same_cfg e e2 := by
  obtain ⟨a1, a2, a3, a4, a5⟩ := h1
  obtain ⟨b1, b2, b3, b4, b5⟩ := h2
  exact ⟨b1.trans a1, b2.trans a2, b3.trans a3, b4.trans a4, b5.trans a5⟩

theorem map_mono_refl (e : Env) : map_mono e e := ⟨rfl, fun _ => Or.inl rfl⟩

theorem map_mono_trans {e e1 e2 : Env} (h1 : map_mono e e1) (h2 : map_mono e1 e2) :
    map_mono e e2 := by
  refine ⟨h2.1.trans h1.1, fun i => ?_⟩
  rcases h2.2 i with h | h
  · rw [h]; exact h1.2 i
  · exact Or.inr h

theorem map_mono_visited {e e1 : Env} (h : map_mono e e1) (i : Nat)
    (hv : e.map.getD i 0 = 1) : e1.map.getD i 0 = 1 := by
  rcases h.2 i with h1 | h1
  · rw [h1]; exact hv
  · exact h1

theorem cell_index_cfg {e e1 : Env} (hc : same_cfg e e1) (x y : Int) :
    cell_index e1 x y = cell_index e x y := by
  unfold cell_index; rw [hc.2.1]

theorem in_bounds_cfg {e e1 : Env} (hc : same_cfg e e1) (p : point_t) :
    in_bounds e1 p ↔ in_bounds e p := by
  unfold in_bounds; rw [hc.2.1, hc.2.2.1]

theorem on_lattice_cfg {e e1 : Env} (hc : same_cfg e e1) (p : point_t) :
    on_lattice e1 p ↔ on_lattice e p := by
  unfold on_lattice; rw [hc.1]

theorem grid_wf_mono {e e1 : Env} (hc : same_cfg e e1) (hm : map_mono e e1)
    (hg : grid_wf e) : grid_wf e1 := by
  unfold grid_wf
  rw [hc.1, hc.2.1, hc.2.2.1, hm.1]
  exact hg

theorem visited_mono {e e1 : Env} (hc : same_cfg e e1) (hm : map_mono e e1) (p : point_t)
    (hv : visited e p) : visited e1 p := by
  unfold visited cell at *
  rw [cell_index_cfg hc]
  exact map_mono_visited hm _ hv

theorem good_point_mono {e e1 : Env} (hc : same_cfg e e1) (hm : map_mono e e1) (p : point_t)
    (hv : good_point e p) : good_point e1 p :=
  ⟨(on_lattice_cfg hc p).mpr hv.1, (in_bounds_cfg hc p).mpr hv.2.1,
    visited_mono hc hm p hv.2.2⟩

theorem head_ok_mono {e e1 : Env} (hc : same_cfg e e1) (hm : map_mono e e1) (h : head_t)
    (hv : head_ok e h) : head_ok e1 h :=
  ⟨hv.1, good_point_mono hc hm _ hv.2.1, fun b hb => good_point_mono hc hm b (hv.2.2 b hb)⟩

/-- A cell that is free later was free before: the map only grows. -/
theorem is_free_anti {e e1 : Env} (hc : same_cfg e e1) (hm : map_mono e e1) (p : point_t)
    (hf : is_free e1 p) : is_free e p := by
  refine ⟨(in_bounds_cfg hc p).mp hf.1, ?_⟩
  have h2 := hf.2
  unfold cell at *
  rw [cell_index_cfg hc] at h2
  rcases hm.2 (cell_index e p.x p.y) with h | h
  · rw [← h]; exact h2
  · rw [h] at h2; exact absurd h2 (by decide)

theorem legal_moves_anti {e e1 : Env} (hc : same_cfg e e1) (hm : map_mono e e1) (p : point_t)
    (d : Int) (hd : d ∈ legal_moves e1 p) : d ∈ legal_moves e p := by
  rw [legal_moves_mem] at hd ⊢
  refine ⟨hd.1, ?_⟩
  have := is_free_anti hc hm _ hd.2
  rw [hc.1] at this
  exact this

theorem count_paths_anti {e e1 : Env} (hc : same_cfg e e1) (hm : map_mono e e1) (p : point_t)
    (h : count_paths e1 p ≠ 0) : count_paths e p ≠ 0 := by
  rw [count_paths_ne_zero_iff] at h ⊢
  obtain ⟨d, hd⟩ := h
  exact ⟨d, legal_moves_anti hc hm p d hd⟩

/-! ## head_switch_branch -/

theorem rand_cfg (rnd : Nat → Nat) (e : Env) : same_cfg e (rand rnd e).2 :=
  ⟨rfl, rfl, rfl, rfl, rfl⟩

theorem rand_map (rnd : Nat → Nat) (e : Env) : (rand rnd e).2.map = e.map := rfl

theorem switch_index_lt (rnd : Nat → Nat) (e : Env) (h : head_t)
    (hlen : 0 < h.branches.length) : switch_index rnd e h < h.branches.length := by
  unfold switch_index
  cases e.mode
  · exact Nat.mod_lt _ hlen
  · simp only; omega
  · exact hlen

theorem head_switch_branch_env (rnd : Nat → Nat) (e : Env) (h : head_t) :
    same_cfg e (head_switch_branch rnd e h).1 ∧ (head_switch_branch rnd e h).1.map = e.map ∧
      (head_switch_branch rnd e h).1 =
        (if e.mode = Mode.MODE_RANDOM_SWITCHING then (rand rnd e).2 else e) := by
  rcases e with ⟨st, w, hh, sc, mode, map, rc⟩
  cases mode <;> exact ⟨⟨rfl, rfl, rfl, rfl, rfl⟩, rfl, rfl⟩

theorem head_switch_branch_spec (rnd : Nat → Nat) (e : Env) (h : head_t)
    (hwf : h.branches.wf) (hlen : 0 < h.branches.length) :
    h.branches.elems[switch_index rnd e h]? = some (head_switch_branch rnd e h).2.point ∧
      (head_switch_branch rnd e h).2.branches.elems =
        h.branches.elems.eraseIdx (switch_index rnd e h) ++
          (if count_paths e h.point ≠ 0 then [h.point] else []) ∧
      (head_switch_branch rnd e h).2.branches.wf ∧
      (head_switch_branch rnd e h).2.direction = h.direction := by
  have hidx := switch_index_lt rnd e h hlen
  have hal : h.branches.length ≤ h.branches.array.length := by
    rw [hwf.2]; exact hwf.1
  -- the point taken and the store left behind, whatever the mode
  have key : ∀ (e1 : Env) (branch : point_t) (branches : blist_t point_t),
      count_paths e1 h.point = count_paths e h.point →
      branch = blist_get h.branches (switch_index rnd e h) →
      branches.elems = h.branches.elems.eraseIdx (switch_index rnd e h) →
      branches.wf →
      let head1 : head_t := { h with branches := branches }
      let head2 :=
        if count_paths e1 head1.point ≠ 0 then head_push_branch head1 head1.point else head1
      let r : head_t := { head2 with point := { x := branch.x, y := branch.y } }
      h.branches.elems[switch_index rnd e h]? = some r.point ∧
        r.branches.elems = h.branches.elems.eraseIdx (switch_index rnd e h) ++
          (if count_paths e h.point ≠ 0 then [h.point] else []) ∧
        r.branches.wf ∧ r.direction = h.direction := by
    intro e1 branch branches hcp hb hel hw
    have hpt : h.branches.elems[switch_index rnd e h]? = some branch := by
      rw [hb, blist_get_elems _ _ hidx, List.getD_eq_getElem?_getD]
      have : switch_index rnd e h < h.branches.elems.length := by
        rw [blist_elems_length _ hal]; exact hidx
      rw [List.getElem?_eq_getElem this]
      rfl
    simp only [hcp]
    by_cases hc : count_paths e h.point = 0
    · simp only [hc, ne_eq, not_true_eq_false, ↓reduceIte, List.append_nil]
      exact ⟨hpt, hel, hw, trivial⟩
    · simp only [hc, ne_eq, not_false_eq_true, ↓reduceIte, head_push_branch]
      obtain ⟨p1, p2, _⟩ := blist_push_spec branches { x := h.point.x, y := h.point.y } hw
      exact ⟨hpt, by rw [p2, hel], p1, trivial⟩
  rcases e with ⟨st, w, hh, sc, mode, map, rc⟩
  cases mode
  · exact key _ _ _ rfl rfl (blist_remove_elems _ _ hal hidx) (blist_remove_wf _ _ hwf)
  · refine key _ _ _ rfl rfl ?_ (blist_pop_wf _ hwf)
    rw [blist_pop_elems _ hal]
    apply List.dropLast_eq_eraseIdx
    rw [blist_elems_length _ hal]
    simp only [switch_index]
    omega
  · exact key _ _ _ rfl rfl (blist_remove_elems _ _ hal hidx) (blist_remove_wf _ _ hwf)

/-- A switch made at a position without paths takes one point and pushes none. -/
theorem head_switch_branch_length (rnd : Nat → Nat) (e : Env) (h : head_t)
    (hc : count_paths e h.point = 0) :
    (head_switch_branch rnd e h).2.branches.length = h.branches.length - 1 := by
  rcases e with ⟨st, w, hh, sc, mode, map, rc⟩
  cases mode
  · have hc1 : count_paths (rand rnd ⟨st, w, hh, sc, Mode.MODE_RANDOM_SWITCHING, map, rc⟩).2
        h.point = 0 := hc
    simp [head_switch_branch, hc1, blist_remove_length]
  · simp [head_switch_branch, hc, blist_pop_length]
  · simp [head_switch_branch, hc, blist_remove_length]

/-! ## The carving loop -/

theorem displaced_zero (p : point_t) (d : Int) : displaced p d 0 = p := by
  simp [displaced]

theorem displaced_add (p : point_t) (d : Int) (a b : Int) :
    displaced (displaced p d a) d b = displaced p d (a + b) := by
  simp only [displaced, point_t.mk.injEq]
  constructor <;> ring

theorem update_move_cell_point (d : Int) (e : Env) (p : point_t) :
    (update_move_cell d e p).2 = displaced p d 1 := by
  unfold update_move_cell displaced dir_dx dir_dy MOVE_UP MOVE_RIGHT MOVE_DOWN MOVE_LEFT
  by_cases h1 : d = 1
  · subst h1; simp; rfl
  by_cases h2 : d = 2
  · subst h2; simp
  by_cases h3 : d = 3
  · subst h3; simp
  by_cases h4 : d = 4
  · subst h4; simp; rfl
  simp [h1, h2, h3, h4]

theorem update_move_cell_map (d : Int) (e : Env) (p : point_t) :
    (update_move_cell d e p).1 =
      { e with map := e.map.set (cell_index e (displaced p d 1).x (displaced p d 1).y) 1 } := by
  rw [← update_move_cell_point d e p]
  rfl

theorem update_move_cell_mono (d : Int) (e : Env) (p : point_t) :
    same_cfg e (update_move_cell d e p).1 ∧ map_mono e (update_move_cell d e p).1 ∧
      (update_move_cell d e p).1.rand_calls = e.rand_calls := by
  rw [update_move_cell_map]
  refine ⟨⟨rfl, rfl, rfl, rfl, rfl⟩, ⟨by simp, fun i => getD_set_one _ _ _⟩, rfl⟩

theorem update_move_loop_point (d : Int) (n : Nat) (e : Env) (p : point_t) :
    (update_move_loop d n e p).2 = displaced p d n := by
  induction n generalizing e p with
  | zero => simp [update_move_loop, displaced_zero]
  | succ n ih =>
    simp only [update_move_loop]
    rw [ih, update_move_cell_point, displaced_add]
    congr 1
    push_cast
    ring

theorem update_move_loop_mono (d : Int) (n : Nat) (e : Env) (p : point_t) :
    same_cfg e (update_move_loop d n e p).1 ∧ map_mono e (update_move_loop d n e p).1 ∧
      (update_move_loop d n e p).1.rand_calls = e.rand_calls := by
  induction n generalizing e p with
  | zero => exact ⟨same_cfg_refl e, map_mono_refl e, rfl⟩
  | succ n ih =>
    simp only [update_move_loop]
    obtain ⟨a1, a2, a3⟩ := update_move_cell_mono d e p
    obtain ⟨b1, b2, b3⟩ := ih (update_move_cell d e p).1 (update_move_cell d e p).2
    exact ⟨same_cfg_trans a1 b1, map_mono_trans a2 b2, b3.trans a3⟩

/-- On a well-formed grid, marking an in-bounds cell changes that cell only. -/
theorem cell_mark (e : Env) (p z : point_t) (hg : grid_wf e) (hp : in_bounds e p)
    (hz : in_bounds e z) :
    cell { e with map := e.map.set (cell_index e p.x p.y) 1 } z.x z.y =
      if z = p then 1 else cell e z.x z.y := by
  unfold cell
  have hci : cell_index { e with map := e.map.set (cell_index e p.x p.y) 1 } z.x z.y =
      cell_index e z.x z.y := rfl
  rw [hci]
  by_cases h : z = p
  · subst h
    simp only [↓reduceIte]
    exact getD_set_one_eq _ _ (cell_index_lt e z hg hz)
  · simp only [h, ↓reduceIte]
    apply getD_set_one_ne
    intro h2
    exact h (cell_index_inj e p z hp hz h2).symm

theorem update_move_loop_cells (d : Int) (n : Nat) (e : Env) (p : point_t) (hg : grid_wf e)
    (hin : ∀ j : Nat, 1 ≤ j → j ≤ n → in_bounds e (displaced p d j)) :
    (∀ j : Nat, 1 ≤ j → j ≤ n → visited (update_move_loop d n e p).1 (displaced p d j)) ∧
      ∀ z, in_bounds e z → (∀ j : Nat, 1 ≤ j → j ≤ n → z ≠ displaced p d j) →
        cell (update_move_loop d n e p).1 z.x z.y = cell e z.x z.y := by
  induction n generalizing e p with
  | zero =>
    refine ⟨fun j h1 h2 => by omega, fun z _ _ => rfl⟩
  | succ n ih =>
    simp only [update_move_loop]
    obtain ⟨a1, a2, a3⟩ := update_move_cell_mono d e p
    have hp1 : in_bounds e (displaced p d 1) := by
      have := hin 1 (le_refl 1) (by omega)
      simpa using this
    have hg1 : grid_wf (update_move_cell d e p).1 := grid_wf_mono a1 a2 hg
    have hin1 : ∀ j : Nat, 1 ≤ j → j ≤ n →
        in_bounds (update_move_cell d e p).1 (displaced (update_move_cell d e p).2 d j) := by
      intro j h1 h2
      rw [in_bounds_cfg a1, update_move_cell_point, displaced_add]
      have := hin (j + 1) (by omega) (by omega)
      have e1 : ((j + 1 : Nat) : Int) = 1 + (j : Int) := by push_cast; ring
      rw [e1] at this
      exact this
    obtain ⟨b1, b2⟩ := ih (update_move_cell d e p).1 (update_move_cell d e p).2 hg1 hin1
    obtain ⟨c1, c2, c3⟩ := update_move_loop_mono d n (update_move_cell d e p).1
      (update_move_cell d e p).2
    have hv1 : visited (update_move_cell d e p).1 (displaced p d 1) := by
      unfold visited
      rw [update_move_cell_map, cell_mark e _ _ hg hp1 hp1]
      simp
    constructor
    · intro j h1 h2
      by_cases hj : j = 1
      · subst hj
        have := visited_mono c1 c2 _ hv1
        simpa using this
      · have := b1 (j - 1) (by omega) (by omega)
        rw [update_move_cell_point, displaced_add] at this
        have e1 : (1 : Int) + ((j - 1 : Nat) : Int) = (j : Int) := by omega
        rw [e1] at this
        rw [update_move_cell_point]
        exact this
    · intro z hz hne
      have hz1 : in_bounds (update_move_cell d e p).1 z := (in_bounds_cfg a1 z).mpr hz
      rw [b2 z hz1]
      · rw [update_move_cell_map, cell_mark e _ _ hg hp1 hz]
        have : z ≠ displaced p d 1 := by
          have := hne 1 (le_refl 1) (by omega)
          simpa using this
        simp [this]
      · intro j h1 h2
        rw [update_move_cell_point, displaced_add]
        have := hne (j + 1) (by omega) (by omega)
        have e1 : ((j + 1 : Nat) : Int) = 1 + (j : Int) := by push_cast; ring
        rw [e1] at this
        exact this

/-! ## update_move -/

theorem update_move_env (rnd : Nat → Nat) (e : Env) (h : head_t) :
    (update_move rnd e h).1 =
      (update_move_loop (chosen_direction rnd e h.point) e.step.toNat (rand rnd e).2
        h.point).1 := rfl

theorem update_move_head (rnd : Nat → Nat) (e : Env) (h : head_t) :
    (update_move rnd e h).2 =
      { point := displaced h.point (chosen_direction rnd e h.point) e.step.toNat
        direction := chosen_direction rnd e h.point
        branches :=
          if count_paths (update_move rnd e h).1 h.point ≠ 0 then
            blist_push h.branches h.point
          else h.branches } := by
  rw [← update_move_loop_point (chosen_direction rnd e h.point) e.step.toNat (rand rnd e).2]
  simp only [update_move, head_push_branch]
  split <;> rfl

theorem update_move_mono (rnd : Nat → Nat) (e : Env) (h : head_t) :
    same_cfg e (update_move rnd e h).1 ∧ map_mono e (update_move rnd e h).1 := by
  rw [update_move_env]
  obtain ⟨a1, a2, _⟩ := update_move_loop_mono (chosen_direction rnd e h.point) e.step.toNat
    (rand rnd e).2 h.point
  exact ⟨same_cfg_trans (rand_cfg rnd e) a1, map_mono_trans (map_mono_refl _) a2⟩

theorem chosen_direction_legal (rnd : Nat → Nat) (e : Env) (p : point_t)
    (h : count_paths e p ≠ 0) : chosen_direction rnd e p ∈ legal_moves e p :=
  chosen_direction_mem e p (rnd e.rand_calls) h

/-- The cells between an in-bounds point and an in-bounds destination in one of
the four directions are in bounds. -/
theorem segment_in_bounds (e : Env) (p : point_t) (d : Int) (n : Int)
    (hd : d = MOVE_UP ∨ d = MOVE_RIGHT ∨ d = MOVE_DOWN ∨ d = MOVE_LEFT)
    (hp : in_bounds e p) (hq : in_bounds e (displaced p d n)) (j : Int) (h1 : 0 ≤ j)
    (h2 : j ≤ n) : in_bounds e (displaced p d j) := by
  unfold in_bounds at *
  rcases hd with h | h | h | h <;> subst h
  · rw [displaced_up] at hq ⊢; simp only at hq ⊢; omega
  · rw [displaced_right] at hq ⊢; simp only at hq ⊢; omega
  · rw [displaced_down] at hq ⊢; simp only at hq ⊢; omega
  · rw [displaced_left] at hq ⊢; simp only at hq ⊢; omega

theorem on_lattice_displaced (e : Env) (p : point_t) (d : Int) (hp : on_lattice e p) :
    on_lattice e (displaced p d e.step) := by
  unfold on_lattice displaced
  exact ⟨dvd_add hp.1 (dvd_mul_right _ _), dvd_add hp.2 (dvd_mul_right _ _)⟩

/-- On the segment of a move only the destination is a lattice point. -/
theorem lattice_on_segment (e : Env) (p : point_t) (d : Int) (j : Int)
    (hd : d = MOVE_UP ∨ d = MOVE_RIGHT ∨ d = MOVE_DOWN ∨ d = MOVE_LEFT)
    (hp : on_lattice e p) (hz : on_lattice e (displaced p d j)) (h1 : 1 ≤ j)
    (h2 : j ≤ e.step) : j = e.step := by
  have key : e.step ∣ j := by
    unfold on_lattice at *
    rcases hd with h | h | h | h <;> subst h
    · have := hz.2
      rw [displaced_up] at this
      simp only at this
      have h3 := (Int.dvd_sub hp.2 this)
      simpa using h3
    · have := hz.1
      rw [displaced_right] at this
      simp only at this
      have h3 := (Int.dvd_sub this hp.1)
      simpa using h3
    · have := hz.2
      rw [displaced_down] at this
      simp only at this
      have h3 := (Int.dvd_sub this hp.2)
      simpa using h3
    · have := hz.1
      rw [displaced_left] at this
      simp only at this
      have h3 := (Int.dvd_sub hp.1 this)
      simpa using h3
  have := Int.le_of_dvd (by omega) key
  omega

/-! ## One head through one pass of update -/

theorem legal_moves_congr {e0 e : Env} (hc : same_cfg e0 e) (hm : e.map = e0.map)
    (p : point_t) : legal_moves e p = legal_moves e0 p := by
  rcases e0 with ⟨s0, w0, g0, c0, m0, map0, r0⟩
  rcases e with ⟨s1, w1, g1, c1, m1, map1, r1⟩
  obtain ⟨k1, k2, k3, _, _⟩ := hc
  simp only at k1 k2 k3 hm
  subst k1 k2 k3 hm
  rfl

theorem count_paths_congr {e0 e : Env} (hc : same_cfg e0 e) (hm : e.map = e0.map)
    (p : point_t) : count_paths e p = count_paths e0 p := by
  rw [count_paths_eq, count_paths_eq, legal_moves_congr hc hm]

theorem map_mono_of_eq {e0 e : Env} (hm : e.map = e0.map) : map_mono e0 e :=
  ⟨by rw [hm], fun i => Or.inl (by rw [hm])⟩

theorem mem_eraseIdx_or {α : Type} (l : List α) (i : Nat) (z : α) (hz : z ∈ l) :
    z ∈ l.eraseIdx i ∨ l[i]? = some z := by
  rw [List.mem_iff_getElem?] at hz
  obtain ⟨n, hn⟩ := hz
  by_cases h : n = i
  · right; rw [← h]; exact hn
  · left
    rw [List.mem_iff_getElem?]
    by_cases h2 : n < i
    · exact ⟨n, by rw [List.getElem?_eraseIdx]; simp [h2, hn]⟩
    · refine ⟨n - 1, ?_⟩
      rw [List.getElem?_eraseIdx]
      have h3 : ¬ (n - 1 < i) := by omega
      have h4 : n - 1 + 1 = n := by omega
      simp [h3, h4, hn]

theorem switched_refl (e0 : Env) (h0 : head_t) (hk : head_ok e0 h0) :
    switched e0 h0 e0 h0 :=
  ⟨same_cfg_refl e0, rfl, hk, fun _ h => h, fun _ h => Or.inl h⟩

theorem switched_rand (rnd : Nat → Nat) {e0 e : Env} {h0 h : head_t}
    (hs : switched e0 h0 e h) : switched e0 h0 (rand rnd e).2 h := by
  obtain ⟨a1, a2, a3, a4, a5⟩ := hs
  exact ⟨same_cfg_trans a1 (rand_cfg rnd e), a2,
    head_ok_mono (rand_cfg rnd e) (map_mono_refl _) h a3, a4, a5⟩

theorem switched_switch (rnd : Nat → Nat) {e0 e : Env} {h0 h : head_t}
    (hs : switched e0 h0 e h) (hlen : 0 < h.branches.length) :
    switched e0 h0 (head_switch_branch rnd e h).1 (head_switch_branch rnd e h).2 := by
  obtain ⟨a1, a2, a3, a4, a5⟩ := hs
  obtain ⟨b1, b2, _⟩ := head_switch_branch_env rnd e h
  obtain ⟨c1, c2, c3, _⟩ := head_switch_branch_spec rnd e h a3.1 hlen
  have hmem : (head_switch_branch rnd e h).2.point ∈ h.branches.elems := by
    rw [List.mem_iff_getElem?]; exact ⟨_, c1⟩
  have hsub : ∀ z, z ∈ (head_switch_branch rnd e h).2.branches.elems → covers h z := by
    intro z hz
    rw [c2, List.mem_append] at hz
    rcases hz with hz | hz
    · exact Or.inr (List.mem_of_mem_eraseIdx hz)
    · by_cases hc : count_paths e h.point ≠ 0
      · rw [if_pos hc, List.mem_singleton] at hz
        exact Or.inl hz.symm
      · rw [if_neg hc] at hz
        simp at hz
  have hgood : ∀ z, covers h z → good_point e z := by
    intro z hz
    rcases hz with hz | hz
    · rw [← hz]; exact a3.2.1
    · exact a3.2.2 z hz
  have hmono : map_mono e (head_switch_branch rnd e h).1 := map_mono_of_eq b2
  refine ⟨same_cfg_trans a1 b1, b2.trans a2, ⟨c3, ?_, ?_⟩, ?_, ?_⟩
  · exact good_point_mono b1 hmono _ (hgood _ (Or.inr hmem))
  · intro z hz
    exact good_point_mono b1 hmono _ (hgood _ (hsub z hz))
  · intro z hz
    rcases hz with hz | hz
    · exact a4 z (Or.inr (hz ▸ hmem))
    · exact a4 z (hsub z hz)
  · intro z hz
    rcases a5 z hz with h1 | h1
    · rcases h1 with h1 | h1
      · -- the old position: pushed when it has paths
        by_cases hc : count_paths e h.point ≠ 0
        · left; right
          rw [c2, if_pos hc]
          simp [h1]
        · right
          have : count_paths e z = 0 := by
            rw [← h1]; exact not_not.mp hc
          rw [← count_paths_congr a1 a2]; exact this
      · rcases mem_eraseIdx_or _ (switch_index rnd e h) z h1 with h2 | h2
        · left; right
          rw [c2]
          exact List.mem_append_left _ h2
        · left; left
          rw [c1] at h2
          exact Option.some.inj h2
    · exact Or.inr h1

theorem update_random_switch_switched (rnd : Nat → Nat) {e0 e : Env} {h0 h : head_t}
    (hs : switched e0 h0 e h) :
    switched e0 h0 (update_random_switch rnd e h).1 (update_random_switch rnd e h).2 := by
  unfold update_random_switch
  simp only [rand]
  split_ifs with h1 h2
  · exact switched_switch rnd (switched_rand rnd hs) h1.2
  · exact switched_rand rnd hs
  · exact hs

theorem update_stuck_loop_succ (rnd : Nat → Nat) (fuel : Nat) (e : Env) (h : head_t) :
    update_stuck_loop rnd (fuel + 1) e h =
      if count_paths e h.point = 0 then
        if h.branches.length = 0 then (e, h, true)
        else update_stuck_loop rnd fuel (head_switch_branch rnd e h).1
          (head_switch_branch rnd e h).2
      else (e, h, false) := rfl

/-- The stuck loop with enough fuel: it ends either with the head removed, at a
position without paths and with an empty store, or with the head at a position
that has paths. -/
theorem update_stuck_loop_spec (rnd : Nat → Nat) (fuel : Nat) {e0 : Env} {h0 : head_t}
    (e : Env) (h : head_t) (hs : switched e0 h0 e h) (hf : h.branches.length < fuel) :
    switched e0 h0 (update_stuck_loop rnd fuel e h).1 (update_stuck_loop rnd fuel e h).2.1 ∧
      ((update_stuck_loop rnd fuel e h).2.2 = true →
        count_paths (update_stuck_loop rnd fuel e h).1
            (update_stuck_loop rnd fuel e h).2.1.point = 0 ∧
          (update_stuck_loop rnd fuel e h).2.1.branches.length = 0) ∧
      ((update_stuck_loop rnd fuel e h).2.2 = false →
        count_paths (update_stuck_loop rnd fuel e h).1
          (update_stuck_loop rnd fuel e h).2.1.point ≠ 0) := by
  induction fuel generalizing e h with
  | zero => omega
  | succ fuel ih =>
    rw [update_stuck_loop_succ]
    by_cases hc : count_paths e h.point = 0
    · by_cases hl : h.branches.length = 0
      · rw [if_pos hc, if_pos hl]
        exact ⟨hs, fun _ => ⟨hc, hl⟩, fun hx => by simp at hx⟩
      · rw [if_pos hc, if_neg hl]
        apply ih
        · exact switched_switch rnd hs (by omega)
        · rw [head_switch_branch_length rnd e h hc]; omega
    · rw [if_neg hc]
      exact ⟨hs, fun hx => by simp at hx, fun _ => hc⟩

theorem grid_wf_congr {e0 e : Env} (hc : same_cfg e0 e) (hm : e.map = e0.map)
    (hg : grid_wf e0) : grid_wf e :=
  grid_wf_mono hc (map_mono_of_eq hm) hg

theorem cell_congr {e0 e : Env} (hc : same_cfg e0 e) (hm : e.map = e0.map) (x y : Int) :
    cell e x y = cell e0 x y := by
  unfold cell
  rw [cell_index_cfg hc, hm]

/-- The move of `update`, made from a head obtained by switches. -/
theorem update_move_summary (rnd : Nat → Nat) {e0 e : Env} {h0 h : head_t}
    (hg : grid_wf e0) (hs : switched e0 h0 e h) (hc : count_paths e h.point ≠ 0) :
    moved_summary e0 h0 (update_move rnd e h).1 (update_move rnd e h).2 := by
  obtain ⟨a1, a2, a3, a4, a5⟩ := hs
  have hge : grid_wf e := grid_wf_congr a1 a2 hg
  have hstep : ((e.step.toNat : Nat) : Int) = e.step := Int.toNat_of_nonneg (le_of_lt hge.1)
  have hd := chosen_direction_legal rnd e h.point hc
  obtain ⟨hdir, hfree⟩ := (legal_moves_mem e h.point _).mp hd
  have hc1 : same_cfg e (rand rnd e).2 := rand_cfg rnd e
  have hg1 : grid_wf (rand rnd e).2 := grid_wf_congr hc1 rfl hge
  have hseg : ∀ j : Nat, 1 ≤ j → j ≤ e.step.toNat →
      in_bounds (rand rnd e).2 (displaced h.point (chosen_direction rnd e h.point) j) := by
    intro j h1 h2
    rw [in_bounds_cfg hc1]
    exact segment_in_bounds e h.point _ e.step hdir a3.2.1.2.1 hfree.1 j (by omega) (by omega)
  obtain ⟨b1, b2⟩ := update_move_loop_cells (chosen_direction rnd e h.point) e.step.toNat
    (rand rnd e).2 h.point hg1 hseg
  rw [← update_move_env] at b1 b2
  obtain ⟨m1, m2⟩ := update_move_mono rnd e h
  have hh := update_move_head rnd e h
  have hpt : (update_move rnd e h).2.point =
      displaced h.point (chosen_direction rnd e h.point) e.step := by
    rw [hh, hstep]
  have hdr : (update_move rnd e h).2.direction = chosen_direction rnd e h.point := by
    rw [hh]
  have hbr : (update_move rnd e h).2.branches =
      if count_paths (update_move rnd e h).1 h.point ≠ 0 then blist_push h.branches h.point
      else h.branches := by
    rw [hh]
  have hel : (update_move rnd e h).2.branches.wf ∧
      ∀ z, z ∈ (update_move rnd e h).2.branches.elems ↔
        z ∈ h.branches.elems ∨ (z = h.point ∧ count_paths (update_move rnd e h).1 h.point ≠ 0) := by
    rw [hbr]
    by_cases hcp : count_paths (update_move rnd e h).1 h.point ≠ 0
    · rw [if_pos hcp]
      obtain ⟨p1, p2, _⟩ := blist_push_spec h.branches h.point a3.1
      refine ⟨p1, fun z => ?_⟩
      rw [p2, List.mem_append, List.mem_singleton]
      constructor
      · rintro (hz | hz)
        · exact Or.inl hz
        · exact Or.inr ⟨hz, hcp⟩
      · rintro (hz | hz)
        · exact Or.inl hz
        · exact Or.inr hz.1
    · rw [if_neg hcp]
      refine ⟨a3.1, fun z => ?_⟩
      constructor
      · intro hz; exact Or.inl hz
      · rintro (hz | hz)
        · exact hz
        · exact absurd hz.2 hcp
  have hgood : ∀ z, covers h z → good_point (update_move rnd e h).1 z := by
    intro z hz
    apply good_point_mono m1 m2
    rcases hz with hz | hz
    · rw [← hz]; exact a3.2.1
    · exact a3.2.2 z hz
  have hsteppos : 1 ≤ e.step.toNat := by have := hge.1; omega
  refine ⟨same_cfg_trans a1 m1, map_mono_trans (map_mono_of_eq a2) m2, ⟨hel.1, ?_, ?_⟩,
    h.point, chosen_direction rnd e h.point, a4 _ (Or.inl rfl), ?_, ?_, hdr, ?_, ?_, ?_, ?_⟩
  · -- the new position is a visited in-bounds lattice point
    rw [hpt]
    refine ⟨?_, ?_, ?_⟩
    · rw [on_lattice_cfg m1]
      exact on_lattice_displaced e h.point _ a3.2.1.1
    · rw [in_bounds_cfg m1]; exact hfree.1
    · have := b1 e.step.toNat hsteppos (le_refl _)
      rw [hstep] at this
      exact this
  · intro b hb
    rcases (hel.2 b).mp hb with hb1 | hb1
    · exact hgood b (Or.inr hb1)
    · exact hgood b (Or.inl hb1.1.symm)
  · rw [← legal_moves_congr a1 a2]; exact hd
  · rw [hpt, a1.1]
  · intro j h1 h2
    rw [← a1.1] at h2
    have hj : j ≤ e.step.toNat := by omega
    refine ⟨?_, b1 j h1 hj⟩
    rw [← in_bounds_cfg a1, ← in_bounds_cfg hc1]
    exact hseg j h1 hj
  · intro z hz hne
    rw [← cell_congr a1 a2, ← cell_congr hc1 (rand_map rnd e)]
    apply b2 z
    · rw [in_bounds_cfg hc1, in_bounds_cfg a1]; exact hz
    · intro j h1 h2
      apply hne j h1
      rw [← a1.1]; omega
  · intro z hz
    rcases hz with hz | hz
    · exact Or.inl hz.symm
    · rcases (hel.2 z).mp hz with hz1 | hz1
      · exact Or.inr (a4 z (Or.inr hz1))
      · exact Or.inr (a4 z (Or.inl hz1.1.symm))
  · intro z hz
    rcases a5 z hz with hz1 | hz1
    · rcases hz1 with hz1 | hz1
      · by_cases hcp : count_paths (update_move rnd e h).1 h.point ≠ 0
        · left; right
          exact (hel.2 z).mpr (Or.inr ⟨hz1.symm, hcp⟩)
        · right
          rw [← hz1]
          exact not_not.mp hcp
      · left; right
        exact (hel.2 z).mpr (Or.inl hz1)
    · right
      by_contra hne
      exact count_paths_anti (same_cfg_trans a1 m1) (map_mono_trans (map_mono_of_eq a2) m2) z
        hne hz1

/-- The body of the loop of `update` for one sound head on a well-formed grid:
either the head is removed and `removed_summary` holds, or it is kept and
`moved_summary` holds. -/
theorem update_head_summary (rnd : Nat → Nat) (e0 : Env) (h0 : head_t)
    (hg : grid_wf e0) (hk : head_ok e0 h0) :
    ((update_head rnd e0 h0).2.2 = true ∧ removed_summary e0 h0 (update_head rnd e0 h0).1) ∨
      ((update_head rnd e0 h0).2.2 = false ∧
        moved_summary e0 h0 (update_head rnd e0 h0).1 (update_head rnd e0 h0).2.1) := by
  have s1 := update_random_switch_switched rnd (switched_refl e0 h0 hk)
  obtain ⟨s2, r1, r2⟩ := update_stuck_loop_spec rnd
    ((update_random_switch rnd e0 h0).2.branches.length + 1)
    (update_random_switch rnd e0 h0).1 (update_random_switch rnd e0 h0).2 s1 (by omega)
  unfold update_head
  simp only
  cases hrem : (update_stuck_loop rnd ((update_random_switch rnd e0 h0).2.branches.length + 1)
    (update_random_switch rnd e0 h0).1 (update_random_switch rnd e0 h0).2).2.2
  · right
    simp only [Bool.false_eq_true, ↓reduceIte, true_and]
    exact update_move_summary rnd hg s2 (r2 hrem)
  · left
    simp only [↓reduceIte, true_and]
    obtain ⟨c1, c2⟩ := r1 hrem
    obtain ⟨a1, a2, a3, a4, a5⟩ := s2
    refine ⟨a1, a2, fun z hz => ?_⟩
    rcases a5 z hz with hz1 | hz1
    · rcases hz1 with hz1 | hz1
      · rw [← hz1, ← count_paths_congr a1 a2]; exact c1
      · exfalso
        have : (update_stuck_loop rnd ((update_random_switch rnd e0 h0).2.branches.length + 1)
            (update_random_switch rnd e0 h0).1
            (update_random_switch rnd e0 h0).2).2.1.branches.elems = [] := by
          simp [blist_t.elems, c2]
        rw [this] at hz1
        simp at hz1
    · exact hz1

/-! ## The loop of update and its list view -/

theorem size_wrap (i : Nat) (h : i < SIZE_MOD) :
    ((i + SIZE_MOD - 1) % SIZE_MOD + 1) % SIZE_MOD = i := by
  unfold SIZE_MOD at *
  norm_num at *
  omega

theorem size_succ (i n : Nat) (h : i < n) (hn : n < SIZE_MOD) : (i + 1) % SIZE_MOD = i + 1 :=
  Nat.mod_eq_of_lt (by omega)

theorem update_loop_zero (rnd : Nat → Nat) (i : Nat) (s : State) :
    update_loop rnd 0 i s = s := rfl

theorem update_loop_succ (rnd : Nat → Nat) (fuel i : Nat) (s : State) :
    update_loop rnd (fuel + 1) i s =
      if i < s.heads.length then
        if (update_head rnd s.env (blist_get s.heads i)).2.2 then
          update_loop rnd fuel (((i + SIZE_MOD - 1) % SIZE_MOD + 1) % SIZE_MOD)
            { env := (update_head rnd s.env (blist_get s.heads i)).1
              heads := blist_remove
                (blist_write s.heads i (update_head rnd s.env (blist_get s.heads i)).2.1) i }
        else
          update_loop rnd fuel ((i + 1) % SIZE_MOD)
            { env := (update_head rnd s.env (blist_get s.heads i)).1
              heads := blist_write s.heads i (update_head rnd s.env (blist_get s.heads i)).2.1 }
      else s := rfl

theorem blist_write_elems {α : Type} (self : blist_t α) (i : Nat) (x : α) :
    (blist_write self i x).elems = self.elems.set i x := by
  simp only [blist_write, blist_t.elems, List.set_take]

theorem blist_write_length {α : Type} (self : blist_t α) (i : Nat) (x : α) :
    (blist_write self i x).length = self.length := rfl

theorem blist_write_capacity {α : Type} (self : blist_t α) (i : Nat) (x : α) :
    (blist_write self i x).capacity = self.capacity := rfl

theorem blist_write_array_length {α : Type} (self : blist_t α) (i : Nat) (x : α) :
    (blist_write self i x).array.length = self.array.length := by
  simp [blist_write]

theorem pool_wf_write (heads : blist_t head_t) (i : Nat) (x : head_t) (hw : pool_wf heads) :
    pool_wf (blist_write heads i x) := by
  refine ⟨?_, hw.2⟩
  rw [blist_write_array_length]; exact hw.1

theorem run_heads_nil (rnd : Nat → Nat) (e : Env) : run_heads rnd e [] = (e, []) := rfl

theorem run_heads_cons (rnd : Nat → Nat) (e : Env) (h : head_t) (t : List head_t) :
    run_heads rnd e (h :: t) =
      ((run_heads rnd (update_head rnd e h).1 t).1,
        if (update_head rnd e h).2.2 then (run_heads rnd (update_head rnd e h).1 t).2
        else (update_head rnd e h).2.1 :: (run_heads rnd (update_head rnd e h).1 t).2) := rfl

theorem update_loop_run (rnd : Nat → Nat) (fuel : Nat) (i : Nat) (s : State)
    (hw : pool_wf s.heads) (hi : i ≤ s.heads.length) (hf : s.heads.length - i ≤ fuel) :
    (update_loop rnd fuel i s).env = (run_heads rnd s.env (s.heads.elems.drop i)).1 ∧
      (update_loop rnd fuel i s).heads.elems =
        s.heads.elems.take i ++ (run_heads rnd s.env (s.heads.elems.drop i)).2 ∧
      pool_wf (update_loop rnd fuel i s).heads ∧
      (update_loop rnd fuel i s).heads.capacity = s.heads.capacity ∧
      (update_loop rnd fuel i s).heads.array.length = s.heads.array.length := by
  induction fuel generalizing i s with
  | zero =>
    have hlen : s.heads.elems.length = s.heads.length := blist_elems_length _ hw.1
    have hil : s.heads.elems.length ≤ i := by omega
    rw [update_loop_zero, List.drop_of_length_le hil, List.take_of_length_le hil,
      run_heads_nil]
    simp [hw]
  | succ fuel ih =>
    have hlen : s.heads.elems.length = s.heads.length := blist_elems_length _ hw.1
    rw [update_loop_succ]
    by_cases hlt : i < s.heads.length
    · rw [if_pos hlt]
      have hget : blist_get s.heads i = s.heads.elems[i] := by
        rw [blist_get_elems _ _ hlt, List.getD_eq_getElem _ _ (by omega)]
      have hdrop : s.heads.elems.drop i = s.heads.elems[i] :: s.heads.elems.drop (i + 1) :=
        List.drop_eq_getElem_cons (by omega)
      rw [hdrop, run_heads_cons, ← hget]
      generalize (update_head rnd s.env (blist_get s.heads i)) = r at *
      have hwr := pool_wf_write s.heads i r.2.1 hw
      by_cases hrem : r.2.2 = true
      · rw [if_pos hrem, if_pos hrem, size_wrap i (by have := hw.2; omega)]
        have hw1 : pool_wf (blist_remove (blist_write s.heads i r.2.1) i) := by
          refine ⟨?_, ?_⟩
          · rw [blist_remove_array_length, blist_remove_length, blist_write_array_length,
              blist_write_length]
            have := hw.1; omega
          · rw [blist_remove_length, blist_write_length]; have := hw.2; omega
        have hel : (blist_remove (blist_write s.heads i r.2.1) i).elems =
            s.heads.elems.take i ++ s.heads.elems.drop (i + 1) := by
          rw [blist_remove_elems _ _ hwr.1 hlt, blist_write_elems,
            List.eraseIdx_eq_take_drop_succ, take_set_self,
            List.drop_set_of_lt _ _ (Nat.lt_succ_self i)]
        obtain ⟨r1, r2, r3, r4, r5⟩ := ih i
          { env := r.1, heads := blist_remove (blist_write s.heads i r.2.1) i } hw1
          (by simp only [blist_remove_length, blist_write_length]; omega)
          (by simp only [blist_remove_length, blist_write_length]; omega)
        simp only at r1 r2 r3 r4 r5
        rw [hel] at r1 r2
        have hd2 : (s.heads.elems.take i ++ s.heads.elems.drop (i + 1)).drop i =
            s.heads.elems.drop (i + 1) := by
          rw [List.drop_append_of_le_length (by simp only [List.length_take]; omega)]
          rw [List.drop_eq_nil_of_le (by simp only [List.length_take]; omega)]
          rfl
        have ht2 : (s.heads.elems.take i ++ s.heads.elems.drop (i + 1)).take i =
            s.heads.elems.take i := by
          rw [List.take_append_of_le_length (by simp only [List.length_take]; omega)]
          rw [List.take_take]
          simp
        rw [hd2] at r1 r2
        rw [ht2] at r2
        refine ⟨r1, r2, r3, ?_, ?_⟩
        · rw [r4, blist_remove_capacity, blist_write_capacity]
        · rw [r5, blist_remove_array_length, blist_write_array_length]
      · rw [if_neg hrem, if_neg hrem, size_succ i _ hlt hw.2]
        obtain ⟨r1, r2, r3, r4, r5⟩ := ih (i + 1)
          { env := r.1, heads := blist_write s.heads i r.2.1 } hwr
          (by simp only [blist_write_length]; omega)
          (by simp only [blist_write_length]; omega)
        simp only at r1 r2 r3 r4 r5
        rw [blist_write_elems] at r1 r2
        rw [List.drop_set_of_lt _ _ (Nat.lt_succ_self i)] at r1 r2
        have ht2 : (s.heads.elems.set i r.2.1).take (i + 1) =
            s.heads.elems.take i ++ [r.2.1] := by
          rw [List.take_succ, take_set_self, List.getElem?_set]
          simp [hlen, hlt]
        rw [ht2] at r2
        refine ⟨r1, ?_, r3, ?_, ?_⟩
        · rw [r2]; simp
        · rw [r4, blist_write_capacity]
        · rw [r5, blist_write_array_length]
    · rw [if_neg hlt]
      have hil : s.heads.elems.length ≤ i := by omega
      rw [List.drop_of_length_le hil, List.take_of_length_le hil, run_heads_nil]
      simp [hw]

/-- One tick on a well-formed pool is `run_heads` on its elements. -/
theorem update_run (rnd : Nat → Nat) (s : State) (hw : pool_wf s.heads) :
    (update rnd s).env = (run_heads rnd s.env s.heads.elems).1 ∧
      (update rnd s).heads.elems = (run_heads rnd s.env s.heads.elems).2 ∧
      pool_wf (update rnd s).heads := by
  obtain ⟨r1, r2, r3, _, _⟩ := update_loop_run rnd s.heads.length 0 s hw (Nat.zero_le _)
    (by omega)
  simp only [List.drop_zero, List.take_zero, List.nil_append] at r1 r2
  exact ⟨r1, r2, r3⟩

/-! ## Counting visited cells -/

theorem count_one_mono (m m1 : List Nat) (hl : m1.length = m.length)
    (hp : ∀ i, m1.getD i 0 = m.getD i 0 ∨ m1.getD i 0 = 1) :
    m.count 1 ≤ m1.count 1 ∧
      ∀ i, m.getD i 0 ≠ 1 → m1.getD i 0 = 1 → m.count 1 < m1.count 1 := by
  induction m generalizing m1 with
  | nil =>
    have : m1 = [] := List.length_eq_zero.mp hl
    subst this
    exact ⟨le_refl _, fun i _ h => by simp at h⟩
  | cons a t ih =>
    rcases m1 with _ | ⟨a1, t1⟩
    · simp at hl
    · have hl1 : t1.length = t.length := by simpa using hl
      have hp1 : ∀ i, t1.getD i 0 = t.getD i 0 ∨ t1.getD i 0 = 1 := by
        intro i
        have := hp (i + 1)
        simpa using this
      obtain ⟨ih1, ih2⟩ := ih t1 hl1 hp1
      have h0 : a1 = a ∨ a1 = 1 := by
        have := hp 0
        simpa using this
      simp only [List.count_cons, beq_iff_eq]
      constructor
      · rcases h0 with h0 | h0
        · subst h0; omega
        · subst h0; simp only [↓reduceIte]
          split_ifs <;> omega
      · intro i hi1 hi2
        rcases i with _ | i
        · simp only [List.getD_cons_zero] at hi1 hi2
          subst hi2
          simp only [hi1, ↓reduceIte]
          omega
        · simp only [List.getD_cons_succ] at hi1 hi2
          have := ih2 i hi1 hi2
          rcases h0 with h0 | h0
          · subst h0; omega
          · subst h0; simp only [↓reduceIte]
            split_ifs <;> omega

theorem visited_count_mono {e e1 : Env} (hm : map_mono e e1) :
    visited_count e ≤ visited_count e1 :=
  (count_one_mono e.map e1.map hm.1 hm.2).1

theorem visited_count_le (e : Env) : visited_count e ≤ e.map.length :=
  List.count_le_length _ _

theorem visited_count_pos (e : Env) (p : point_t) (hv : visited e p) :
    0 < visited_count e := by
  unfold visited cell at hv
  unfold visited_count
  rw [List.count_pos_iff]
  rw [List.getD_eq_getElem?_getD] at hv
  cases hx : e.map[cell_index e p.x p.y]? with
  | none => rw [hx] at hv; simp at hv
  | some v =>
    rw [hx] at hv
    simp only [Option.getD_some] at hv
    subst hv
    exact List.mem_iff_getElem?.mpr ⟨_, hx⟩

/-- A move visits at least one cell that was not visited. -/
theorem moved_summary_count {e0 e1 : Env} {h0 h1 : head_t} (hg : grid_wf e0)
    (hs : moved_summary e0 h0 e1 h1) : visited_count e0 < visited_count e1 := by
  obtain ⟨a1, a2, _, p, d, _, hd, _, _, hseg, _⟩ := hs
  obtain ⟨_, hfree⟩ := (legal_moves_mem e0 p d).mp hd
  have hstep : ((e0.step.toNat : Nat) : Int) = e0.step := Int.toNat_of_nonneg (le_of_lt hg.1)
  have hv := (hseg e0.step.toNat (by have := hg.1; omega) (by omega)).2
  rw [hstep] at hv
  apply (count_one_mono e0.map e1.map a2.1 a2.2).2 (cell_index e0 (displaced p d e0.step).x
    (displaced p d e0.step).y)
  · have := hfree.2
    unfold cell at this
    rw [this]; decide
  · unfold visited cell at hv
    rw [cell_index_cfg a1] at hv
    exact hv

/-! ## The pool invariant through one tick -/

theorem pool_inv_removed {e e1 : Env} {h : head_t} {done todo : List head_t}
    (hi : pool_inv e (done ++ h :: todo)) (hs : removed_summary e h e1) :
    pool_inv e1 (done ++ todo) := by
  obtain ⟨hg, hk, hcov⟩ := hi
  obtain ⟨a1, a2, a3⟩ := hs
  have hm := map_mono_of_eq a2
  refine ⟨grid_wf_mono a1 hm hg, ?_, ?_⟩
  · intro x hx
    apply head_ok_mono a1 hm
    apply hk
    rcases List.mem_append.mp hx with hx | hx
    · exact List.mem_append_left _ hx
    · exact List.mem_append_right _ (List.mem_cons_of_mem _ hx)
  · intro z hz hc
    have hz0 : good_point e z := by
      refine ⟨(on_lattice_cfg a1 z).mp hz.1, (in_bounds_cfg a1 z).mp hz.2.1, ?_⟩
      have := hz.2.2
      unfold visited at *
      rw [cell_congr a1 a2] at this
      exact this
    have hc0 : count_paths e z ≠ 0 := count_paths_anti a1 hm z hc
    obtain ⟨x, hx, hxz⟩ := hcov z hz0 hc0
    rcases List.mem_append.mp hx with hx | hx
    · exact ⟨x, List.mem_append_left _ hx, hxz⟩
    · rcases List.mem_cons.mp hx with hx | hx
      · subst hx
        exact absurd (a3 z hxz) hc0
      · exact ⟨x, List.mem_append_right _ hx, hxz⟩

theorem pool_inv_moved {e e1 : Env} {h h1 : head_t} {done todo : List head_t}
    (hi : pool_inv e (done ++ h :: todo)) (hs : moved_summary e h e1 h1) :
    pool_inv e1 ((done ++ [h1]) ++ todo) := by
  obtain ⟨hg, hk, hcov⟩ := hi
  obtain ⟨a1, a2, a3, p, d, hp, hd, hpt, _, hseg, hframe, hc1, hc2⟩ := hs
  have hkh : head_ok e h := hk h (List.mem_append_right _ (List.mem_cons_self _ _))
  have hpgood : good_point e p := by
    rcases hp with hp | hp
    · rw [← hp]; exact hkh.2.1
    · exact hkh.2.2 p hp
  obtain ⟨hdir, _⟩ := (legal_moves_mem e p d).mp hd
  refine ⟨grid_wf_mono a1 a2 hg, ?_, ?_⟩
  · intro x hx
    simp only [List.mem_append, List.mem_singleton] at hx
    rcases hx with (hx | hx) | hx
    · exact head_ok_mono a1 a2 x (hk x (List.mem_append_left _ hx))
    · rw [hx]; exact a3
    · exact head_ok_mono a1 a2 x (hk x (List.mem_append_right _ (List.mem_cons_of_mem _ hx)))
  · intro z hz hc
    by_cases hzq : z = h1.point
    · exact ⟨h1, by simp, Or.inl hzq.symm⟩
    · have hzin : in_bounds e z := (in_bounds_cfg a1 z).mp hz.2.1
      have hzl : on_lattice e z := (on_lattice_cfg a1 z).mp hz.1
      have hoff : ∀ j : Nat, 1 ≤ j → (j : Int) ≤ e.step → z ≠ displaced p d j := by
        intro j h1 h2 heq
        have hj : (j : Int) = e.step :=
          lattice_on_segment e p d j hdir hpgood.1 (heq ▸ hzl) (by omega) h2
        apply hzq
        rw [heq, hj, hpt]
      have hz0 : good_point e z := by
        refine ⟨hzl, hzin, ?_⟩
        have := hz.2.2
        unfold visited at *
        rw [hframe z hzin hoff] at this
        exact this
      have hc0 : count_paths e z ≠ 0 := count_paths_anti a1 a2 z hc
      obtain ⟨x, hx, hxz⟩ := hcov z hz0 hc0
      rcases List.mem_append.mp hx with hx | hx
      · exact ⟨x, by simp [hx], hxz⟩
      · rcases List.mem_cons.mp hx with hx | hx
        · subst hx
          rcases hc2 z hxz with h3 | h3
          · exact ⟨h1, by simp, h3⟩
          · exact absurd h3 hc
        · exact ⟨x, by simp [hx], hxz⟩

/-- One tick, on the list of heads: the pool invariant is kept, the map only
grows, and when at least one head is left the number of visited cells has
grown. -/
theorem run_heads_inv (rnd : Nat → Nat) (e : Env) (done todo : List head_t)
    (hi : pool_inv e (done ++ todo)) :
    pool_inv (run_heads rnd e todo).1 (done ++ (run_heads rnd e todo).2) ∧
      same_cfg e (run_heads rnd e todo).1 ∧ map_mono e (run_heads rnd e todo).1 ∧
      ((run_heads rnd e todo).2 ≠ [] →
        visited_count e < visited_count (run_heads rnd e todo).1) := by
  induction todo generalizing e done with
  | nil =>
    rw [run_heads_nil]
    exact ⟨hi, same_cfg_refl e, map_mono_refl e, fun h => absurd rfl h⟩
  | cons h t ih =>
    rw [run_heads_cons]
    have hkh : head_ok e h := hi.2.1 h (List.mem_append_right _ (List.mem_cons_self _ _))
    rcases update_head_summary rnd e h hi.1 hkh with ⟨hr, hs⟩ | ⟨hr, hs⟩
    · rw [hr]
      simp only [↓reduceIte]
      obtain ⟨b1, b2, b3, b4⟩ := ih (update_head rnd e h).1 done (pool_inv_removed hi hs)
      have hm := map_mono_of_eq hs.2.1
      refine ⟨b1, same_cfg_trans hs.1 b2, map_mono_trans hm b3, fun hne => ?_⟩
      exact lt_of_le_of_lt (visited_count_mono hm) (b4 hne)
    · rw [hr]
      simp only [Bool.false_eq_true, ↓reduceIte]
      obtain ⟨b1, b2, b3, _⟩ := ih (update_head rnd e h).1 (done ++ [(update_head rnd e h).2.1])
        (pool_inv_moved hi hs)
      refine ⟨?_, same_cfg_trans hs.1 b2, map_mono_trans hs.2.1 b3, fun _ => ?_⟩
      · simpa using b1
      · exact lt_of_lt_of_le (moved_summary_count hi.1 hs) (visited_count_mono b3)

/-- One tick keeps the state invariant and the configuration, only adds visited
cells, and adds at least one when the pool is not empty afterwards. -/
theorem update_inv (rnd : Nat → Nat) (s : State) (hi : state_inv s) :
    state_inv (update rnd s) ∧ same_cfg s.env (update rnd s).env ∧
      map_mono s.env (update rnd s).env ∧
      ((update rnd s).heads.length ≠ 0 →
        visited_count s.env < visited_count (update rnd s).env) := by
  obtain ⟨hw, hp⟩ := hi
  obtain ⟨r1, r2, r3⟩ := update_run rnd s hw
  obtain ⟨b1, b2, b3, b4⟩ := run_heads_inv rnd s.env [] s.heads.elems (by simpa using hp)
  rw [← r1, ← r2] at b1
  rw [← r1] at b2 b3
  rw [← r1, ← r2] at b4
  refine ⟨⟨r3, by simpa using b1⟩, b2, b3, fun hne => b4 ?_⟩
  intro hnil
  apply hne
  rw [← blist_elems_length _ r3.1, hnil]
  rfl

/-! ## The initial state built by main -/

theorem start_coord (r : Nat) (w step : Int) (hs : 0 < step) (hw : step ≤ w) :
    0 ≤ Int.tmod r (Int.tdiv w step) * step ∧ Int.tmod r (Int.tdiv w step) * step < w ∧
      step ∣ Int.tmod r (Int.tdiv w step) * step := by
  have hw0 : 0 ≤ w := by omega
  rw [Int.tdiv_eq_ediv hw0 (le_of_lt hs)]
  have hq : 1 ≤ w / step := Int.le_ediv_of_mul_le hs (by omega)
  rw [Int.tmod_eq_emod (by positivity) (by omega)]
  have h1 : 0 ≤ (r : Int) % (w / step) := Int.emod_nonneg _ (by omega)
  have h2 : (r : Int) % (w / step) < w / step := Int.emod_lt_of_pos _ (by omega)
  have h3 : w / step * step ≤ w := Int.ediv_mul_le _ (by omega)
  refine ⟨mul_nonneg h1 (le_of_lt hs), ?_, dvd_mul_left _ _⟩
  have h4 : ((r : Int) % (w / step) + 1) * step ≤ w / step * step :=
    mul_le_mul_of_nonneg_right (by omega) (le_of_lt hs)
  nlinarith

theorem start_quotient (w step : Int) (hs : 0 < step) (hw : step ≤ w) :
    1 ≤ Int.tdiv w step ∧ Int.tdiv w step ≤ w := by
  have hw0 : 0 ≤ w := by omega
  rw [Int.tdiv_eq_ediv hw0 (le_of_lt hs)]
  refine ⟨Int.le_ediv_of_mul_le hs (by omega), ?_⟩
  exact Int.ediv_le_self _ hw0

theorem main_heads_zero (rnd : Nat → Nat) (s : State) : main_heads rnd 0 s = some s := rfl

theorem main_heads_succ (rnd : Nat → Nat) (n : Nat) (s : State) :
    main_heads rnd (n + 1) s =
      match main_add_head rnd s with
      | none => none
      | some s1 => main_heads rnd n s1 := rfl

theorem main_add_head_eq (rnd : Nat → Nat) (s : State) :
    main_add_head rnd s =
      match main_new_head (rnd s.env.rand_calls) (rnd (s.env.rand_calls + 1))
          (rnd (s.env.rand_calls + 2)) s.env with
      | none => none
      | some head =>
        match main_mark { s.env with rand_calls := s.env.rand_calls + 3 } head.point with
        | none => none
        | some e4 => some { env := e4, heads := blist_push s.heads head } := rfl

theorem main_new_head_spec (r1 r2 r3 : Nat) (e : Env) (hg : grid_wf e)
    (hw : e.step ≤ e.maze_width) (hh : e.step ≤ e.maze_height)
    (hW : e.maze_width ≤ INT_MAX) (hH : e.maze_height ≤ INT_MAX) :
    ∃ hd, main_new_head r1 r2 r3 e = some hd ∧ on_lattice e hd.point ∧
      in_bounds e hd.point ∧ hd.branches.wf ∧ hd.branches.elems = [] := by
  obtain ⟨x1, x2, x3⟩ := start_coord r1 e.maze_width e.step hg.1 hw
  obtain ⟨y1, y2, y3⟩ := start_coord r2 e.maze_height e.step hg.1 hh
  obtain ⟨q1, q2⟩ := start_quotient e.maze_width e.step hg.1 hw
  obtain ⟨q3, q4⟩ := start_quotient e.maze_height e.step hg.1 hh
  obtain ⟨b1, b2⟩ := @blist_init_wf point_t _ 10
  have hs := hg.1
  have hc : div_ok e.maze_width e.step ∧ div_ok e.maze_height e.step ∧
      Int.tdiv e.maze_width e.step ≠ 0 ∧ Int.tdiv e.maze_height e.step ≠ 0 ∧
      int_ok (Int.tmod r1 (Int.tdiv e.maze_width e.step) * e.step) ∧
      int_ok (Int.tmod r2 (Int.tdiv e.maze_height e.step) * e.step) := by
    unfold div_ok int_ok INT_MIN
    unfold INT_MAX at hW hH ⊢
    refine ⟨⟨?_, ?_, ?_⟩, ⟨?_, ?_, ?_⟩, ?_, ?_, ⟨?_, ?_⟩, ⟨?_, ?_⟩⟩ <;> omega
  unfold main_new_head
  rw [if_pos hc]
  exact ⟨_, rfl, ⟨x3, y3⟩, ⟨x1, x2, y1, y2⟩, b1, b2⟩

theorem main_mark_spec (e : Env) (p : point_t) (hg : grid_wf e) (hp : in_bounds e p)
    (hm : e.maze_width * e.maze_height ≤ INT_MAX) :
    main_mark e p = some { e with map := e.map.set (cell_index e p.x p.y) 1 } := by
  obtain ⟨p1, p2, p3, p4⟩ := hp
  have h0 : 0 ≤ p.y * e.maze_width := mul_nonneg p3 (by omega)
  have h1 : (p.y + 1) * e.maze_width ≤ e.maze_height * e.maze_width :=
    mul_le_mul_of_nonneg_right (by omega) (by omega)
  have h2 : 0 ≤ e.maze_width * e.maze_height := mul_nonneg (by omega) (by omega)
  have h3 : ((e.map.length : Nat) : Int) = e.maze_width * e.maze_height := by
    rw [hg.2, Int.toNat_of_nonneg h2]
  have hc : int_ok (p.y * e.maze_width) ∧ int_ok (p.y * e.maze_width + p.x) ∧
      0 ≤ p.y * e.maze_width + p.x ∧ p.y * e.maze_width + p.x < e.map.length := by
    unfold int_ok INT_MIN
    unfold INT_MAX at hm ⊢
    rw [h3]
    refine ⟨⟨?_, ?_⟩, ⟨?_, ?_⟩, ?_, ?_⟩ <;> nlinarith
  unfold main_mark
  rw [if_pos hc]

theorem main_mark_some (e e1 : Env) (p : point_t) (h : main_mark e p = some e1) :
    same_cfg e e1 ∧ map_mono e e1 ∧ e1.rand_calls = e.rand_calls := by
  unfold main_mark at h
  split_ifs at h
  simp only [Option.some.injEq] at h
  rw [← h]
  exact ⟨⟨rfl, rfl, rfl, rfl, rfl⟩, ⟨by simp, fun i => getD_set_one _ _ _⟩, rfl⟩

theorem main_add_head_some (rnd : Nat → Nat) (s s1 : State)
    (h : main_add_head rnd s = some s1) :
    same_cfg s.env s1.env ∧ map_mono s.env s1.env := by
  rw [main_add_head_eq] at h
  cases hn : main_new_head (rnd s.env.rand_calls) (rnd (s.env.rand_calls + 1))
      (rnd (s.env.rand_calls + 2)) s.env with
  | none => rw [hn] at h; simp at h
  | some hd =>
    rw [hn] at h
    simp only at h
    cases hk : main_mark { s.env with rand_calls := s.env.rand_calls + 3 } hd.point with
    | none => rw [hk] at h; simp at h
    | some e4 =>
      rw [hk] at h
      simp only [Option.some.injEq] at h
      rw [← h]
      obtain ⟨c1, c2, _⟩ := main_mark_some _ _ _ hk
      exact ⟨c1, c2⟩

theorem main_heads_some (rnd : Nat → Nat) (n : Nat) (s s1 : State)
    (h : main_heads rnd n s = some s1) :
    same_cfg s.env s1.env ∧ map_mono s.env s1.env := by
  induction n generalizing s with
  | zero =>
    rw [main_heads_zero] at h
    simp only [Option.some.injEq] at h
    rw [← h]
    exact ⟨same_cfg_refl _, map_mono_refl _⟩
  | succ n ih =>
    rw [main_heads_succ] at h
    cases ha : main_add_head rnd s with
    | none => rw [ha] at h; simp at h
    | some s2 =>
      rw [ha] at h
      simp only at h
      obtain ⟨c1, c2⟩ := main_add_head_some rnd s s2 ha
      obtain ⟨c3, c4⟩ := ih s2 h
      exact ⟨same_cfg_trans c1 c3, map_mono_trans c2 c4⟩

theorem setup_inv_step (s : State) (hi : setup_inv s) (hd : head_t)
    (n1 : on_lattice s.env hd.point) (n2 : in_bounds s.env hd.point)
    (n3 : hd.branches.wf) (n4 : hd.branches.elems = []) :
    setup_inv
      { env :=
          { s.env with
            rand_calls := s.env.rand_calls + 3
            map := s.env.map.set (cell_index s.env hd.point.x hd.point.y) 1 }
        heads := blist_push s.heads hd } := by
  obtain ⟨a1, a2, a3, a4, a5, a6⟩ := hi
  obtain ⟨p1, p2, _⟩ := blist_push_spec s.heads hd a1
  have hc : same_cfg s.env
      { s.env with
        rand_calls := s.env.rand_calls + 3
        map := s.env.map.set (cell_index s.env hd.point.x hd.point.y) 1 } :=
    ⟨rfl, rfl, rfl, rfl, rfl⟩
  have hm : map_mono s.env
      { s.env with
        rand_calls := s.env.rand_calls + 3
        map := s.env.map.set (cell_index s.env hd.point.x hd.point.y) 1 } :=
    ⟨by simp, fun i => getD_set_one _ _ _⟩
  have hcell : ∀ z, in_bounds s.env z →
      cell { s.env with
        rand_calls := s.env.rand_calls + 3
        map := s.env.map.set (cell_index s.env hd.point.x hd.point.y) 1 } z.x z.y =
        if z = hd.point then 1 else cell s.env z.x z.y := fun z hz =>
    cell_mark s.env hd.point z a2 n2 hz
  refine ⟨p1, grid_wf_mono hc hm a2, a3, a4, ?_, ?_⟩
  · intro h hh
    rw [p2, List.mem_append, List.mem_singleton] at hh
    rcases hh with hh | hh
    · exact ⟨head_ok_mono hc hm h (a5 h hh).1, (a5 h hh).2⟩
    · subst hh
      refine ⟨⟨n3, ⟨n1, n2, ?_⟩, ?_⟩, n4⟩
      · unfold visited
        rw [hcell _ n2]
        simp
      · intro b hb
        rw [n4] at hb
        simp at hb
  · intro z hz hv
    have hz0 : in_bounds s.env z := hz
    unfold visited at hv
    rw [hcell z hz0] at hv
    by_cases hzp : z = hd.point
    · exact ⟨hd, by rw [p2]; simp, hzp.symm⟩
    · rw [if_neg hzp] at hv
      obtain ⟨h, hh, hp⟩ := a6 z hz0 hv
      exact ⟨h, by rw [p2]; exact List.mem_append_left _ hh, hp⟩

theorem main_add_head_spec (rnd : Nat → Nat) (s : State) (hi : setup_inv s)
    (hm : s.env.maze_width * s.env.maze_height ≤ INT_MAX) :
    ∃ s1, main_add_head rnd s = some s1 ∧ setup_inv s1 ∧ same_cfg s.env s1.env ∧
      s1.heads.length = s.heads.length + 1 := by
  have hi0 := hi
  obtain ⟨a1, a2, a3, a4, _, _⟩ := hi0
  have hs := a2.1
  have hW : s.env.maze_width ≤ INT_MAX := by nlinarith
  have hH : s.env.maze_height ≤ INT_MAX := by nlinarith
  obtain ⟨hd, hn, n1, n2, n3, n4⟩ := main_new_head_spec (rnd s.env.rand_calls)
    (rnd (s.env.rand_calls + 1)) (rnd (s.env.rand_calls + 2)) s.env a2 a3 a4 hW hH
  have hk : main_mark { s.env with rand_calls := s.env.rand_calls + 3 } hd.point =
      some { s.env with
        rand_calls := s.env.rand_calls + 3
        map := s.env.map.set (cell_index s.env hd.point.x hd.point.y) 1 } :=
    main_mark_spec { s.env with rand_calls := s.env.rand_calls + 3 } hd.point a2 n2 hm
  refine ⟨_, ?_, setup_inv_step s hi hd n1 n2 n3 n4, ⟨rfl, rfl, rfl, rfl, rfl⟩, ?_⟩
  · rw [main_add_head_eq, hn]
    simp only
    rw [hk]
  · exact (blist_push_spec s.heads hd a1).2.2

theorem main_heads_inv (rnd : Nat → Nat) (n : Nat) (s : State) (hi : setup_inv s)
    (hm : s.env.maze_width * s.env.maze_height ≤ INT_MAX) :
    ∃ s1, main_heads rnd n s = some s1 ∧ setup_inv s1 ∧ same_cfg s.env s1.env ∧
      s1.heads.length = s.heads.length + n := by
  induction n generalizing s with
  | zero => exact ⟨s, rfl, hi, same_cfg_refl _, rfl⟩
  | succ n ih =>
    obtain ⟨s1, h1, i1, c1, l1⟩ := main_add_head_spec rnd s hi hm
    have hm1 : s1.env.maze_width * s1.env.maze_height ≤ INT_MAX := by
      rw [c1.2.1, c1.2.2.1]; exact hm
    obtain ⟨s2, h2, i2, c2, l2⟩ := ih s1 i1 hm1
    refine ⟨s2, ?_, i2, same_cfg_trans c1 c2, ?_⟩
    · rw [main_heads_succ, h1]
      exact h2
    · rw [l2, l1]
      omega

theorem setup_inv_state_inv (s : State) (hi : setup_inv s) (hl : s.heads.length < SIZE_MOD) :
    state_inv s := by
  obtain ⟨a1, a2, _, _, a5, a6⟩ := hi
  refine ⟨⟨by rw [a1.2]; exact a1.1, hl⟩, a2, fun h hh => (a5 h hh).1, ?_⟩
  intro z hz _
  obtain ⟨h, hh, hp⟩ := a6 z hz.2.1 hz.2.2
  exact ⟨h, hh, Or.inl hp⟩

theorem main_cell_size_spec (c : Config) (w h : Int) (hw : 1 ≤ w) (hh : 1 ≤ h)
    (hw1 : w ≤ INT_MAX) (hh1 : h ≤ INT_MAX)
    (a1 : 0 ≤ c.window_width) (a2 : c.window_width ≤ INT_MAX)
    (a3 : 0 ≤ c.window_height) (a4 : c.window_height ≤ INT_MAX) :
    main_cell_size_ok c w h := by
  have e1 : Int.tdiv c.window_width w = c.window_width / w :=
    Int.tdiv_eq_ediv a1 (by omega)
  have e2 : Int.tdiv c.window_height h = c.window_height / h :=
    Int.tdiv_eq_ediv a3 (by omega)
  have q1 : 0 ≤ c.window_width / w := Int.ediv_nonneg a1 (by omega)
  have q2 : 0 ≤ c.window_height / h := Int.ediv_nonneg a3 (by omega)
  have q3 : c.window_width / w * w ≤ c.window_width := Int.ediv_mul_le _ (by omega)
  have q4 : c.window_height / h * h ≤ c.window_height := Int.ediv_mul_le _ (by omega)
  have q5 : c.window_width / w ≤ c.window_width := Int.ediv_le_self _ a1
  have q6 : c.window_height / h ≤ c.window_height := Int.ediv_le_self _ a3
  have m0 : 0 ≤ min (c.window_width / w) (c.window_height / h) := le_min q1 q2
  have m1 : min (c.window_width / w) (c.window_height / h) * w ≤ c.window_width :=
    le_trans (mul_le_mul_of_nonneg_right (min_le_left _ _) (by omega)) q3
  have m2 : min (c.window_width / w) (c.window_height / h) * h ≤ c.window_height :=
    le_trans (mul_le_mul_of_nonneg_right (min_le_right _ _) (by omega)) q4
  have m3 : 0 ≤ min (c.window_width / w) (c.window_height / h) * w :=
    mul_nonneg m0 (by omega)
  have m4 : 0 ≤ min (c.window_width / w) (c.window_height / h) * h :=
    mul_nonneg m0 (by omega)
  unfold main_cell_size_ok div_ok int_ok INT_MIN
  unfold INT_MAX at hw1 hh1 a2 a4 ⊢
  rw [e1, e2]
  refine ⟨⟨?_, ?_, ?_⟩, ⟨?_, ?_, ?_⟩, ⟨?_, ?_⟩, ⟨?_, ?_⟩, ⟨?_, ?_⟩, ⟨?_, ?_⟩⟩ <;> omega

/-- What `main_setup` has checked and computed when it ends in a state. -/
theorem main_setup_started (rnd : Nat → Nat) (c : Config) (s : State)
    (h : main_setup rnd c = main_result.started s) :
    ¬ (c.maze_width = 1 ∨ c.maze_height = 1) ∧
      int_ok (c.maze_width * c.step) ∧ int_ok (c.maze_height * c.step) ∧
      int_ok (c.maze_width * c.step - 1) ∧ int_ok (c.maze_height * c.step - 1) ∧
      c.maze_width * c.step - 1 ≠ 0 ∧ c.maze_height * c.step - 1 ≠ 0 ∧
      int_ok ((c.maze_width * c.step - 1) * (c.maze_height * c.step - 1)) ∧
      0 ≤ (c.maze_width * c.step - 1) * (c.maze_height * c.step - 1) ∧
      0 ≤ c.numHeads ∧
      main_heads rnd c.numHeads.toNat
        { env :=
            { step := c.step
              maze_width := c.maze_width * c.step - 1
              maze_height := c.maze_height * c.step - 1
              switch_chance := c.switch_chance
              mode := c.mode
              map := List.replicate
                ((c.maze_width * c.step - 1) * (c.maze_height * c.step - 1)).toNat 0
              rand_calls := 0 }
          heads := blist_create c.numHeads.toNat } = some s := by
  unfold main_setup at h
  by_cases h1 : c.maze_width = 1 ∨ c.maze_height = 1
  · rw [if_pos h1] at h
    exact absurd h (by simp)
  rw [if_neg h1] at h
  by_cases h2 : ¬ (int_ok (c.maze_width * c.step) ∧ int_ok (c.maze_width * c.step - 1) ∧
      int_ok (c.maze_height * c.step) ∧ int_ok (c.maze_height * c.step - 1))
  · rw [if_pos h2] at h
    exact absurd h (by simp)
  rw [if_neg h2] at h
  simp only at h
  by_cases h3 : ¬ main_cell_size_ok c (c.maze_width * c.step - 1) (c.maze_height * c.step - 1)
  · rw [if_pos h3] at h
    exact absurd h (by simp)
  rw [if_neg h3] at h
  by_cases h4 : ¬ int_ok ((c.maze_width * c.step - 1) * (c.maze_height * c.step - 1))
  · rw [if_pos h4] at h
    exact absurd h (by simp)
  rw [if_neg h4] at h
  by_cases h5 : (c.maze_width * c.step - 1) * (c.maze_height * c.step - 1) < 0
  · rw [if_pos h5] at h
    exact absurd h (by simp)
  rw [if_neg h5] at h
  by_cases h6 : c.numHeads < 0
  · rw [if_pos h6] at h
    exact absurd h (by simp)
  rw [if_neg h6] at h
  rw [not_not] at h2 h3 h4
  refine ⟨h1, h2.1, h2.2.2.1, h2.2.1, h2.2.2.2, h3.1.1, h3.2.1.1, h4, by omega, by omega, ?_⟩
  cases hm : main_heads rnd c.numHeads.toNat
      { env :=
          { step := c.step
            maze_width := c.maze_width * c.step - 1
            maze_height := c.maze_height * c.step - 1
            switch_chance := c.switch_chance
            mode := c.mode
            map := List.replicate
              ((c.maze_width * c.step - 1) * (c.maze_height * c.step - 1)).toNat 0
            rand_calls := 0 }
        heads := blist_create c.numHeads.toNat } with
  | none =>
    rw [hm] at h
    exact absurd h (by simp)
  | some s1 =>
    rw [hm] at h
    simp only [main_result.started.injEq] at h
    rw [h]

/-- The state `main` builds from a valid configuration that keeps the `int`
arithmetic in range. -/
theorem main_setup_spec (rnd : Nat → Nat) (c : Config) (hv : valid_config c)
    (hf : int_config c) :
    ∃ s0, main_setup rnd c = main_result.started s0 ∧ setup_inv s0 ∧ state_inv s0 ∧
      s0.env.step = c.step ∧ s0.env.maze_width = c.maze_width * c.step - 1 ∧
      s0.env.maze_height = c.maze_height * c.step - 1 ∧
      s0.env.switch_chance = c.switch_chance ∧ s0.env.mode = c.mode ∧
      s0.heads.length = c.numHeads.toNat := by
  obtain ⟨v1, v2, v3, v4⟩ := hv
  obtain ⟨f1, f2, f3, f4, f5, f6, f7, f8⟩ := hf
  have hne : ¬ (c.maze_width = 1 ∨ c.maze_height = 1) := by omega
  have hw : 1 ≤ c.maze_width * c.step - 1 := by nlinarith
  have hh : 1 ≤ c.maze_height * c.step - 1 := by nlinarith
  have hwh : 0 ≤ (c.maze_width * c.step - 1) * (c.maze_height * c.step - 1) :=
    mul_nonneg (by omega) (by omega)
  have c2 : ¬ ¬ (int_ok (c.maze_width * c.step) ∧ int_ok (c.maze_width * c.step - 1) ∧
      int_ok (c.maze_height * c.step) ∧ int_ok (c.maze_height * c.step - 1)) := by
    rw [not_not]
    unfold int_ok INT_MIN
    unfold INT_MAX at f6 f7 ⊢
    refine ⟨⟨?_, ?_⟩, ⟨?_, ?_⟩, ⟨?_, ?_⟩, ⟨?_, ?_⟩⟩ <;> omega
  have c3 : ¬ ¬ main_cell_size_ok c (c.maze_width * c.step - 1)
      (c.maze_height * c.step - 1) := by
    rw [not_not]
    exact main_cell_size_spec c _ _ hw hh (by omega) (by omega) f2 f3 f4 f5
  have c4 : ¬ ¬ int_ok ((c.maze_width * c.step - 1) * (c.maze_height * c.step - 1)) := by
    rw [not_not]
    unfold int_ok INT_MIN
    unfold INT_MAX at f8 ⊢
    exact ⟨by omega, f8⟩
  have c5 : ¬ (c.maze_width * c.step - 1) * (c.maze_height * c.step - 1) < 0 := by omega
  have c6 : ¬ c.numHeads < 0 := by omega
  have h0 : setup_inv
      { env :=
          { step := c.step
            maze_width := c.maze_width * c.step - 1
            maze_height := c.maze_height * c.step - 1
            switch_chance := c.switch_chance
            mode := c.mode
            map := List.replicate
              ((c.maze_width * c.step - 1) * (c.maze_height * c.step - 1)).toNat 0
            rand_calls := 0 }
        heads := blist_create c.numHeads.toNat } := by
    obtain ⟨b1, b2⟩ := @blist_init_wf head_t _ c.numHeads.toNat
    refine ⟨b1, ⟨by simp only; omega, by simp⟩, ?_, ?_, ?_, ?_⟩
    · simp only; nlinarith
    · simp only; nlinarith
    · intro h hh
      unfold blist_create at hh
      rw [b2] at hh
      simp at hh
    · intro z _ hz
      unfold visited cell at hz
      simp only [List.getD_eq_getElem?_getD, List.getElem?_replicate] at hz
      split_ifs at hz <;> simp at hz
  obtain ⟨s0, i0, i1, i2, i3⟩ := main_heads_inv rnd c.numHeads.toNat _ h0 f8
  obtain ⟨k1, k2, k3, k4, k5⟩ := i2
  simp only at k1 k2 k3 k4 k5
  have hlen : s0.heads.length = c.numHeads.toNat := by
    rw [i3]; simp [blist_create, blist_init]
  refine ⟨s0, ?_, i1, setup_inv_state_inv _ i1 ?_, k1, k2, k3, k4, k5, hlen⟩
  · unfold main_setup
    rw [if_neg hne, if_neg c2]
    simp only
    rw [if_neg c3, if_neg c4, if_neg c5, if_neg c6, i0]
  · rw [hlen]
    unfold SIZE_MOD
    unfold INT_MAX at f1
    omega

/-! ## Lattice closure: when no visited lattice point has a path left -/

theorem binary_map_mono {e e1 : Env} (hm : map_mono e e1) (hb : binary_map e) :
    binary_map e1 := by
  intro i
  rcases hm.2 i with h | h
  · rw [h]; exact hb i
  · rw [h]

theorem visited_of_not_free (e : Env) (hb : binary_map e) (z : point_t) (hz : in_bounds e z)
    (hf : ¬ is_free e z) : visited e z := by
  unfold visited
  unfold is_free at hf
  have h1 : cell e z.x z.y ≠ 0 := fun h => hf ⟨hz, h⟩
  have h2 : cell e z.x z.y ≤ 1 := hb _
  omega

/-- With no path left at any visited lattice point, the visited lattice points
are closed under in-bounds moves of `step` cells. -/
theorem closed_step (e : Env) (hb : binary_map e)
    (hclosed : ∀ z, good_point e z → count_paths e z = 0) (z : point_t) (d : Int)
    (hd : d = MOVE_UP ∨ d = MOVE_RIGHT ∨ d = MOVE_DOWN ∨ d = MOVE_LEFT)
    (hz : good_point e z) (hin : in_bounds e (displaced z d e.step)) :
    good_point e (displaced z d e.step) := by
  refine ⟨on_lattice_displaced e z d hz.1, hin, ?_⟩
  apply visited_of_not_free e hb _ hin
  intro hfree
  have hmem : d ∈ legal_moves e z := (legal_moves_mem e z d).mpr ⟨hd, hfree⟩
  have : count_paths e z ≠ 0 := (count_paths_ne_zero_iff e z).mpr ⟨d, hmem⟩
  exact this (hclosed z hz)

theorem closed_line (e : Env) (hg : grid_wf e) (hb : binary_map e)
    (hclosed : ∀ z, good_point e z → count_paths e z = 0) (d : Int)
    (hd : d = MOVE_UP ∨ d = MOVE_RIGHT ∨ d = MOVE_DOWN ∨ d = MOVE_LEFT) (k : Nat)
    (z : point_t) (hz : good_point e z) (hin : in_bounds e (displaced z d (k * e.step))) :
    good_point e (displaced z d (k * e.step)) := by
  induction k with
  | zero =>
    have : displaced z d ((0 : Nat) * e.step) = z := by simp [displaced]
    rw [this]; exact hz
  | succ k ih =>
    have hstep := hg.1
    have hk : (0 : Int) ≤ k * e.step := mul_nonneg (by positivity) (le_of_lt hstep)
    have e1 : ((k + 1 : Nat) : Int) * e.step = k * e.step + e.step := by push_cast; ring
    rw [e1] at hin ⊢
    have hmid : in_bounds e (displaced z d (k * e.step)) :=
      segment_in_bounds e z d _ hd hz.2.1 hin _ hk (by omega)
    have := closed_step e hb hclosed _ d hd (ih hmid) (by rw [displaced_add]; exact hin)
    rw [displaced_add] at this
    exact this

/-- With a visited lattice point and no path left at any, every in-bounds
lattice point is visited. -/
theorem closed_all (e : Env) (hg : grid_wf e) (hb : binary_map e)
    (hclosed : ∀ z, good_point e z → count_paths e z = 0) (z0 : point_t)
    (h0 : good_point e z0) (z : point_t) (hl : on_lattice e z) (hin : in_bounds e z) :
    good_point e z := by
  -- first along the row of `z0` to the column of `z`
  have key : ∀ (a b : Int), e.step ∣ a → e.step ∣ b →
      ∃ (d : Int) (k : Nat), (d = MOVE_RIGHT ∨ d = MOVE_LEFT) ∧
        a + k * e.step * dir_dx d = b := by
    intro a b ha hb2
    obtain ⟨m, hm⟩ := Int.dvd_sub hb2 ha
    by_cases hpos : 0 ≤ m
    · refine ⟨MOVE_RIGHT, m.toNat, Or.inl rfl, ?_⟩
      have : ((m.toNat : Nat) : Int) = m := Int.toNat_of_nonneg hpos
      rw [this]
      simp only [dir_dx, ↓reduceIte]
      linarith [mul_comm m e.step]
    · refine ⟨MOVE_LEFT, (-m).toNat, Or.inr rfl, ?_⟩
      have : (((-m).toNat : Nat) : Int) = -m := Int.toNat_of_nonneg (by omega)
      rw [this]
      simp only [dir_dx, MOVE_LEFT, MOVE_RIGHT]
      norm_num
      linarith [mul_comm m e.step]
  have keyy : ∀ (a b : Int), e.step ∣ a → e.step ∣ b →
      ∃ (d : Int) (k : Nat), (d = MOVE_DOWN ∨ d = MOVE_UP) ∧
        a + k * e.step * dir_dy d = b := by
    intro a b ha hb2
    obtain ⟨m, hm⟩ := Int.dvd_sub hb2 ha
    by_cases hpos : 0 ≤ m
    · refine ⟨MOVE_DOWN, m.toNat, Or.inl rfl, ?_⟩
      have : ((m.toNat : Nat) : Int) = m := Int.toNat_of_nonneg hpos
      rw [this]
      simp only [dir_dy, ↓reduceIte]
      linarith [mul_comm m e.step]
    · refine ⟨MOVE_UP, (-m).toNat, Or.inr rfl, ?_⟩
      have : (((-m).toNat : Nat) : Int) = -m := Int.toNat_of_nonneg (by omega)
      rw [this]
      simp only [dir_dy, MOVE_UP, MOVE_DOWN]
      norm_num
      linarith [mul_comm m e.step]
  obtain ⟨d1, k1, hd1, hx⟩ := key z0.x z.x h0.1.1 hl.1
  have hdy1 : dir_dy d1 = 0 := by
    rcases hd1 with h | h <;> subst h <;> decide
  have hp1 : displaced z0 d1 (k1 * e.step) = { x := z.x, y := z0.y } := by
    simp only [displaced, hdy1, mul_zero, add_zero, hx]
  have hg1 : good_point e { x := z.x, y := z0.y } := by
    rw [← hp1]
    apply closed_line e hg hb hclosed d1 _ k1 z0 h0
    · rw [hp1]
      exact ⟨hin.1, hin.2.1, h0.2.1.2.2.1, h0.2.1.2.2.2⟩
    · rcases hd1 with h | h
      · exact Or.inr (Or.inl h)
      · exact Or.inr (Or.inr (Or.inr h))
  obtain ⟨d2, k2, hd2, hy⟩ := keyy z0.y z.y h0.1.2 hl.2
  have hdx2 : dir_dx d2 = 0 := by
    rcases hd2 with h | h <;> subst h <;> decide
  have hp2 : displaced { x := z.x, y := z0.y } d2 (k2 * e.step) = z := by
    cases z
    simp only [displaced, hdx2, mul_zero, add_zero, hy]
  rw [← hp2]
  apply closed_line e hg hb hclosed d2 _ k2 _ hg1
  · rw [hp2]; exact hin
  · rcases hd2 with h | h
    · exact Or.inr (Or.inr (Or.inl h))
    · exact Or.inl h

/-! ## The visited region stays connected -/

theorem joined_mono {e e1 : Env} (hc : same_cfg e e1) (hm : map_mono e e1) (a b : point_t)
    (h : joined e a b) : joined e1 a b := by
  obtain ⟨h1, h2, h3, h4, h5⟩ := h
  exact ⟨h1, (in_bounds_cfg hc a).mpr h2, visited_mono hc hm a h3,
    (in_bounds_cfg hc b).mpr h4, visited_mono hc hm b h5⟩

theorem linked_mono {e e1 : Env} (hc : same_cfg e e1) (hm : map_mono e e1) (a b : point_t)
    (h : linked e a b) : linked e1 a b :=
  Relation.ReflTransGen.mono (joined_mono hc hm) h

theorem adjacent_symm (a b : point_t) (h : adjacent a b) : adjacent b a := by
  unfold adjacent at *
  omega

theorem linked_symm (e : Env) (a b : point_t) (h : linked e a b) : linked e b a := by
  apply Relation.ReflTransGen.symmetric _ h
  intro x y hxy
  obtain ⟨h1, h2, h3, h4, h5⟩ := hxy
  exact ⟨adjacent_symm _ _ h1, h4, h5, h2, h3⟩

theorem linked_trans (e : Env) (a b c : point_t) (h1 : linked e a b) (h2 : linked e b c) :
    linked e a c :=
  Relation.ReflTransGen.trans h1 h2

theorem adjacent_displaced (p : point_t) (d : Int) (j : Int)
    (hd : d = MOVE_UP ∨ d = MOVE_RIGHT ∨ d = MOVE_DOWN ∨ d = MOVE_LEFT) :
    adjacent (displaced p d j) (displaced p d (j + 1)) := by
  unfold adjacent
  rcases hd with h | h | h | h <;> subst h
  · rw [displaced_up, displaced_up]; exact Or.inl ⟨rfl, Or.inl (by ring)⟩
  · rw [displaced_right, displaced_right]; exact Or.inr ⟨rfl, Or.inr (by ring)⟩
  · rw [displaced_down, displaced_down]; exact Or.inl ⟨rfl, Or.inr (by ring)⟩
  · rw [displaced_left, displaced_left]; exact Or.inr ⟨rfl, Or.inl (by ring)⟩

/-- The cells a move marks are linked to the point the move starts from. -/
theorem linked_segment (e1 : Env) (p : point_t) (d : Int) (n : Nat)
    (hd : d = MOVE_UP ∨ d = MOVE_RIGHT ∨ d = MOVE_DOWN ∨ d = MOVE_LEFT)
    (hp : in_bounds e1 p ∧ visited e1 p)
    (hseg : ∀ j : Nat, 1 ≤ j → j ≤ n → in_bounds e1 (displaced p d j) ∧
      visited e1 (displaced p d j)) (j : Nat) (hj : j ≤ n) :
    linked e1 p (displaced p d j) := by
  induction j with
  | zero =>
    have : displaced p d ((0 : Nat) : Int) = p := by simp [displaced]
    rw [this]
    exact Relation.ReflTransGen.refl
  | succ j ih =>
    have h1 := ih (by omega)
    have hcur : in_bounds e1 (displaced p d j) ∧ visited e1 (displaced p d j) := by
      rcases Nat.eq_zero_or_pos j with h0 | h0
      · subst h0
        have : displaced p d ((0 : Nat) : Int) = p := by simp [displaced]
        rw [this]; exact hp
      · exact hseg j h0 (by omega)
    have hnext := hseg (j + 1) (by omega) hj
    have hadj := adjacent_displaced p d j hd
    have e2 : ((j + 1 : Nat) : Int) = (j : Int) + 1 := by push_cast; ring
    rw [e2] at hnext ⊢
    exact Relation.ReflTransGen.tail h1 ⟨hadj, hcur.1, hcur.2, hnext.1, hnext.2⟩

theorem region_moved {e0 e1 : Env} {h0 h1 : head_t} (hg : grid_wf e0) (hk : head_ok e0 h0)
    (hr : one_region e0) (hs : moved_summary e0 h0 e1 h1) : one_region e1 := by
  obtain ⟨a1, a2, _, p, d, hp, hd, _, _, hseg, hframe, _, _⟩ := hs
  obtain ⟨hdir, _⟩ := (legal_moves_mem e0 p d).mp hd
  have hpgood : good_point e0 p := by
    rcases hp with hp | hp
    · rw [← hp]; exact hk.2.1
    · exact hk.2.2 p hp
  have hp1 : in_bounds e1 p ∧ visited e1 p :=
    ⟨(in_bounds_cfg a1 p).mpr hpgood.2.1, visited_mono a1 a2 p hpgood.2.2⟩
  have hstep : ((e0.step.toNat : Nat) : Int) = e0.step := Int.toNat_of_nonneg (le_of_lt hg.1)
  have hseg1 : ∀ j : Nat, 1 ≤ j → j ≤ e0.step.toNat →
      in_bounds e1 (displaced p d j) ∧ visited e1 (displaced p d j) := by
    intro j h1 h2
    obtain ⟨s1, s2⟩ := hseg j h1 (by omega)
    exact ⟨(in_bounds_cfg a1 _).mpr s1, s2⟩
  have hfrom : ∀ z, in_bounds e1 z → visited e1 z → linked e1 p z := by
    intro z hz hv
    by_cases hon : ∃ j : Nat, 1 ≤ j ∧ (j : Int) ≤ e0.step ∧ z = displaced p d j
    · obtain ⟨j, h1, h2, h3⟩ := hon
      rw [h3]
      exact linked_segment e1 p d e0.step.toNat hdir hp1 hseg1 j (by omega)
    · have hz0 : in_bounds e0 z := (in_bounds_cfg a1 z).mp hz
      have hv0 : visited e0 z := by
        unfold visited at *
        rw [hframe z hz0 (fun j h1 h2 h3 => hon ⟨j, h1, h2, h3⟩)] at hv
        exact hv
      exact linked_mono a1 a2 p z (hr.2 p z hpgood.2.1 hpgood.2.2 hz0 hv0)
  refine ⟨⟨p, hp1⟩, fun a b ha hva hb hvb => ?_⟩
  exact linked_trans e1 a p b (linked_symm e1 p a (hfrom a ha hva)) (hfrom b hb hvb)

theorem region_removed {e0 e1 : Env} {h0 : head_t} (hr : one_region e0)
    (hs : removed_summary e0 h0 e1) : one_region e1 := by
  obtain ⟨a1, a2, _⟩ := hs
  have hm := map_mono_of_eq a2
  obtain ⟨⟨z, hz, hv⟩, hall⟩ := hr
  refine ⟨⟨z, (in_bounds_cfg a1 z).mpr hz, visited_mono a1 hm z hv⟩, ?_⟩
  intro a b ha hva hb hvb
  apply linked_mono a1 hm
  apply hall a b ((in_bounds_cfg a1 a).mp ha) _ ((in_bounds_cfg a1 b).mp hb) _
  · unfold visited at *; rw [← cell_congr a1 a2]; exact hva
  · unfold visited at *; rw [← cell_congr a1 a2]; exact hvb

theorem run_heads_region (rnd : Nat → Nat) (e : Env) (done todo : List head_t)
    (hi : pool_inv e (done ++ todo)) (hr : one_region e) :
    one_region (run_heads rnd e todo).1 := by
  induction todo generalizing e done with
  | nil => rw [run_heads_nil]; exact hr
  | cons h t ih =>
    rw [run_heads_cons]
    simp only
    have hkh : head_ok e h := hi.2.1 h (List.mem_append_right _ (List.mem_cons_self _ _))
    rcases update_head_summary rnd e h hi.1 hkh with ⟨_, hs⟩ | ⟨_, hs⟩
    · exact ih _ done (pool_inv_removed hi hs) (region_removed hr hs)
    · exact ih _ (done ++ [(update_head rnd e h).2.1]) (pool_inv_moved hi hs)
        (region_moved hi.1 hkh hr hs)

theorem update_region (rnd : Nat → Nat) (s : State) (hi : state_inv s)
    (hr : one_region s.env) : one_region (update rnd s).env := by
  obtain ⟨r1, _, _⟩ := update_run rnd s hi.1
  rw [r1]
  exact run_heads_region rnd s.env [] s.heads.elems (by simpa using hi.2) hr

/-! ## Monotonicity of one tick, for every state -/

theorem update_random_switch_mono (rnd : Nat → Nat) (e : Env) (h : head_t) :
    same_cfg e (update_random_switch rnd e h).1 ∧
      (update_random_switch rnd e h).1.map = e.map := by
  unfold update_random_switch
  simp only [rand]
  split_ifs with h1 h2
  · obtain ⟨b1, b2, _⟩ := head_switch_branch_env rnd (rand rnd e).2 h
    exact ⟨same_cfg_trans (rand_cfg rnd e) b1, b2⟩
  · exact ⟨rand_cfg rnd e, rfl⟩
  · exact ⟨same_cfg_refl e, rfl⟩

theorem update_stuck_loop_mono (rnd : Nat → Nat) (fuel : Nat) (e : Env) (h : head_t) :
    same_cfg e (update_stuck_loop rnd fuel e h).1 ∧
      (update_stuck_loop rnd fuel e h).1.map = e.map := by
  induction fuel generalizing e h with
  | zero => exact ⟨same_cfg_refl e, rfl⟩
  | succ fuel ih =>
    rw [update_stuck_loop_succ]
    split_ifs with h1 h2
    · exact ⟨same_cfg_refl e, rfl⟩
    · obtain ⟨b1, b2, _⟩ := head_switch_branch_env rnd e h
      obtain ⟨c1, c2⟩ := ih (head_switch_branch rnd e h).1 (head_switch_branch rnd e h).2
      exact ⟨same_cfg_trans b1 c1, c2.trans b2⟩
    · exact ⟨same_cfg_refl e, rfl⟩

theorem update_head_mono (rnd : Nat → Nat) (e : Env) (h : head_t) :
    same_cfg e (update_head rnd e h).1 ∧ map_mono e (update_head rnd e h).1 := by
  obtain ⟨a1, a2⟩ := update_random_switch_mono rnd e h
  obtain ⟨b1, b2⟩ := update_stuck_loop_mono rnd
    ((update_random_switch rnd e h).2.branches.length + 1)
    (update_random_switch rnd e h).1 (update_random_switch rnd e h).2
  have hc := same_cfg_trans a1 b1
  have hm : map_mono e _ := map_mono_of_eq (b2.trans a2)
  unfold update_head
  simp only
  split_ifs with hr
  · exact ⟨hc, hm⟩
  · obtain ⟨c1, c2⟩ := update_move_mono rnd
      (update_stuck_loop rnd ((update_random_switch rnd e h).2.branches.length + 1)
        (update_random_switch rnd e h).1 (update_random_switch rnd e h).2).1
      (update_stuck_loop rnd ((update_random_switch rnd e h).2.branches.length + 1)
        (update_random_switch rnd e h).1 (update_random_switch rnd e h).2).2.1
    exact ⟨same_cfg_trans hc c1, map_mono_trans hm c2⟩

theorem update_loop_mono (rnd : Nat → Nat) (fuel i : Nat) (s : State) :
    same_cfg s.env (update_loop rnd fuel i s).env ∧
      map_mono s.env (update_loop rnd fuel i s).env := by
  induction fuel generalizing i s with
  | zero => exact ⟨same_cfg_refl _, map_mono_refl _⟩
  | succ fuel ih =>
    rw [update_loop_succ]
    obtain ⟨a1, a2⟩ := update_head_mono rnd s.env (blist_get s.heads i)
    split_ifs with h1 h2
    · obtain ⟨b1, b2⟩ := ih (((i + SIZE_MOD - 1) % SIZE_MOD + 1) % SIZE_MOD)
        { env := (update_head rnd s.env (blist_get s.heads i)).1
          heads := blist_remove
            (blist_write s.heads i (update_head rnd s.env (blist_get s.heads i)).2.1) i }
      exact ⟨same_cfg_trans a1 b1, map_mono_trans a2 b2⟩
    · obtain ⟨b1, b2⟩ := ih ((i + 1) % SIZE_MOD)
        { env := (update_head rnd s.env (blist_get s.heads i)).1
          heads := blist_write s.heads i (update_head rnd s.env (blist_get s.heads i)).2.1 }
      exact ⟨same_cfg_trans a1 b1, map_mono_trans a2 b2⟩
    · exact ⟨same_cfg_refl _, map_mono_refl _⟩

theorem update_mono (rnd : Nat → Nat) (s : State) :
    same_cfg s.env (update rnd s).env ∧ map_mono s.env (update rnd s).env :=
  update_loop_mono rnd s.heads.length 0 s

theorem iterate_mono (rnd : Nat → Nat) (s : State) (t1 t2 : Nat) (h : t1 ≤ t2) :
    same_cfg ((update rnd)^[t1] s).env ((update rnd)^[t2] s).env ∧
      map_mono ((update rnd)^[t1] s).env ((update rnd)^[t2] s).env := by
  induction t2 with
  | zero =>
    have : t1 = 0 := by omega
    subst this
    exact ⟨same_cfg_refl _, map_mono_refl _⟩
  | succ t2 ih =>
    by_cases heq : t1 = t2 + 1
    · subst heq
      exact ⟨same_cfg_refl _, map_mono_refl _⟩
    · obtain ⟨a1, a2⟩ := ih (by omega)
      rw [Function.iterate_succ_apply']
      obtain ⟨b1, b2⟩ := update_mono rnd ((update rnd)^[t2] s)
      exact ⟨same_cfg_trans a1 b1, map_mono_trans a2 b2⟩

/-! ## Runs -/

theorem update_empty (rnd : Nat → Nat) (s : State) (h : s.heads.length = 0) :
    update rnd s = s := by
  unfold update
  rw [h]
  rfl

theorem iterate_empty (rnd : Nat → Nat) (s : State) (h : s.heads.length = 0) (n : Nat) :
    (update rnd)^[n] s = s := by
  induction n with
  | zero => rfl
  | succ n ih => rw [Function.iterate_succ_apply', ih, update_empty rnd s h]

theorem iterate_inv (rnd : Nat → Nat) (s : State) (hi : state_inv s) (n : Nat) :
    state_inv ((update rnd)^[n] s) := by
  induction n with
  | zero => exact hi
  | succ n ih =>
    rw [Function.iterate_succ_apply']
    exact (update_inv rnd _ ih).1

/-- While the pool is not empty, every tick visits at least one more cell. -/
theorem iterate_count (rnd : Nat → Nat) (s : State) (hi : state_inv s) (n : Nat)
    (hne : ((update rnd)^[n] s).heads.length ≠ 0) :
    n + visited_count s.env ≤ visited_count ((update rnd)^[n] s).env := by
  induction n with
  | zero => simp
  | succ n ih =>
    rw [Function.iterate_succ_apply'] at hne ⊢
    have hprev : ((update rnd)^[n] s).heads.length ≠ 0 := by
      intro h0
      rw [update_empty rnd _ h0] at hne
      exact hne h0
    have h1 := ih hprev
    have h2 := (update_inv rnd _ (iterate_inv rnd s hi n)).2.2.2 hne
    omega

theorem iterate_terminates (rnd : Nat → Nat) (s : State) (hi : state_inv s)
    (hpos : 0 < visited_count s.env) :
    ((update rnd)^[s.env.map.length] s).heads.length = 0 := by
  by_contra hne
  have h1 := iterate_count rnd s hi s.env.map.length hne
  have h2 := visited_count_le ((update rnd)^[s.env.map.length] s).env
  have h3 := (iterate_mono rnd s 0 s.env.map.length (Nat.zero_le _)).2.1
  simp only [Function.iterate_zero, id_eq] at h3
  omega

theorem main_loop_empty (rnd : Nat → Nat) (fuel : Nat) (s : State)
    (h : ((update rnd)^[fuel] s).heads.length = 0) :
    (main_loop rnd fuel s).heads.length = 0 := by
  induction fuel generalizing s with
  | zero => exact h
  | succ fuel ih =>
    unfold main_loop
    split_ifs with h1
    · exact ih (update rnd s) h
    · exact not_not.mp h1

theorem main_setup_binary (rnd : Nat → Nat) (c : Config) (s0 : State)
    (h : main_setup rnd c = main_result.started s0) : binary_map s0.env := by
  obtain ⟨_, _, _, _, _, _, _, _, _, _, hm⟩ := main_setup_started rnd c s0 h
  apply binary_map_mono (main_heads_some rnd _ _ _ hm).2
  intro i
  simp only [List.getD_eq_getElem?_getD, List.getElem?_replicate]
  split_ifs <;> simp

theorem setup_inv_good (s : State) (hi : setup_inv s) (hl : 0 < s.heads.length) :
    ∃ h, s.heads.elems = h :: s.heads.elems.tail ∧ good_point s.env h.point := by
  have hlen : s.heads.elems.length = s.heads.length :=
    blist_elems_length _ (by rw [hi.1.2]; exact hi.1.1)
  cases hx : s.heads.elems with
  | nil => rw [hx] at hlen; simp at hlen; omega
  | cons h t =>
    refine ⟨h, rfl, ?_⟩
    exact (hi.2.2.2.2.1 h (by rw [hx]; simp)).1.2.1

/-- The fuel given to the stuck loop is enough: with more passes allowed than
the store has points, the loop ends by its own tests, either with the head
removed (no path, empty store) or at a position that has a path. -/
theorem update_stuck_loop_fuel (rnd : Nat → Nat) (fuel : Nat) (e : Env) (h : head_t)
    (hf : h.branches.length < fuel) :
    ((update_stuck_loop rnd fuel e h).2.2 = true ∧
        count_paths (update_stuck_loop rnd fuel e h).1
          (update_stuck_loop rnd fuel e h).2.1.point = 0 ∧
        (update_stuck_loop rnd fuel e h).2.1.branches.length = 0) ∨
      ((update_stuck_loop rnd fuel e h).2.2 = false ∧
        count_paths (update_stuck_loop rnd fuel e h).1
          (update_stuck_loop rnd fuel e h).2.1.point ≠ 0) := by
  induction fuel generalizing e h with
  | zero => omega
  | succ fuel ih =>
    rw [update_stuck_loop_succ]
    by_cases hc : count_paths e h.point = 0
    · by_cases hl : h.branches.length = 0
      · rw [if_pos hc, if_pos hl]
        exact Or.inl ⟨rfl, hc, hl⟩
      · rw [if_pos hc, if_neg hl]
        apply ih
        rw [head_switch_branch_length rnd e h hc]; omega
    · rw [if_neg hc]
      exact Or.inr ⟨rfl, hc⟩

/-- The fuel given to the loop of `update` is enough: on a well-formed pool the
loop started at `i` with `heads->length - i` passes allowed ends with its own
test `i < heads->length` false, so allowing one more pass changes nothing. -/
theorem update_loop_exit (rnd : Nat → Nat) (fuel : Nat) (i : Nat) (s : State)
    (hw : pool_wf s.heads) (hi : i ≤ s.heads.length) (hf : s.heads.length - i ≤ fuel) :
    update_loop rnd (fuel + 1) i s = update_loop rnd fuel i s := by
  induction fuel generalizing i s with
  | zero =>
    rw [update_loop_succ, if_neg (by omega)]
    rfl
  | succ fuel ih =>
    rw [update_loop_succ rnd (fuel + 1) i s, update_loop_succ rnd fuel i s]
    by_cases hlt : i < s.heads.length
    · rw [if_pos hlt, if_pos hlt]
      have hwr := pool_wf_write s.heads i (update_head rnd s.env (blist_get s.heads i)).2.1 hw
      by_cases hrem : (update_head rnd s.env (blist_get s.heads i)).2.2 = true
      · rw [if_pos hrem, if_pos hrem, size_wrap i (by have := hw.2; omega)]
        apply ih
        · refine ⟨?_, ?_⟩
          · rw [blist_remove_array_length, blist_remove_length, blist_write_array_length,
              blist_write_length]
            have := hw.1; omega
          · rw [blist_remove_length, blist_write_length]; have := hw.2; omega
        · simp only [blist_remove_length, blist_write_length]; omega
        · simp only [blist_remove_length, blist_write_length]; omega
      · rw [if_neg hrem, if_neg hrem, size_succ i _ hlt hw.2]
        apply ih
        · exact hwr
        · simp only [blist_write_length]; omega
        · simp only [blist_write_length]; omega
    · rw [if_neg hlt, if_neg hlt]

/-! ## The claims -/

theorem sample_state_is_initial :
    main_setup sample_rnd sample_config = main_result.started sample_state := by
  rfl

/-- C1: for every valid configuration (both dimensions in lattice units above 1,
`step >= 1`, at least one head) whose sizes keep the `int` arithmetic of `main`
in range (`int_config`), every policy, every `switch_chance` and every stream
of random numbers, `main` builds an initial state on a grid of
`W = units_w * step - 1` by `H = units_h * step - 1` cells, and repeatedly applying
`update` to it yields an empty head pool after at most `W * H` ticks; the main
loop of `main`, given that many ticks, stops with the pool empty. -/
theorem update_reaches_empty_pool (rnd : Nat → Nat) (c : Config) (hv : valid_config c)
    (hf : int_config c) :
    ∃ s0, main_setup rnd c = main_result.started s0 ∧
      s0.env.maze_width = c.maze_width * c.step - 1 ∧
      s0.env.maze_height = c.maze_height * c.step - 1 ∧
      (∃ n, n ≤ (s0.env.maze_width * s0.env.maze_height).toNat ∧
        ((update rnd)^[n] s0).heads.length = 0) ∧
      (main_loop rnd (s0.env.maze_width * s0.env.maze_height).toNat s0).heads.length = 0 := by
  obtain ⟨s0, h0, hsetup, hinv, _, hw, hh, _, _, hlen⟩ := main_setup_spec rnd c hv hf
  have hheads : 0 < s0.heads.length := by
    rw [hlen]; have := hv.2.2.2; omega
  obtain ⟨h, _, hgood⟩ := setup_inv_good s0 hsetup hheads
  have hpos : 0 < visited_count s0.env := visited_count_pos s0.env h.point hgood.2.2
  have hterm := iterate_terminates rnd s0 hinv hpos
  rw [hinv.2.1.2] at hterm
  exact ⟨s0, h0, hw, hh, ⟨_, le_refl _, hterm⟩, main_loop_empty rnd _ s0 hterm⟩

theorem update_reaches_empty_pool_witness :
    valid_config sample_config ∧ int_config sample_config ∧
      ∃ s0, main_setup sample_rnd sample_config = main_result.started s0 ∧
        s0.env.maze_width = sample_config.maze_width * sample_config.step - 1 ∧
        s0.env.maze_height = sample_config.maze_height * sample_config.step - 1 ∧
        (∃ n, n ≤ (s0.env.maze_width * s0.env.maze_height).toNat ∧
          ((update sample_rnd)^[n] s0).heads.length = 0) ∧
        (main_loop sample_rnd (s0.env.maze_width * s0.env.maze_height).toNat s0).heads.length
          = 0 :=
  ⟨by decide, by decide,
    update_reaches_empty_pool sample_rnd sample_config (by decide) (by decide)⟩

/-- C2: for every state and every stream of random numbers, a cell that is
visited (map value 1) before a call of `update` is visited after it, slot by
slot of the map and cell by cell of the grid; hence for all ticks `t1 < t2` a
cell visited at `t1` is visited at `t2`. -/
theorem visited_cells_stay_visited (rnd : Nat → Nat) (s : State) :
    (∀ i, s.env.map.getD i 0 = 1 → (update rnd s).env.map.getD i 0 = 1) ∧
      (∀ p, visited s.env p → visited (update rnd s).env p) ∧
      ∀ t1 t2, t1 < t2 → ∀ p, visited ((update rnd)^[t1] s).env p →
        visited ((update rnd)^[t2] s).env p := by
  obtain ⟨a1, a2⟩ := update_mono rnd s
  refine ⟨fun i hi => map_mono_visited a2 i hi, fun p hp => visited_mono a1 a2 p hp, ?_⟩
  intro t1 t2 ht p hp
  obtain ⟨b1, b2⟩ := iterate_mono rnd s t1 t2 (le_of_lt ht)
  exact visited_mono b1 b2 p hp

theorem visited_cells_stay_visited_witness :
    visited sample_state.env { x := 2, y := 0 } ∧
      visited (update sample_rnd sample_state).env { x := 2, y := 0 } ∧
      visited ((update sample_rnd)^[1] sample_state).env { x := 1, y := 0 } ∧
      visited ((update sample_rnd)^[4] sample_state).env { x := 1, y := 0 } :=
  ⟨by decide,
    (visited_cells_stay_visited sample_rnd sample_state).2.1 { x := 2, y := 0 } (by decide),
    by decide,
    (visited_cells_stay_visited sample_rnd sample_state).2.2 1 4 (by decide) { x := 1, y := 0 }
      (by decide)⟩

/-- C3: for every point `p` and every grid, the directions `get_paths` lists
(slots 1 to count) are exactly the directions among Up, Right, Down, Left whose
destination, `p` displaced by `step` cells, satisfies `0 <= x < W`, `0 <= y < H`
and is unvisited (map value 0); they appear in the order Up, Right, Down, Left
without repetition; slot 0, which `count_paths` returns, is their number. -/
theorem get_paths_lists_legal_moves (e : Env) (p : point_t) :
    listed_paths (get_paths e p) = legal_moves e p ∧
      (∀ d, d ∈ listed_paths (get_paths e p) ↔
        (d = MOVE_UP ∨ d = MOVE_RIGHT ∨ d = MOVE_DOWN ∨ d = MOVE_LEFT) ∧
          (0 ≤ (displaced p d e.step).x ∧ (displaced p d e.step).x < e.maze_width ∧
            0 ≤ (displaced p d e.step).y ∧ (displaced p d e.step).y < e.maze_height) ∧
          cell e (displaced p d e.step).x (displaced p d e.step).y = 0) ∧
      List.Sublist (listed_paths (get_paths e p)) [MOVE_UP, MOVE_RIGHT, MOVE_DOWN, MOVE_LEFT] ∧
      (listed_paths (get_paths e p)).Nodup ∧
      (get_paths e p).slots.length = 5 ∧
      (get_paths e p).slots.getD 0 0 = ((listed_paths (get_paths e p)).length : Int) ∧
      count_paths e p = ((listed_paths (get_paths e p)).length : Int) := by
  have hsub : List.Sublist (legal_moves e p) [MOVE_UP, MOVE_RIGHT, MOVE_DOWN, MOVE_LEFT] :=
    List.filter_sublist _
  rw [listed_paths_eq]
  refine ⟨rfl, fun d => ?_, hsub, ?_, ?_, ?_, count_paths_eq e p⟩
  · rw [legal_moves_mem]; rfl
  · exact List.Nodup.sublist hsub (by decide)
  · rw [get_paths_eq]
    have := legal_moves_length_le e p
    simp only [List.length_cons, List.length_append, List.length_replicate]
    omega
  · exact count_paths_eq e p

theorem get_paths_lists_legal_moves_witness :
    listed_paths (get_paths sample_state.env { x := 2, y := 0 }) =
        [MOVE_RIGHT, MOVE_DOWN, MOVE_LEFT] ∧
      count_paths sample_state.env { x := 2, y := 0 } = 3 :=
  ⟨((get_paths_lists_legal_moves sample_state.env { x := 2, y := 0 }).1).trans (by decide),
    ((get_paths_lists_legal_moves sample_state.env { x := 2, y := 0 }).2.2.2.2.2.2).trans
      (by decide)⟩

/-- The coordinates `x - step` and `x + step` that `get_paths` forms for an
in-bounds coordinate fit an `int` when the map size does. -/
theorem step_in_range (w h st x : Int) (hs : 0 < st) (hw : st ≤ w) (hh : st ≤ h)
    (hm : w * h ≤ INT_MAX) (hx0 : 0 ≤ x) (hx : x < w) :
    int_ok (x - st) ∧ int_ok (x + st) := by
  have h1 : w * 1 ≤ w * h := mul_le_mul_of_nonneg_left (by omega) (by omega)
  unfold int_ok INT_MIN
  unfold INT_MAX at hm ⊢
  refine ⟨⟨by omega, by omega⟩, ⟨by omega, ?_⟩⟩
  by_cases h2 : 2 ≤ h
  · have h3 : w * 2 ≤ w * h := mul_le_mul_of_nonneg_left h2 (by omega)
    omega
  · have h4 : h = 1 := by omega
    subst h4
    omega

/-- C4: in the initial state `main` builds from a valid configuration whose
sizes keep its `int` arithmetic in range (`int_config`) and in every state
reached from it by `update`, the map has `W * H` slots, a number that fits an
`int`; the position of every head in the pool and every point in its Branch
Store is in bounds and on a visited cell; so its grid index lies inside the
`W * H` map, as does the index of every cell a move from such a point marks, the
four neighbour coordinates `get_paths` forms from it fit an `int`, and
`can_move` only indexes the map in bounds. -/
theorem heads_and_branches_in_bounds_visited (rnd : Nat → Nat) (c : Config)
    (hv : valid_config c) (hf : int_config c) :
    ∃ s0, main_setup rnd c = main_result.started s0 ∧ ∀ n,
      ((update rnd)^[n] s0).env.map.length =
        (((update rnd)^[n] s0).env.maze_width * ((update rnd)^[n] s0).env.maze_height).toNat ∧
      (((update rnd)^[n] s0).env.map.length : Int) ≤ INT_MAX ∧
      (∀ h ∈ ((update rnd)^[n] s0).heads.elems, ∀ p, (h.point = p ∨ p ∈ h.branches.elems) →
        in_bounds ((update rnd)^[n] s0).env p ∧ visited ((update rnd)^[n] s0).env p ∧
        cell_index ((update rnd)^[n] s0).env p.x p.y < ((update rnd)^[n] s0).env.map.length ∧
        int_ok (p.x - ((update rnd)^[n] s0).env.step) ∧
        int_ok (p.x + ((update rnd)^[n] s0).env.step) ∧
        int_ok (p.y - ((update rnd)^[n] s0).env.step) ∧
        int_ok (p.y + ((update rnd)^[n] s0).env.step) ∧
        ∀ d ∈ legal_moves ((update rnd)^[n] s0).env p, ∀ j : Nat, 1 ≤ j →
          (j : Int) ≤ ((update rnd)^[n] s0).env.step →
          in_bounds ((update rnd)^[n] s0).env (displaced p d j) ∧
          cell_index ((update rnd)^[n] s0).env (displaced p d j).x (displaced p d j).y <
            ((update rnd)^[n] s0).env.map.length) ∧
      ∀ x y, out_of_bounds ((update rnd)^[n] s0).env x y = false →
        cell_index ((update rnd)^[n] s0).env x y < ((update rnd)^[n] s0).env.map.length := by
  obtain ⟨s0, h0, hsetup, hinv, _, hw, hh, _⟩ := main_setup_spec rnd c hv hf
  refine ⟨s0, h0, fun n => ?_⟩
  obtain ⟨_, hg, hk, _⟩ := iterate_inv rnd s0 hinv n
  obtain ⟨m1, _⟩ := iterate_mono rnd s0 0 n (Nat.zero_le _)
  simp only [Function.iterate_zero, id_eq] at m1
  have hfit : (((update rnd)^[n] s0).env.map.length : Int) ≤ INT_MAX := by
    rw [hg.2, m1.2.1, m1.2.2.1, hw, hh]
    have h8 := hf.2.2.2.2.2.2.2
    unfold INT_MAX at h8 ⊢
    generalize (c.maze_width * c.step - 1) * (c.maze_height * c.step - 1) = v at h8 ⊢
    omega
  have hprod : ((update rnd)^[n] s0).env.maze_width *
      ((update rnd)^[n] s0).env.maze_height ≤ INT_MAX := by
    rw [m1.2.1, m1.2.2.1, hw, hh]
    exact hf.2.2.2.2.2.2.2
  have hprod1 : ((update rnd)^[n] s0).env.maze_height *
      ((update rnd)^[n] s0).env.maze_width ≤ INT_MAX := by
    rw [mul_comm]; exact hprod
  have hsw : ((update rnd)^[n] s0).env.step ≤ ((update rnd)^[n] s0).env.maze_width := by
    rw [m1.1, m1.2.1]; exact hsetup.2.2.1
  have hsh : ((update rnd)^[n] s0).env.step ≤ ((update rnd)^[n] s0).env.maze_height := by
    rw [m1.1, m1.2.2.1]; exact hsetup.2.2.2.1
  refine ⟨hg.2, hfit, ?_, ?_⟩
  · intro h hh p hp
    have hgood : good_point ((update rnd)^[n] s0).env p := by
      rcases hp with hp | hp
      · rw [← hp]; exact (hk h hh).2.1
      · exact (hk h hh).2.2 p hp
    obtain ⟨x1, x2⟩ := step_in_range _ _ _ p.x hg.1 hsw hsh hprod hgood.2.1.1 hgood.2.1.2.1
    obtain ⟨y1, y2⟩ := step_in_range _ _ _ p.y hg.1 hsh hsw hprod1 hgood.2.1.2.2.1
      hgood.2.1.2.2.2
    refine ⟨hgood.2.1, hgood.2.2, cell_index_lt _ p hg hgood.2.1, x1, x2, y1, y2, ?_⟩
    intro d hd j h1 h2
    obtain ⟨hdir, hfree⟩ := (legal_moves_mem _ p d).mp hd
    have hin := segment_in_bounds _ p d _ hdir hgood.2.1 hfree.1 j (by omega) h2
    exact ⟨hin, cell_index_lt _ _ hg hin⟩
  · intro x y hb
    have hin : in_bounds ((update rnd)^[n] s0).env { x := x, y := y } := by
      simp only [out_of_bounds, decide_eq_false_iff_not] at hb
      unfold in_bounds
      simp only
      omega
    exact cell_index_lt _ { x := x, y := y } hg hin

theorem heads_and_branches_in_bounds_visited_witness :
    valid_config sample_config ∧ int_config sample_config ∧
      ∃ s0, main_setup sample_rnd sample_config = main_result.started s0 ∧ ∀ n,
      ((update sample_rnd)^[n] s0).env.map.length =
        (((update sample_rnd)^[n] s0).env.maze_width *
          ((update sample_rnd)^[n] s0).env.maze_height).toNat ∧
      (((update sample_rnd)^[n] s0).env.map.length : Int) ≤ INT_MAX ∧
      (∀ h ∈ ((update sample_rnd)^[n] s0).heads.elems, ∀ p,
        (h.point = p ∨ p ∈ h.branches.elems) →
        in_bounds ((update sample_rnd)^[n] s0).env p ∧
        visited ((update sample_rnd)^[n] s0).env p ∧
        cell_index ((update sample_rnd)^[n] s0).env p.x p.y <
          ((update sample_rnd)^[n] s0).env.map.length ∧
        int_ok (p.x - ((update sample_rnd)^[n] s0).env.step) ∧
        int_ok (p.x + ((update sample_rnd)^[n] s0).env.step) ∧
        int_ok (p.y - ((update sample_rnd)^[n] s0).env.step) ∧
        int_ok (p.y + ((update sample_rnd)^[n] s0).env.step) ∧
        ∀ d ∈ legal_moves ((update sample_rnd)^[n] s0).env p, ∀ j : Nat, 1 ≤ j →
          (j : Int) ≤ ((update sample_rnd)^[n] s0).env.step →
          in_bounds ((update sample_rnd)^[n] s0).env (displaced p d j) ∧
          cell_index ((update sample_rnd)^[n] s0).env (displaced p d j).x (displaced p d j).y <
            ((update sample_rnd)^[n] s0).env.map.length) ∧
      ∀ x y, out_of_bounds ((update sample_rnd)^[n] s0).env x y = false →
        cell_index ((update sample_rnd)^[n] s0).env x y <
          ((update sample_rnd)^[n] s0).env.map.length :=
  ⟨by decide, by decide,
    heads_and_branches_in_bounds_visited sample_rnd sample_config (by decide) (by decide)⟩

/-- The move of `update` from an in-bounds position with a path: the direction is
legal, the segment is in bounds and visited afterwards. -/
theorem update_move_cells (rnd : Nat → Nat) (e : Env) (h : head_t) (hg : grid_wf e)
    (hp : in_bounds e h.point) (hc : count_paths e h.point ≠ 0) :
    chosen_direction rnd e h.point ∈ legal_moves e h.point ∧
      (update_move rnd e h).2.point =
        displaced h.point (chosen_direction rnd e h.point) e.step ∧
      ∀ j : Nat, 1 ≤ j → (j : Int) ≤ e.step →
        in_bounds e (displaced h.point (chosen_direction rnd e h.point) j) ∧
        visited (update_move rnd e h).1
          (displaced h.point (chosen_direction rnd e h.point) j) := by
  have hstep : ((e.step.toNat : Nat) : Int) = e.step := Int.toNat_of_nonneg (le_of_lt hg.1)
  have hd := chosen_direction_legal rnd e h.point hc
  obtain ⟨hdir, hfree⟩ := (legal_moves_mem e h.point _).mp hd
  have hc1 : same_cfg e (rand rnd e).2 := rand_cfg rnd e
  have hg1 : grid_wf (rand rnd e).2 := grid_wf_congr hc1 rfl hg
  have hseg : ∀ j : Nat, 1 ≤ j → j ≤ e.step.toNat →
      in_bounds (rand rnd e).2 (displaced h.point (chosen_direction rnd e h.point) j) := by
    intro j h1 h2
    rw [in_bounds_cfg hc1]
    exact segment_in_bounds e h.point _ e.step hdir hp hfree.1 j (by omega) (by omega)
  obtain ⟨b1, _⟩ := update_move_loop_cells (chosen_direction rnd e h.point) e.step.toNat
    (rand rnd e).2 h.point hg1 hseg
  rw [← update_move_env] at b1
  refine ⟨hd, ?_, fun j h1 h2 => ?_⟩
  · rw [update_move_head, hstep]
  · have hj : j ≤ e.step.toNat := by omega
    exact ⟨(in_bounds_cfg hc1 _).mp (hseg j h1 hj), b1 j h1 hj⟩

/-- C5: for every head that moves during `update` (it stands in bounds on a
well-formed grid and its position has a path), the direction taken is one of
those `get_paths` lists for the pre-move position; the new position differs
from the pre-move position in exactly one coordinate, by exactly `step`, in that
direction; and every cell of the straight segment from the pre-move position
(exclusive) to the new position (inclusive) is visited afterwards. -/
theorem update_move_carves_corridor (rnd : Nat → Nat) (e : Env) (h : head_t)
    (hg : grid_wf e) (hp : in_bounds e h.point) (hc : count_paths e h.point ≠ 0) :
    chosen_direction rnd e h.point ∈ listed_paths (get_paths e h.point) ∧
      0 < e.step ∧
      ((chosen_direction rnd e h.point = MOVE_UP ∧
          (update_move rnd e h).2.point.x = h.point.x ∧
          (update_move rnd e h).2.point.y = h.point.y - e.step) ∨
        (chosen_direction rnd e h.point = MOVE_RIGHT ∧
          (update_move rnd e h).2.point.x = h.point.x + e.step ∧
          (update_move rnd e h).2.point.y = h.point.y) ∨
        (chosen_direction rnd e h.point = MOVE_DOWN ∧
          (update_move rnd e h).2.point.x = h.point.x ∧
          (update_move rnd e h).2.point.y = h.point.y + e.step) ∨
        (chosen_direction rnd e h.point = MOVE_LEFT ∧
          (update_move rnd e h).2.point.x = h.point.x - e.step ∧
          (update_move rnd e h).2.point.y = h.point.y)) ∧
      (update_move rnd e h).2.point =
        displaced h.point (chosen_direction rnd e h.point) e.step ∧
      ∀ j : Nat, 1 ≤ j → (j : Int) ≤ e.step →
        visited (update_move rnd e h).1
          (displaced h.point (chosen_direction rnd e h.point) j) := by
  obtain ⟨hd, hpt, hseg⟩ := update_move_cells rnd e h hg hp hc
  obtain ⟨hdir, _⟩ := (legal_moves_mem e h.point _).mp hd
  refine ⟨by rw [listed_paths_eq]; exact hd, hg.1, ?_, hpt, fun j h1 h2 => (hseg j h1 h2).2⟩
  rw [hpt]
  rcases hdir with hx | hx | hx | hx
  · left; rw [hx, displaced_up]; exact ⟨rfl, rfl, rfl⟩
  · right; left; rw [hx, displaced_right]; exact ⟨rfl, rfl, rfl⟩
  · right; right; left; rw [hx, displaced_down]; exact ⟨rfl, rfl, rfl⟩
  · right; right; right; rw [hx, displaced_left]; exact ⟨rfl, rfl, rfl⟩

theorem update_move_carves_corridor_witness :
    grid_wf sample_state.env ∧
      in_bounds sample_state.env (blist_get sample_state.heads 0).point ∧
      count_paths sample_state.env (blist_get sample_state.heads 0).point ≠ 0 ∧
      (update_move sample_rnd sample_state.env (blist_get sample_state.heads 0)).2.point =
        displaced (blist_get sample_state.heads 0).point
          (chosen_direction sample_rnd sample_state.env (blist_get sample_state.heads 0).point)
          sample_state.env.step :=
  ⟨by decide, by decide, by decide,
    (update_move_carves_corridor sample_rnd sample_state.env (blist_get sample_state.heads 0)
      (by decide) (by decide) (by decide)).2.2.2.1⟩

/-! ## Policies -/

theorem head_push_branch_spec (h : head_t) (p : point_t) (hwf : h.branches.wf) :
    (head_push_branch h p).branches.wf ∧
      (head_push_branch h p).branches.elems = h.branches.elems ++ [p] ∧
      (head_push_branch h p).branches.length = h.branches.length + 1 ∧
      (head_push_branch h p).point = h.point ∧
      (head_push_branch h p).direction = h.direction := by
  obtain ⟨p1, p2, p3⟩ := blist_push_spec h.branches { x := p.x, y := p.y } hwf
  exact ⟨p1, p2, p3, rfl, rfl⟩

theorem dfs_switch (rnd : Nat → Nat) (e : Env) (h : head_t)
    (hm : e.mode = Mode.MODE_DEPTH_FIRST) (hwf : h.branches.wf)
    (hlen : 0 < h.branches.length) :
    h.branches.elems.getLast? = some (head_switch_branch rnd e h).2.point ∧
      (head_switch_branch rnd e h).2.branches.elems =
        h.branches.elems.dropLast ++ (if count_paths e h.point ≠ 0 then [h.point] else []) ∧
      (head_switch_branch rnd e h).2.branches.wf ∧
      (head_switch_branch rnd e h).1 = e := by
  obtain ⟨c1, c2, c3, _⟩ := head_switch_branch_spec rnd e h hwf hlen
  obtain ⟨_, _, b3⟩ := head_switch_branch_env rnd e h
  have hal : h.branches.length ≤ h.branches.array.length := by rw [hwf.2]; exact hwf.1
  have hel := blist_elems_length h.branches hal
  have hidx : switch_index rnd e h = h.branches.elems.length - 1 := by
    unfold switch_index; rw [hm, hel]
  rw [hidx] at c1 c2
  refine ⟨?_, ?_, c3, ?_⟩
  · rw [List.getLast?_eq_getElem?]; exact c1
  · rw [c2, ← List.dropLast_eq_eraseIdx (by omega)]
  · rw [b3, hm]; rfl

theorem bfs_switch (rnd : Nat → Nat) (e : Env) (h : head_t)
    (hm : e.mode = Mode.MODE_BREADTH_FIRST) (hwf : h.branches.wf)
    (hlen : 0 < h.branches.length) :
    h.branches.elems.head? = some (head_switch_branch rnd e h).2.point ∧
      (head_switch_branch rnd e h).2.branches.elems =
        h.branches.elems.tail ++ (if count_paths e h.point ≠ 0 then [h.point] else []) ∧
      (head_switch_branch rnd e h).2.branches.wf ∧
      (head_switch_branch rnd e h).1 = e := by
  obtain ⟨c1, c2, c3, _⟩ := head_switch_branch_spec rnd e h hwf hlen
  obtain ⟨_, _, b3⟩ := head_switch_branch_env rnd e h
  have hidx : switch_index rnd e h = 0 := by
    unfold switch_index; rw [hm]
  rw [hidx] at c1 c2
  refine ⟨?_, ?_, c3, ?_⟩
  · rw [List.head?_eq_getElem?]; exact c1
  · rw [c2, List.eraseIdx_zero]
  · rw [b3, hm]; rfl

/-- C6: in depth-first mode, for every head with a well-formed non-empty Branch
Store, `head_switch_branch` sets the position to the most recently pushed point
and removes exactly that point (the current position is appended after it when
it still has a path).  In particular a stuck head that pushed `B1` then `B2`
resumes at `B2`, with `B1` last in the store, and when `B2` has no path the next
switch resumes at `B1` and leaves the store as it was before the two pushes. -/
theorem depth_first_switch_is_lifo (rnd : Nat → Nat) (e : Env) (h : head_t)
    (hm : e.mode = Mode.MODE_DEPTH_FIRST) (hwf : h.branches.wf) :
    (0 < h.branches.length →
      h.branches.elems.getLast? = some (head_switch_branch rnd e h).2.point ∧
      (head_switch_branch rnd e h).2.branches.elems =
        h.branches.elems.dropLast ++ (if count_paths e h.point ≠ 0 then [h.point] else [])) ∧
      ∀ B1 B2 : point_t, count_paths e h.point = 0 →
        (head_switch_branch rnd e (head_push_branch (head_push_branch h B1) B2)).2.point = B2 ∧
        (head_switch_branch rnd e (head_push_branch (head_push_branch h B1) B2)).2.branches.elems
          = h.branches.elems ++ [B1] ∧
        (count_paths e B2 = 0 →
          (head_switch_branch rnd
            (head_switch_branch rnd e (head_push_branch (head_push_branch h B1) B2)).1
            (head_switch_branch rnd e (head_push_branch (head_push_branch h B1) B2)).2).2.point
            = B1 ∧
          (head_switch_branch rnd
            (head_switch_branch rnd e (head_push_branch (head_push_branch h B1) B2)).1
            (head_switch_branch rnd e
              (head_push_branch (head_push_branch h B1) B2)).2).2.branches.elems
            = h.branches.elems) := by
  refine ⟨fun hlen => ?_, fun B1 B2 hc => ?_⟩
  · obtain ⟨a1, a2, _, _⟩ := dfs_switch rnd e h hm hwf hlen
    exact ⟨a1, a2⟩
  · obtain ⟨p1, p2, p3, p4, _⟩ := head_push_branch_spec h B1 hwf
    obtain ⟨q1, q2, q3, q4, _⟩ := head_push_branch_spec (head_push_branch h B1) B2 p1
    obtain ⟨a1, a2, a3, a4⟩ := dfs_switch rnd e (head_push_branch (head_push_branch h B1) B2) hm
      q1 (by omega)
    rw [q4, p4, if_neg (not_not.mpr hc), q2, List.dropLast_concat, List.append_nil, p2] at a2
    rw [q2, List.getLast?_concat] at a1
    have hpt := (Option.some.inj a1).symm
    refine ⟨hpt, a2, fun hc2 => ?_⟩
    have hlen2 : 0 < (head_switch_branch rnd e
        (head_push_branch (head_push_branch h B1) B2)).2.branches.length := by
      have := blist_elems_length _ (show _ ≤ _ by rw [a3.2]; exact a3.1)
      rw [a2] at this
      simp at this
      omega
    rw [a4]
    obtain ⟨b1, b2, _, _⟩ := dfs_switch rnd e
      (head_switch_branch rnd e (head_push_branch (head_push_branch h B1) B2)).2 hm a3 hlen2
    rw [hpt, if_neg (not_not.mpr hc2), a2, List.dropLast_concat, List.append_nil] at b2
    rw [a2, List.getLast?_concat] at b1
    exact ⟨(Option.some.inj b1).symm, b2⟩

theorem depth_first_switch_is_lifo_witness :
    (sample_full_env Mode.MODE_DEPTH_FIRST 10).mode = Mode.MODE_DEPTH_FIRST ∧
      sample_head.branches.wf ∧ 0 < sample_head.branches.length ∧
      sample_head.branches.elems.getLast? =
        some (head_switch_branch sample_rnd (sample_full_env Mode.MODE_DEPTH_FIRST 10)
          sample_head).2.point :=
  ⟨rfl, by decide, by decide,
    ((depth_first_switch_is_lifo sample_rnd (sample_full_env Mode.MODE_DEPTH_FIRST 10)
      sample_head rfl (by decide)).1 (by decide)).1⟩

/-- C7: in breadth-first mode, for every head with a well-formed non-empty
Branch Store, `head_switch_branch` sets the position to the earliest pushed
point still stored and removes exactly that point, the remaining points keeping
their push order (the current position is appended after them when it still has
a path).  In particular a stuck head whose store held nothing before it pushed
`B1` then `B2` resumes at `B1`, and when `B1` has no path the next switch resumes
at `B2` and leaves the store empty. -/
theorem breadth_first_switch_is_fifo (rnd : Nat → Nat) (e : Env) (h : head_t)
    (hm : e.mode = Mode.MODE_BREADTH_FIRST) (hwf : h.branches.wf) :
    (0 < h.branches.length →
      h.branches.elems.head? = some (head_switch_branch rnd e h).2.point ∧
      (head_switch_branch rnd e h).2.branches.elems =
        h.branches.elems.tail ++ (if count_paths e h.point ≠ 0 then [h.point] else [])) ∧
      ∀ B1 B2 : point_t, h.branches.elems = [] → count_paths e h.point = 0 →
        (head_switch_branch rnd e (head_push_branch (head_push_branch h B1) B2)).2.point = B1 ∧
        (head_switch_branch rnd e (head_push_branch (head_push_branch h B1) B2)).2.branches.elems
          = [B2] ∧
        (count_paths e B1 = 0 →
          (head_switch_branch rnd
            (head_switch_branch rnd e (head_push_branch (head_push_branch h B1) B2)).1
            (head_switch_branch rnd e (head_push_branch (head_push_branch h B1) B2)).2).2.point
            = B2 ∧
          (head_switch_branch rnd
            (head_switch_branch rnd e (head_push_branch (head_push_branch h B1) B2)).1
            (head_switch_branch rnd e
              (head_push_branch (head_push_branch h B1) B2)).2).2.branches.elems
            = []) := by
  refine ⟨fun hlen => ?_, fun B1 B2 hnil hc => ?_⟩
  · obtain ⟨a1, a2, _, _⟩ := bfs_switch rnd e h hm hwf hlen
    exact ⟨a1, a2⟩
  · obtain ⟨p1, p2, p3, p4, _⟩ := head_push_branch_spec h B1 hwf
    obtain ⟨q1, q2, q3, q4, _⟩ := head_push_branch_spec (head_push_branch h B1) B2 p1
    obtain ⟨a1, a2, a3, a4⟩ := bfs_switch rnd e (head_push_branch (head_push_branch h B1) B2) hm
      q1 (by omega)
    rw [q4, p4, if_neg (not_not.mpr hc), q2, p2, hnil] at a2
    rw [q2, p2, hnil] at a1
    have hpt : (head_switch_branch rnd e
        (head_push_branch (head_push_branch h B1) B2)).2.point = B1 :=
      (Option.some.inj a1).symm
    have hel : (head_switch_branch rnd e
        (head_push_branch (head_push_branch h B1) B2)).2.branches.elems = [B2] := a2
    refine ⟨hpt, hel, fun hc2 => ?_⟩
    have hlen2 : 0 < (head_switch_branch rnd e
        (head_push_branch (head_push_branch h B1) B2)).2.branches.length := by
      have := blist_elems_length _ (show _ ≤ _ by rw [a3.2]; exact a3.1)
      rw [hel] at this
      simp at this
      omega
    rw [a4]
    obtain ⟨b1, b2, _, _⟩ := bfs_switch rnd e
      (head_switch_branch rnd e (head_push_branch (head_push_branch h B1) B2)).2 hm a3 hlen2
    rw [hpt, if_neg (not_not.mpr hc2), hel] at b2
    rw [hel] at b1
    exact ⟨(Option.some.inj b1).symm, b2⟩

theorem breadth_first_switch_is_fifo_witness :
    (sample_full_env Mode.MODE_BREADTH_FIRST 10).mode = Mode.MODE_BREADTH_FIRST ∧
      sample_head.branches.wf ∧ 0 < sample_head.branches.length ∧
      sample_head.branches.elems.head? =
        some (head_switch_branch sample_rnd (sample_full_env Mode.MODE_BREADTH_FIRST 10)
          sample_head).2.point :=
  ⟨rfl, by decide, by decide,
    ((breadth_first_switch_is_fifo sample_rnd (sample_full_env Mode.MODE_BREADTH_FIRST 10)
      sample_head rfl (by decide)).1 (by decide)).1⟩

/-- C8: in random-switching mode, for a head with a non-empty Branch Store and
every random value drawn, the roll `rand() % 100 + 1` lies in `[1, 100]` and the
switch is made exactly when the roll is `<= switch_chance`; so with
`switch_chance = 0` the head is left as it is (only the roll is consumed), and
with `switch_chance = 100` the switch is made. -/
theorem switch_chance_boundaries (rnd : Nat → Nat) (e : Env) (h : head_t)
    (hm : e.mode = Mode.MODE_RANDOM_SWITCHING) (hlen : 0 < h.branches.length) :
    (1 ≤ rnd e.rand_calls % 100 + 1 ∧ rnd e.rand_calls % 100 + 1 ≤ 100) ∧
      update_random_switch rnd e h =
        (if ((rnd e.rand_calls % 100 + 1 : Nat) : Int) ≤ e.switch_chance then
          head_switch_branch rnd (rand rnd e).2 h
        else ((rand rnd e).2, h)) ∧
      (e.switch_chance = 0 → update_random_switch rnd e h = ((rand rnd e).2, h)) ∧
      (e.switch_chance = 100 →
        update_random_switch rnd e h = head_switch_branch rnd (rand rnd e).2 h) := by
  have hroll : 1 ≤ rnd e.rand_calls % 100 + 1 ∧ rnd e.rand_calls % 100 + 1 ≤ 100 := by
    have := Nat.mod_lt (rnd e.rand_calls) (show 0 < 100 by decide)
    omega
  have hgen : update_random_switch rnd e h =
      (if ((rnd e.rand_calls % 100 + 1 : Nat) : Int) ≤ e.switch_chance then
        head_switch_branch rnd (rand rnd e).2 h
      else ((rand rnd e).2, h)) := by
    unfold update_random_switch
    rw [if_pos ⟨hm, hlen⟩]
    rfl
  refine ⟨hroll, hgen, fun h0 => ?_, fun h100 => ?_⟩
  · rw [hgen, if_neg]
    rw [h0]; omega
  · rw [hgen, if_pos]
    rw [h100]; omega

theorem switch_chance_boundaries_witness :
    (sample_full_env Mode.MODE_RANDOM_SWITCHING 0).mode = Mode.MODE_RANDOM_SWITCHING ∧
      0 < sample_head.branches.length ∧
      (sample_full_env Mode.MODE_RANDOM_SWITCHING 0).switch_chance = 0 ∧
      update_random_switch sample_rnd (sample_full_env Mode.MODE_RANDOM_SWITCHING 0) sample_head =
        ((rand sample_rnd (sample_full_env Mode.MODE_RANDOM_SWITCHING 0)).2, sample_head) :=
  ⟨rfl, by decide, rfl,
    (switch_chance_boundaries sample_rnd (sample_full_env Mode.MODE_RANDOM_SWITCHING 0)
      sample_head rfl (by decide)).2.2.1 rfl⟩

/-! ## Completion -/

theorem empty_pool_closed (s : State) (hi : state_inv s) (h0 : s.heads.length = 0) (z : point_t)
    (hz : good_point s.env z) : count_paths s.env z = 0 := by
  by_contra hne
  obtain ⟨h, hh, _⟩ := hi.2.2.2 z hz hne
  have : s.heads.elems = [] := by
    simp [blist_t.elems, h0]
  rw [this] at hh
  simp at hh

/-- Every run from a valid configuration within the `int` range: the invariant
holds at every tick, the
map stays binary, and once the pool is empty every in-bounds lattice point is
visited and none has a path left. -/
theorem run_complete (rnd : Nat → Nat) (c : Config) (hv : valid_config c)
    (hf : int_config c) :
    ∃ s0, main_setup rnd c = main_result.started s0 ∧ setup_inv s0 ∧ state_inv s0 ∧
      s0.env.step = c.step ∧ s0.env.maze_width = c.maze_width * c.step - 1 ∧
      s0.env.maze_height = c.maze_height * c.step - 1 ∧
      s0.heads.length = c.numHeads.toNat ∧
      ∀ n, state_inv ((update rnd)^[n] s0) ∧ same_cfg s0.env ((update rnd)^[n] s0).env ∧
        (((update rnd)^[n] s0).heads.length = 0 →
          (∀ z, good_point ((update rnd)^[n] s0).env z →
            count_paths ((update rnd)^[n] s0).env z = 0) ∧
          ∀ z, on_lattice ((update rnd)^[n] s0).env z → in_bounds ((update rnd)^[n] s0).env z →
            visited ((update rnd)^[n] s0).env z) := by
  obtain ⟨s0, h0, hsetup, hinv, hs, hw, hh, _, _, hlen⟩ := main_setup_spec rnd c hv hf
  have hheads : 0 < s0.heads.length := by
    rw [hlen]; have := hv.2.2.2; omega
  obtain ⟨h, _, hgood⟩ := setup_inv_good s0 hsetup hheads
  have hbin := main_setup_binary rnd c s0 h0
  refine ⟨s0, h0, hsetup, hinv, hs, hw, hh, hlen, fun n => ?_⟩
  have hin := iterate_inv rnd s0 hinv n
  obtain ⟨m1, m2⟩ := iterate_mono rnd s0 0 n (Nat.zero_le _)
  simp only [Function.iterate_zero, id_eq] at m1 m2
  refine ⟨hin, m1, fun hempty => ?_⟩
  have hclosed := empty_pool_closed _ hin hempty
  refine ⟨hclosed, fun z hl hz => ?_⟩
  exact (closed_all _ hin.2.1 (binary_map_mono m2 hbin) hclosed h.point
    (good_point_mono m1 m2 _ hgood) z hl hz).2.2

/-- C9: for every run from a valid initial state with at least one head (any
policy, any random inputs), whenever the head pool is empty no visited in-bounds
lattice point has a legal move left, and every lattice point of the grid
(in-bounds cell whose `x` and `y` are multiples of `step`) is visited.  The
initial state is the one `main` builds from a valid configuration whose sizes
keep its `int` arithmetic in range (`int_config`). -/
theorem empty_pool_means_lattice_visited (rnd : Nat → Nat) (c : Config)
    (hv : valid_config c) (hf : int_config c) :
    ∃ s0, main_setup rnd c = main_result.started s0 ∧
      ∀ n, ((update rnd)^[n] s0).heads.length = 0 →
      (∀ z, on_lattice ((update rnd)^[n] s0).env z → in_bounds ((update rnd)^[n] s0).env z →
        visited ((update rnd)^[n] s0).env z →
        count_paths ((update rnd)^[n] s0).env z = 0 ∧
          legal_moves ((update rnd)^[n] s0).env z = []) ∧
      ∀ z, ((update rnd)^[n] s0).env.step ∣ z.x → ((update rnd)^[n] s0).env.step ∣ z.y →
        in_bounds ((update rnd)^[n] s0).env z → visited ((update rnd)^[n] s0).env z := by
  obtain ⟨s0, h0, _, _, _, _, _, _, hall⟩ := run_complete rnd c hv hf
  refine ⟨s0, h0, fun n hempty => ?_⟩
  obtain ⟨_, _, hfin⟩ := hall n
  obtain ⟨hclosed, hvis⟩ := hfin hempty
  refine ⟨fun z hl hz hvz => ?_, fun z hx hy hz => hvis z ⟨hx, hy⟩ hz⟩
  have hc := hclosed z ⟨hl, hz, hvz⟩
  refine ⟨hc, ?_⟩
  rw [count_paths_eq] at hc
  exact List.length_eq_zero.mp (by exact_mod_cast hc)

theorem empty_pool_means_lattice_visited_witness :
    valid_config sample_config ∧ int_config sample_config ∧
      ∃ s0, main_setup sample_rnd sample_config = main_result.started s0 ∧
        ∀ n, ((update sample_rnd)^[n] s0).heads.length = 0 →
        (∀ z, on_lattice ((update sample_rnd)^[n] s0).env z →
          in_bounds ((update sample_rnd)^[n] s0).env z →
          visited ((update sample_rnd)^[n] s0).env z →
          count_paths ((update sample_rnd)^[n] s0).env z = 0 ∧
            legal_moves ((update sample_rnd)^[n] s0).env z = []) ∧
        ∀ z, ((update sample_rnd)^[n] s0).env.step ∣ z.x →
          ((update sample_rnd)^[n] s0).env.step ∣ z.y →
          in_bounds ((update sample_rnd)^[n] s0).env z →
          visited ((update sample_rnd)^[n] s0).env z :=
  ⟨by decide, by decide,
    empty_pool_means_lattice_visited sample_rnd sample_config (by decide) (by decide)⟩

theorem iterate_region (rnd : Nat → Nat) (s : State) (hi : state_inv s)
    (hr : one_region s.env) (n : Nat) : one_region ((update rnd)^[n] s).env := by
  induction n with
  | zero => exact hr
  | succ n ih =>
    rw [Function.iterate_succ_apply']
    exact update_region rnd _ (iterate_inv rnd s hi n) ih

/-- With a single head, the state `main` builds has exactly one visited cell. -/
theorem setup_single_region (s : State) (hi : setup_inv s) (hl : s.heads.length = 1) :
    one_region s.env := by
  obtain ⟨h, hel, hgood⟩ := setup_inv_good s hi (by omega)
  have hlen : s.heads.elems.length = 1 := by
    rw [blist_elems_length _ (by rw [hi.1.2]; exact hi.1.1), hl]
  have hone : s.heads.elems = [h] := by
    rw [hel] at hlen ⊢
    simp only [List.length_cons, add_left_eq_self, List.length_eq_zero] at hlen
    rw [hlen]
  have hall : ∀ z, in_bounds s.env z → visited s.env z → z = h.point := by
    intro z hz hv
    obtain ⟨x, hx, hp⟩ := hi.2.2.2.2.2 z hz hv
    rw [hone, List.mem_singleton] at hx
    rw [← hp, hx]
  refine ⟨⟨h.point, hgood.2.1, hgood.2.2⟩, fun a b ha hva hb hvb => ?_⟩
  rw [hall a ha hva, hall b hb hvb]
  exact Relation.ReflTransGen.refl

/-- C10: for every single-head run with `step = 2` from a valid configuration
(3 x 3 units give a 5 x 5 grid) and every random input, when the head pool is
empty the visited cells form exactly one 4-connected region, and that region has
a cell in row 0, in row `H - 1`, in column 0 and in column `W - 1`.  The
configuration keeps the `int` arithmetic of `main` in range (`int_config`), so
that `main` builds the `2 * units - 1` grid. -/
theorem single_head_region_spans_grid (rnd : Nat → Nat) (c : Config) (hv : valid_config c)
    (hf : int_config c) (hstep : c.step = 2) (hone : c.numHeads = 1) :
    ∃ s0, main_setup rnd c = main_result.started s0 ∧
      s0.env.maze_width = c.maze_width * 2 - 1 ∧ s0.env.maze_height = c.maze_height * 2 - 1 ∧
      ∀ n, ((update rnd)^[n] s0).heads.length = 0 →
        one_region ((update rnd)^[n] s0).env ∧
        (∃ z, in_bounds ((update rnd)^[n] s0).env z ∧ visited ((update rnd)^[n] s0).env z ∧
          z.y = 0) ∧
        (∃ z, in_bounds ((update rnd)^[n] s0).env z ∧ visited ((update rnd)^[n] s0).env z ∧
          z.y = ((update rnd)^[n] s0).env.maze_height - 1) ∧
        (∃ z, in_bounds ((update rnd)^[n] s0).env z ∧ visited ((update rnd)^[n] s0).env z ∧
          z.x = 0) ∧
        (∃ z, in_bounds ((update rnd)^[n] s0).env z ∧ visited ((update rnd)^[n] s0).env z ∧
          z.x = ((update rnd)^[n] s0).env.maze_width - 1) := by
  obtain ⟨s0, h0, hsetup, hinv, hs, hw, hh, hlen, hall⟩ := run_complete rnd c hv hf
  rw [hstep] at hs hw hh
  rw [hone] at hlen
  refine ⟨s0, h0, hw, hh, fun n hempty => ?_⟩
  obtain ⟨_, hcfg, hfin⟩ := hall n
  obtain ⟨_, hvis⟩ := hfin hempty
  have hreg := iterate_region rnd s0 hinv (setup_single_region s0 hsetup hlen) n
  obtain ⟨k1, k2, k3, _, _⟩ := hcfg
  rw [hs] at k1
  rw [hw] at k2
  rw [hh] at k3
  obtain ⟨v1, v2, _, _⟩ := hv
  have horigin : in_bounds ((update rnd)^[n] s0).env { x := 0, y := 0 } := by
    unfold in_bounds; rw [k2, k3]; simp only; omega
  have hcorner : in_bounds ((update rnd)^[n] s0).env
      { x := c.maze_width * 2 - 2, y := c.maze_height * 2 - 2 } := by
    unfold in_bounds; rw [k2, k3]; simp only; omega
  have hv0 := hvis { x := 0, y := 0 } ⟨by simp, by simp⟩ horigin
  have hv1 := hvis { x := c.maze_width * 2 - 2, y := c.maze_height * 2 - 2 }
    ⟨by rw [k1]; exact ⟨c.maze_width - 1, by simp only; ring⟩,
      by rw [k1]; exact ⟨c.maze_height - 1, by simp only; ring⟩⟩ hcorner
  refine ⟨hreg, ⟨_, horigin, hv0, rfl⟩, ⟨_, hcorner, hv1, ?_⟩, ⟨_, horigin, hv0, rfl⟩,
    ⟨_, hcorner, hv1, ?_⟩⟩
  · rw [k3]; simp only; ring
  · rw [k2]; simp only; ring

theorem single_head_region_spans_grid_witness :
    valid_config sample_config ∧ int_config sample_config ∧ sample_config.step = 2 ∧
      sample_config.numHeads = 1 ∧
      ∃ s0, main_setup sample_rnd sample_config = main_result.started s0 ∧
        s0.env.maze_width = sample_config.maze_width * 2 - 1 ∧
        s0.env.maze_height = sample_config.maze_height * 2 - 1 ∧
        ∀ n, ((update sample_rnd)^[n] s0).heads.length = 0 →
          one_region ((update sample_rnd)^[n] s0).env ∧
          (∃ z, in_bounds ((update sample_rnd)^[n] s0).env z ∧
            visited ((update sample_rnd)^[n] s0).env z ∧ z.y = 0) ∧
          (∃ z, in_bounds ((update sample_rnd)^[n] s0).env z ∧
            visited ((update sample_rnd)^[n] s0).env z ∧
            z.y = ((update sample_rnd)^[n] s0).env.maze_height - 1) ∧
          (∃ z, in_bounds ((update sample_rnd)^[n] s0).env z ∧
            visited ((update sample_rnd)^[n] s0).env z ∧ z.x = 0) ∧
          (∃ z, in_bounds ((update sample_rnd)^[n] s0).env z ∧
            visited ((update sample_rnd)^[n] s0).env z ∧
            z.x = ((update sample_rnd)^[n] s0).env.maze_width - 1) :=
  ⟨by decide, by decide, rfl, rfl,
    single_head_region_spans_grid sample_rnd sample_config (by decide) (by decide) rfl rfl⟩

/-! ## Configuration checks of main -/

/-- Every state `main` builds has the size `units * step - 1` in both directions,
computed without overflow, and the configured `step`. -/
theorem main_setup_size (rnd : Nat → Nat) (c : Config) (s : State)
    (h : main_setup rnd c = main_result.started s) :
    s.env.maze_width = c.maze_width * c.step - 1 ∧
      s.env.maze_height = c.maze_height * c.step - 1 ∧ s.env.step = c.step ∧
      ¬ (c.maze_width = 1 ∨ c.maze_height = 1) ∧
      int_ok (c.maze_width * c.step - 1) ∧ int_ok (c.maze_height * c.step - 1) := by
  obtain ⟨h1, _, _, h2, h3, _, _, _, _, _, hm⟩ := main_setup_started rnd c s h
  obtain ⟨⟨k1, k2, k3, _, _⟩, _⟩ := main_heads_some rnd _ _ _ hm
  exact ⟨k2, k3, k1, h1, h2, h3⟩

theorem main_setup_error_iff (rnd : Nat → Nat) (c : Config) :
    main_setup rnd c = main_result.config_error ↔ (c.maze_width = 1 ∨ c.maze_height = 1) := by
  constructor
  · intro h
    by_contra h1
    unfold main_setup at h
    rw [if_neg h1] at h
    by_cases h2 : ¬ (int_ok (c.maze_width * c.step) ∧ int_ok (c.maze_width * c.step - 1) ∧
        int_ok (c.maze_height * c.step) ∧ int_ok (c.maze_height * c.step - 1))
    · rw [if_pos h2] at h
      exact absurd h (by simp)
    rw [if_neg h2] at h
    simp only at h
    split_ifs at h
    split at h <;> exact absurd h (by simp)
  · intro h
    unfold main_setup
    rw [if_pos h]

/-- With step 0 the quotient `maze_width / step` of line 271 is a division by
zero: `main` passes the dimension check and builds no state. -/
theorem zero_step_is_undefined :
    main_setup zero_rnd zero_step_config = main_result.undefined := by
  decide

/-- With the head count `-1` the pool cannot be allocated: `main` passes the
dimension check and returns `EXIT_FAILURE` at line 266. -/
theorem negative_heads_fail_allocation :
    main_setup zero_rnd negative_heads_config = main_result.alloc_failure := by
  decide

/-- Valid configurations outside the `int` range: the product of line 218, or
the map size of line 252, overflows, and `main` builds no state. -/
theorem overflow_is_undefined :
    valid_config wide_config ∧ ¬ int_config wide_config ∧
      main_setup zero_rnd wide_config = main_result.undefined ∧
      valid_config large_map_config ∧ ¬ int_config large_map_config ∧
      main_setup zero_rnd large_map_config = main_result.undefined := by
  decide

/-- For a valid configuration with a window of non-negative `int` size, `main`
builds a state exactly when the configuration keeps its `int` arithmetic in
range. -/
theorem main_setup_started_iff (rnd : Nat → Nat) (c : Config) (hv : valid_config c)
    (hn : c.numHeads ≤ INT_MAX) (a1 : 0 ≤ c.window_width) (a2 : c.window_width ≤ INT_MAX)
    (a3 : 0 ≤ c.window_height) (a4 : c.window_height ≤ INT_MAX) :
    (∃ s, main_setup rnd c = main_result.started s) ↔ int_config c := by
  constructor
  · rintro ⟨s, hs⟩
    obtain ⟨_, h2, h3, _, _, _, _, h6, _⟩ := main_setup_started rnd c s hs
    exact ⟨hn, a1, a2, a3, a4, h2.2, h3.2, h6.2⟩
  · intro hf
    obtain ⟨s, hs, _⟩ := main_setup_spec rnd c hv hf
    exact ⟨s, hs⟩

/-- C11 (as stated, refuted): `negative_step_config` has `step <= 0`, yet `main`
reports no configuration error: it creates a map of 16 cells (`W = H = -4`) and a
pool with one head (with `rand()` returning 0 the head starts at `(0, 0)`, slot 0
of the map). -/
theorem nonpositive_step_is_accepted :
    negative_step_config.step ≤ 0 ∧
      ∃ s, main_setup zero_rnd negative_step_config = main_result.started s ∧
        s.env.map.length = 16 ∧ s.heads.length = 1 ∧ s.env.step = -1 := by
  refine ⟨by decide, _, rfl, ?_, ?_, ?_⟩ <;> decide

/-- C11 (amended): for every configuration in which a maze dimension equals 1,
`main` reports the configuration error and returns before the map or the head
pool is created, so no simulation state exists.  The step is not validated: a
configuration whose two dimensions exceed 1 never gets the configuration error,
whatever its step. -/
theorem dimension_one_is_rejected (rnd : Nat → Nat) (c : Config) :
    ((c.maze_width = 1 ∨ c.maze_height = 1) →
        main_setup rnd c = main_result.config_error ∧
          ∀ s, main_setup rnd c ≠ main_result.started s) ∧
      (1 < c.maze_width → 1 < c.maze_height →
        main_setup rnd c ≠ main_result.config_error) := by
  refine ⟨fun h => ?_, fun hw hh => ?_⟩
  · have he := (main_setup_error_iff rnd c).mpr h
    refine ⟨he, fun s hs => ?_⟩
    rw [he] at hs
    exact absurd hs (by simp)
  · rw [Ne, main_setup_error_iff]
    omega

theorem dimension_one_is_rejected_witness :
    (width_one_config.maze_width = 1 ∨ width_one_config.maze_height = 1) ∧
      (main_setup sample_rnd width_one_config = main_result.config_error ∧
        ∀ s, main_setup sample_rnd width_one_config ≠ main_result.started s) ∧
      1 < negative_step_config.maze_width ∧ 1 < negative_step_config.maze_height ∧
      main_setup zero_rnd negative_step_config ≠ main_result.config_error :=
  ⟨by decide, (dimension_one_is_rejected sample_rnd width_one_config).1 (by decide),
    by decide, by decide,
    (dimension_one_is_rejected zero_rnd negative_step_config).2 (by decide) (by decide)⟩

/-- C12 (as stated, refuted): `main` accepts `smallest_config`, whose step is 1,
and builds a grid of width 1 and height 1, which are not greater than 1. -/
theorem smallest_grid_is_one_by_one :
    1 ≤ smallest_config.step ∧
      ∃ s, main_setup sample_rnd smallest_config = main_result.started s ∧
        s.env.maze_width = 1 ∧ s.env.maze_height = 1 ∧
        ¬ (1 < s.env.maze_width ∧ 1 < s.env.maze_height) := by
  refine ⟨by decide, _, rfl, ?_, ?_, ?_⟩ <;> decide

/-- C12 (amended): for every configuration from which `main` builds its grid and
pool, which requires `units_w * step - 1` and `units_h * step - 1` to fit an
`int`, the cell grid has width `W = units_w * step - 1` and height
`H = units_h * step - 1`, both within the `int` range; when a dimension exceeds 1
and `step >= 1` the corresponding size is at least 1, and it is greater than 1
unless `step = 1` and that dimension is 2. -/
theorem grid_size_from_units (rnd : Nat → Nat) (c : Config) (s : State)
    (h : main_setup rnd c = main_result.started s) :
    s.env.maze_width = c.maze_width * c.step - 1 ∧
      s.env.maze_height = c.maze_height * c.step - 1 ∧
      int_ok s.env.maze_width ∧ int_ok s.env.maze_height ∧
      (1 < c.maze_width → 1 ≤ c.step →
        1 ≤ s.env.maze_width ∧ (1 < s.env.maze_width ↔ ¬ (c.step = 1 ∧ c.maze_width = 2))) ∧
      (1 < c.maze_height → 1 ≤ c.step →
        1 ≤ s.env.maze_height ∧
          (1 < s.env.maze_height ↔ ¬ (c.step = 1 ∧ c.maze_height = 2))) := by
  obtain ⟨hw, hh, _, _, iw, ih⟩ := main_setup_size rnd c s h
  have key : ∀ u st : Int, 1 < u → 1 ≤ st →
      1 ≤ u * st - 1 ∧ (1 < u * st - 1 ↔ ¬ (st = 1 ∧ u = 2)) := by
    intro u st hu hst
    have h2 : 2 * st ≤ u * st := mul_le_mul_of_nonneg_right (by omega) (by omega)
    refine ⟨by omega, ?_⟩
    constructor
    · rintro h3 ⟨h4, h5⟩
      subst h4 h5
      omega
    · intro h3
      by_cases h4 : st = 1
      · subst h4
        have : u ≠ 2 := fun h5 => h3 ⟨rfl, h5⟩
        omega
      · have h5 : 2 * 2 ≤ 2 * st := by omega
        omega
  rw [hw, hh]
  exact ⟨rfl, rfl, iw, ih, key _ _, key _ _⟩

theorem grid_size_from_units_witness :
    main_setup sample_rnd sample_config = main_result.started sample_state ∧
      sample_state.env.maze_width = sample_config.maze_width * sample_config.step - 1 ∧
      sample_state.env.maze_height = sample_config.maze_height * sample_config.step - 1 ∧
      int_ok sample_state.env.maze_width ∧ int_ok sample_state.env.maze_height :=
  ⟨by rfl,
    (grid_size_from_units sample_rnd sample_config sample_state (by rfl)).1,
    (grid_size_from_units sample_rnd sample_config sample_state (by rfl)).2.1,
    (grid_size_from_units sample_rnd sample_config sample_state (by rfl)).2.2.1,
    (grid_size_from_units sample_rnd sample_config sample_state (by rfl)).2.2.2.1⟩

/-! ## The container contract -/

/-- C14: for every list whose elements lie inside its buffer and every
`index < length`, `blist_remove(list, index)` yields the original sequence with
the element at `index` deleted: the elements before `index` are unchanged, each
element after `index` moves one place toward the front in the same order, and
the length decreases by exactly one. -/
theorem blist_remove_deletes_index {α : Type} [Inhabited α] (self : blist_t α) (index : Nat)
    (hl : self.length ≤ self.array.length) (hi : index < self.length) :
    (blist_remove self index).elems = self.elems.eraseIdx index ∧
      (blist_remove self index).length + 1 = self.length ∧
      (blist_remove self index).elems.length + 1 = self.elems.length ∧
      (∀ j, j < index → (blist_remove self index).elems[j]? = self.elems[j]?) ∧
      (∀ j, index ≤ j → (blist_remove self index).elems[j]? = self.elems[j + 1]?) ∧
      (blist_remove self index).capacity = self.capacity := by
  have hel := blist_remove_elems self index hl hi
  have hlen := blist_elems_length self hl
  refine ⟨hel, ?_, ?_, ?_, ?_, rfl⟩
  · rw [blist_remove_length]; omega
  · rw [hel, List.length_eraseIdx, hlen]
    simp only [hlen, hi, ↓reduceIte]
    omega
  · intro j hj
    rw [hel, List.getElem?_eraseIdx, if_pos hj]
  · intro j hj
    rw [hel, List.getElem?_eraseIdx, if_neg (by omega)]

theorem blist_remove_deletes_index_witness :
    sample_head.branches.length ≤ sample_head.branches.array.length ∧
      0 < sample_head.branches.length ∧
      (blist_remove sample_head.branches 0).elems = sample_head.branches.elems.eraseIdx 0 ∧
      (blist_remove sample_head.branches 0).elems = [{ x := 0, y := 2 }] :=
  ⟨by decide, by decide,
    (blist_remove_deletes_index sample_head.branches 0 (by decide) (by decide)).1, by decide⟩

theorem blist_push_capacity {α : Type} [Inhabited α] (self : blist_t α) (data : α)
    (h : self.wf) :
    (blist_push self data).capacity =
      if self.length = self.capacity then (if self.capacity ≠ 0 then self.capacity * 2 else 10)
      else self.capacity := by
  obtain ⟨hx1, hx2, hx3, _⟩ := blist_extend_wf self h
  by_cases hf : self.length = self.capacity
  · have hnot : ¬ ((blist_extend self).length ≥ (blist_extend self).capacity) := by omega
    rw [if_pos hf]
    unfold blist_push
    rw [if_pos hf]
    simp only [blist_set, if_neg hnot]
    rfl
  · have hnot : ¬ (self.length ≥ self.capacity) := by have := h.1; omega
    rw [if_neg hf]
    simp [blist_push, hf, blist_set, hnot]

/-- C15: for every list with `length <= capacity` whose buffer has `capacity`
slots (capacity 0 and the full case `length = capacity` included) and every
element `x`, `blist_push(list, x)` increases the length by exactly one, stores `x`
at the old length index, leaves all earlier elements unchanged and keeps
`length <= capacity`; the capacity doubles, or becomes 10 from 0, exactly when the
list was full. -/
theorem blist_push_appends {α : Type} [Inhabited α] (self : blist_t α) (x : α)
    (hwf : self.wf) :
    (blist_push self x).length = self.length + 1 ∧
      (blist_push self x).elems = self.elems ++ [x] ∧
      (blist_push self x).elems[self.length]? = some x ∧
      (∀ j, j < self.length → (blist_push self x).elems[j]? = self.elems[j]?) ∧
      (blist_push self x).length ≤ (blist_push self x).capacity ∧
      (blist_push self x).array.length = (blist_push self x).capacity ∧
      (blist_push self x).capacity =
        (if self.length = self.capacity then
          (if self.capacity ≠ 0 then self.capacity * 2 else 10)
        else self.capacity) := by
  obtain ⟨p1, p2, p3⟩ := blist_push_spec self x hwf
  have hlen := blist_elems_length self (by rw [hwf.2]; exact hwf.1)
  refine ⟨p3, p2, ?_, ?_, p1.1, p1.2, blist_push_capacity self x hwf⟩
  · rw [p2, ← hlen]
    simp
  · intro j hj
    rw [p2, List.getElem?_append_left (by omega)]

theorem blist_push_appends_witness :
    (blist_init 0 : blist_t Nat).wf ∧
      (blist_push (blist_init 0 : blist_t Nat) 7).length = (blist_init 0 : blist_t Nat).length + 1 ∧
      (blist_push (blist_init 0 : blist_t Nat) 7).elems = [7] ∧
      (blist_push (blist_init 0 : blist_t Nat) 7).capacity = 10 :=
  ⟨by decide, (blist_push_appends (blist_init 0 : blist_t Nat) 7 (by decide)).1, by decide,
    by decide⟩

/-! ## Switching and pushing -/

/-- C18: for every head with a well-formed non-empty Branch Store and every
policy, `head_switch_branch` removes exactly one point `b` from the store (the
one at `switch_index`), then appends the head's current position if and only if
that position has at least one legal move, then sets the head's position to
`b`; the map, the configuration and the head's last direction are unchanged. -/
theorem head_switch_branch_procedure (rnd : Nat → Nat) (e : Env) (h : head_t)
    (hwf : h.branches.wf) (hlen : 0 < h.branches.length) :
    switch_index rnd e h < h.branches.length ∧
      h.branches.elems[switch_index rnd e h]? = some (head_switch_branch rnd e h).2.point ∧
      (count_paths e h.point ≠ 0 →
        (head_switch_branch rnd e h).2.branches.elems =
          h.branches.elems.eraseIdx (switch_index rnd e h) ++ [h.point]) ∧
      (count_paths e h.point = 0 →
        (head_switch_branch rnd e h).2.branches.elems =
          h.branches.elems.eraseIdx (switch_index rnd e h)) ∧
      (head_switch_branch rnd e h).1.map = e.map ∧
      same_cfg e (head_switch_branch rnd e h).1 ∧
      (head_switch_branch rnd e h).2.direction = h.direction := by
  obtain ⟨c1, c2, _, c4⟩ := head_switch_branch_spec rnd e h hwf hlen
  obtain ⟨b1, b2, _⟩ := head_switch_branch_env rnd e h
  refine ⟨switch_index_lt rnd e h hlen, c1, fun hc => ?_, fun hc => ?_, b2, b1, c4⟩
  · rw [c2, if_pos hc]
  · rw [c2, if_neg (not_not.mpr hc), List.append_nil]

theorem head_switch_branch_procedure_witness :
    sample_head.branches.wf ∧ 0 < sample_head.branches.length ∧
      sample_head.branches.elems[
        switch_index sample_rnd (sample_full_env Mode.MODE_RANDOM_SWITCHING 10) sample_head]? =
        some (head_switch_branch sample_rnd (sample_full_env Mode.MODE_RANDOM_SWITCHING 10)
          sample_head).2.point ∧
      (head_switch_branch sample_rnd (sample_full_env Mode.MODE_RANDOM_SWITCHING 10)
        sample_head).2.point = { x := 0, y := 2 } :=
  ⟨by decide, by decide,
    (head_switch_branch_procedure sample_rnd (sample_full_env Mode.MODE_RANDOM_SWITCHING 10)
      sample_head (by decide) (by decide)).2.1, by decide⟩

/-- C19: for every head that moves during `update` (its store being well
formed), after the move the pre-move position is appended to the head's Branch
Store if and only if `get_paths` of the pre-move position, recomputed on the
grid as it is after the move, lists a direction; otherwise the store is left as
it was; and the head's last direction is the direction taken. -/
theorem update_move_pushes_old_position (rnd : Nat → Nat) (e : Env) (h : head_t)
    (hwf : h.branches.wf) :
    (listed_paths (get_paths (update_move rnd e h).1 h.point) ≠ [] ↔
        count_paths (update_move rnd e h).1 h.point ≠ 0) ∧
      (listed_paths (get_paths (update_move rnd e h).1 h.point) ≠ [] →
        (update_move rnd e h).2.branches.elems = h.branches.elems ++ [h.point]) ∧
      (listed_paths (get_paths (update_move rnd e h).1 h.point) = [] →
        (update_move rnd e h).2.branches = h.branches) ∧
      (update_move rnd e h).2.direction = chosen_direction rnd e h.point ∧
      (update_move rnd e h).2.point =
        displaced h.point (chosen_direction rnd e h.point) e.step.toNat := by
  have hh := update_move_head rnd e h
  have hiff : listed_paths (get_paths (update_move rnd e h).1 h.point) ≠ [] ↔
      count_paths (update_move rnd e h).1 h.point ≠ 0 := by
    rw [listed_paths_eq, count_paths_ne_zero_iff]
    constructor
    · intro hne
      obtain ⟨d, hd⟩ := List.exists_mem_of_ne_nil _ hne
      exact ⟨d, hd⟩
    · rintro ⟨d, hd⟩ hnil
      rw [hnil] at hd
      simp at hd
  have hbr : (update_move rnd e h).2.branches =
      if count_paths (update_move rnd e h).1 h.point ≠ 0 then blist_push h.branches h.point
      else h.branches := by
    rw [hh]
  refine ⟨hiff, fun hne => ?_, fun hnil => ?_, by rw [hh], by rw [hh]⟩
  · rw [hbr, if_pos (hiff.mp hne)]
    exact (blist_push_spec h.branches h.point hwf).2.1
  · rw [hbr, if_neg]
    intro hc
    exact (hiff.mpr hc) hnil

theorem update_move_pushes_old_position_witness :
    (blist_get sample_state.heads 0).branches.wf ∧
      listed_paths (get_paths
        (update_move sample_rnd sample_state.env (blist_get sample_state.heads 0)).1
        (blist_get sample_state.heads 0).point) ≠ [] ∧
      (update_move sample_rnd sample_state.env (blist_get sample_state.heads 0)).2.branches.elems =
        (blist_get sample_state.heads 0).branches.elems ++ [(blist_get sample_state.heads 0).point] :=
  ⟨by decide, by decide,
    (update_move_pushes_old_position sample_rnd sample_state.env (blist_get sample_state.heads 0)
      (by decide)).2.1 (by decide)⟩

/-- C20 (as stated, refuted): in random-switching mode with `switch_chance = 100`,
`sample_head` stands at `(4, 4)` where no move is available, yet `update` makes
the roll (two `rand()` calls are consumed, the roll and the choice of the branch)
and performs the proactive switch, which takes the head to `(2, 0)`. -/
theorem proactive_switch_without_moves :
    (sample_full_env Mode.MODE_RANDOM_SWITCHING 100).mode = Mode.MODE_RANDOM_SWITCHING ∧
      count_paths (sample_full_env Mode.MODE_RANDOM_SWITCHING 100) sample_head.point = 0 ∧
      (update_random_switch sample_rnd (sample_full_env Mode.MODE_RANDOM_SWITCHING 100)
        sample_head).1.rand_calls =
        (sample_full_env Mode.MODE_RANDOM_SWITCHING 100).rand_calls + 2 ∧
      sample_head.point = { x := 4, y := 4 } ∧
      (update_random_switch sample_rnd (sample_full_env Mode.MODE_RANDOM_SWITCHING 100)
        sample_head).2.point = { x := 2, y := 0 } := by
  refine ⟨rfl, ?_, ?_, ?_, ?_⟩ <;> decide

/-- C20 (amended): in random-switching mode `update` rolls the switch chance for a
head, and on success performs the proactive switch, exactly when the head's
Branch Store is non-empty, whether or not its position has an available move;
for a head with an empty store, and in the other two modes, no roll is made and
no proactive switch occurs before the stuck-check. -/
theorem proactive_switch_needs_only_a_branch (rnd : Nat → Nat) (e : Env) (h : head_t) :
    (e.mode = Mode.MODE_RANDOM_SWITCHING → 0 < h.branches.length →
        update_random_switch rnd e h =
          (if ((rnd e.rand_calls % 100 + 1 : Nat) : Int) ≤ e.switch_chance then
            head_switch_branch rnd (rand rnd e).2 h
          else ((rand rnd e).2, h)) ∧
        (rand rnd e).2.rand_calls = e.rand_calls + 1) ∧
      (h.branches.length = 0 → update_random_switch rnd e h = (e, h)) ∧
      (e.mode ≠ Mode.MODE_RANDOM_SWITCHING → update_random_switch rnd e h = (e, h)) := by
  refine ⟨fun hm hlen => ⟨?_, rfl⟩, fun h0 => ?_, fun hm => ?_⟩
  · unfold update_random_switch
    rw [if_pos ⟨hm, hlen⟩]
    rfl
  · unfold update_random_switch
    rw [if_neg]
    rintro ⟨_, h1⟩
    omega
  · unfold update_random_switch
    rw [if_neg]
    rintro ⟨h1, _⟩
    exact hm h1

theorem proactive_switch_needs_only_a_branch_witness :
    (sample_full_env Mode.MODE_RANDOM_SWITCHING 100).mode = Mode.MODE_RANDOM_SWITCHING ∧
      0 < sample_head.branches.length ∧
      update_random_switch sample_rnd (sample_full_env Mode.MODE_RANDOM_SWITCHING 100)
          sample_head =
        (if ((sample_rnd (sample_full_env Mode.MODE_RANDOM_SWITCHING 100).rand_calls % 100 + 1 :
              Nat) : Int) ≤ (sample_full_env Mode.MODE_RANDOM_SWITCHING 100).switch_chance then
          head_switch_branch sample_rnd
            (rand sample_rnd (sample_full_env Mode.MODE_RANDOM_SWITCHING 100)).2 sample_head
        else ((rand sample_rnd (sample_full_env Mode.MODE_RANDOM_SWITCHING 100)).2,
          sample_head)) :=
  ⟨rfl, by decide,
    ((proactive_switch_needs_only_a_branch sample_rnd
      (sample_full_env Mode.MODE_RANDOM_SWITCHING 100) sample_head).1 rfl (by decide)).1⟩

/-! ## Removal of heads and the pass over the pool -/

theorem update_head_eq (rnd : Nat → Nat) (e : Env) (h : head_t) :
    update_head rnd e h =
      if (after_stuck_loop rnd e h).2.2 = true then
        ((after_stuck_loop rnd e h).1, (after_stuck_loop rnd e h).2.1, true)
      else
        ((update_move rnd (after_stuck_loop rnd e h).1 (after_stuck_loop rnd e h).2.1).1,
          (update_move rnd (after_stuck_loop rnd e h).1 (after_stuck_loop rnd e h).2.1).2,
          false) := by
  unfold update_head after_stuck_loop
  simp only

theorem update_head_removed_iff (rnd : Nat → Nat) (e : Env) (h : head_t) :
    (update_head rnd e h).2.2 = (after_stuck_loop rnd e h).2.2 := by
  rw [update_head_eq]
  split_ifs with h1
  · exact h1.symm
  · simp only
    exact (Bool.not_eq_true _).mp h1 |>.symm

theorem after_stuck_loop_spec (rnd : Nat → Nat) (e : Env) (h : head_t) :
    (after_stuck_loop rnd e h).2.2 = true ↔
      (count_paths (after_stuck_loop rnd e h).1 (after_stuck_loop rnd e h).2.1.point = 0 ∧
        (after_stuck_loop rnd e h).2.1.branches.length = 0) := by
  unfold after_stuck_loop
  rcases update_stuck_loop_fuel rnd ((update_random_switch rnd e h).2.branches.length + 1)
    (update_random_switch rnd e h).1 (update_random_switch rnd e h).2 (by omega) with
    ⟨h1, h2, h3⟩ | ⟨h1, h2⟩
  · exact ⟨fun _ => ⟨h2, h3⟩, fun _ => h1⟩
  · constructor
    · intro h3; rw [h1] at h3; exact absurd h3 (by decide)
    · intro h3; exact absurd h3.1 h2

theorem update_head_removed_covers (rnd : Nat → Nat) (e : Env) (h : head_t) (hg : grid_wf e)
    (hk : head_ok e h) :
    (update_head rnd e h).2.2 = true ↔ ∀ z, covers h z → count_paths e z = 0 := by
  rcases update_head_summary rnd e h hg hk with ⟨hr, hs⟩ | ⟨hr, hs⟩
  · exact ⟨fun _ => hs.2.2, fun _ => hr⟩
  · obtain ⟨_, _, _, p, d, hp, hd, _⟩ := hs
    constructor
    · intro h1; rw [hr] at h1; exact absurd h1 (by decide)
    · intro hall
      exact absurd (hall p hp) ((count_paths_ne_zero_iff e p).mpr ⟨d, hd⟩)

theorem update_loop_length_le (rnd : Nat → Nat) (fuel i : Nat) (s : State) :
    (update_loop rnd fuel i s).heads.length ≤ s.heads.length := by
  induction fuel generalizing i s with
  | zero => exact le_refl _
  | succ fuel ih =>
    rw [update_loop_succ]
    split_ifs with h1 h2
    · refine le_trans (ih _ _) ?_
      simp only [blist_remove_length, blist_write_length]
      omega
    · exact le_trans (ih _ _) (le_of_eq (blist_write_length _ _ _))
    · exact le_refl _

theorem iterate_length_le (rnd : Nat → Nat) (s : State) (n m : Nat) (h : n ≤ m) :
    ((update rnd)^[m] s).heads.length ≤ ((update rnd)^[n] s).heads.length := by
  induction m with
  | zero =>
    have : n = 0 := by omega
    subst this
    exact le_refl _
  | succ m ih =>
    by_cases heq : n = m + 1
    · subst heq; exact le_refl _
    · rw [Function.iterate_succ_apply']
      exact le_trans (update_loop_length_le rnd _ 0 _) (ih (by omega))

/-- C16: when `update` processes a head, the head is removed exactly when, once
the stuck-switching loop has run, its position has no legal move and its Branch
Store is empty; for a sound head on a well-formed grid this is the case if and
only if neither its position nor any point of its Branch Store has a legal move
when its processing starts.  Otherwise the head stays and makes exactly one
move, the one of `update_move` from where the loop left it.  No tick adds a
head, so a removed head never reappears: the pool never grows. -/
theorem head_removed_iff_exhausted (rnd : Nat → Nat) (e : Env) (h : head_t) :
    ((update_head rnd e h).2.2 = true ↔
        (count_paths (after_stuck_loop rnd e h).1 (after_stuck_loop rnd e h).2.1.point = 0 ∧
          (after_stuck_loop rnd e h).2.1.branches.length = 0)) ∧
      (grid_wf e → head_ok e h →
        ((update_head rnd e h).2.2 = true ↔
          (count_paths e h.point = 0 ∧ ∀ b ∈ h.branches.elems, count_paths e b = 0))) ∧
      ((update_head rnd e h).2.2 = true →
        (update_head rnd e h).1.map = e.map) ∧
      ((update_head rnd e h).2.2 = false →
        count_paths (after_stuck_loop rnd e h).1 (after_stuck_loop rnd e h).2.1.point ≠ 0 ∧
        (update_head rnd e h).1 =
          (update_move rnd (after_stuck_loop rnd e h).1 (after_stuck_loop rnd e h).2.1).1 ∧
        (update_head rnd e h).2.1 =
          (update_move rnd (after_stuck_loop rnd e h).1 (after_stuck_loop rnd e h).2.1).2) ∧
      (∀ s : State, (update rnd s).heads.length ≤ s.heads.length) ∧
      ∀ (s : State) (n m : Nat), n ≤ m →
        ((update rnd)^[m] s).heads.length ≤ ((update rnd)^[n] s).heads.length := by
  have hflag := update_head_removed_iff rnd e h
  have hspec := after_stuck_loop_spec rnd e h
  refine ⟨by rw [hflag]; exact hspec, fun hg hk => ?_, fun hr => ?_, fun hr => ?_,
    fun s => update_loop_length_le rnd _ 0 s, fun s n m hnm => iterate_length_le rnd s n m hnm⟩
  · rw [update_head_removed_covers rnd e h hg hk]
    constructor
    · intro hall
      exact ⟨hall _ (Or.inl rfl), fun b hb => hall b (Or.inr hb)⟩
    · rintro ⟨h1, h2⟩ z hz
      rcases hz with hz | hz
      · rw [← hz]; exact h1
      · exact h2 z hz
  · rw [hflag] at hr
    rw [update_head_eq, if_pos hr]
    obtain ⟨a1, a2⟩ := update_random_switch_mono rnd e h
    obtain ⟨b1, b2⟩ := update_stuck_loop_mono rnd
      ((update_random_switch rnd e h).2.branches.length + 1)
      (update_random_switch rnd e h).1 (update_random_switch rnd e h).2
    exact b2.trans a2
  · rw [hflag] at hr
    have hnr : ¬ ((after_stuck_loop rnd e h).2.2 = true) := by rw [hr]; decide
    refine ⟨?_, ?_, ?_⟩
    · intro hc
      unfold after_stuck_loop at hc hr
      rcases update_stuck_loop_fuel rnd ((update_random_switch rnd e h).2.branches.length + 1)
        (update_random_switch rnd e h).1 (update_random_switch rnd e h).2 (by omega) with
        ⟨h1, _, _⟩ | ⟨_, h2⟩
      · rw [h1] at hr; exact absurd hr (by decide)
      · exact h2 hc
    · rw [update_head_eq, if_neg hnr]
    · rw [update_head_eq, if_neg hnr]

theorem head_removed_iff_exhausted_witness :
    grid_wf two_head_state.env ∧
      head_ok two_head_state.env (blist_get two_head_state.heads 0) ∧
      ((update_head sample_rnd two_head_state.env (blist_get two_head_state.heads 0)).2.2 = true ↔
        (count_paths two_head_state.env (blist_get two_head_state.heads 0).point = 0 ∧
          ∀ b ∈ (blist_get two_head_state.heads 0).branches.elems,
            count_paths two_head_state.env b = 0)) ∧
      (update_head sample_rnd two_head_state.env (blist_get two_head_state.heads 0)).2.2 = true ∧
      (update_head sample_rnd two_head_state.env (blist_get two_head_state.heads 1)).2.2 = false :=
  ⟨by decide, by decide,
    (head_removed_iff_exhausted sample_rnd two_head_state.env
      (blist_get two_head_state.heads 0)).2.1 (by decide) (by decide),
    by decide, by decide⟩

/-- C17: for every well-formed head pool and every grid, one call of `update`
is `run_heads` on the pool: each head that was in the pool at the start of the
tick is processed exactly once, in pool order, each with the grid as the heads
before it left it, also when heads are removed on the way (and when the removed
head is at index 0, where the index wraps); the pool afterwards holds the
surviving heads in their original order, and the loop ends by its own test. -/
theorem update_processes_each_head_once (rnd : Nat → Nat) (s : State)
    (hw : pool_wf s.heads) :
    (update rnd s).env = (run_heads rnd s.env s.heads.elems).1 ∧
      (update rnd s).heads.elems = (run_heads rnd s.env s.heads.elems).2 ∧
      (update rnd s).heads.length = (run_heads rnd s.env s.heads.elems).2.length ∧
      pool_wf (update rnd s).heads ∧
      update_loop rnd (s.heads.length + 1) 0 s = update rnd s := by
  obtain ⟨r1, r2, r3⟩ := update_run rnd s hw
  refine ⟨r1, r2, ?_, r3, update_loop_exit rnd s.heads.length 0 s hw (Nat.zero_le _) (by omega)⟩
  rw [← r2, blist_elems_length _ r3.1]

theorem update_processes_each_head_once_witness :
    pool_wf two_head_state.heads ∧
      (update sample_rnd two_head_state).heads.elems =
        (run_heads sample_rnd two_head_state.env two_head_state.heads.elems).2 ∧
      (update_head sample_rnd two_head_state.env (blist_get two_head_state.heads 0)).2.2 = true ∧
      (update sample_rnd two_head_state).heads.length = 1 ∧
      ((update sample_rnd two_head_state).heads.elems.map (fun h => h.point)) =
        [{ x := 2, y := 2 }] :=
  ⟨by decide, (update_processes_each_head_once sample_rnd two_head_state (by decide)).2.1,
    by decide, by decide, by decide⟩

/-! ## The corridor invariant -/

theorem dvd_three_cases (s x : Int) (hs : 0 < s) (hd : s ∣ x) (h1 : -(2 * s) < x)
    (h2 : x < 2 * s) : x = -s ∨ x = 0 ∨ x = s := by
  obtain ⟨k, hk⟩ := hd
  have hk1 : -2 < k := by
    by_contra hc
    have : k ≤ -2 := by omega
    have : s * k ≤ s * (-2) := mul_le_mul_of_nonneg_left this (le_of_lt hs)
    omega
  have hk2 : k < 2 := by
    by_contra hc
    have : 2 ≤ k := by omega
    have : s * 2 ≤ s * k := mul_le_mul_of_nonneg_left this (le_of_lt hs)
    omega
  have : k = -1 ∨ k = 0 ∨ k = 1 := by omega
  rcases this with h | h | h <;> subst h
  · left; rw [hk]; ring
  · right; left; rw [hk]; ring
  · right; right; rw [hk]; ring

/-- A cell strictly inside a lattice segment that also lies on the segment of a
move: the two segments are the same, so the far end of the first is one of the
two ends of the move. -/
theorem segment_match (s a b a0 b0 j j0 d d0 : Int) (hs : 0 < s) (ha : s ∣ a) (hb : s ∣ b)
    (ha0 : s ∣ a0) (hb0 : s ∣ b0) (hj1 : 0 < j) (hj2 : j < s) (hk1 : 1 ≤ j0) (hk2 : j0 ≤ s)
    (hd : is_direction d) (hd0 : is_direction d0)
    (hx : a + j * dir_dx d = a0 + j0 * dir_dx d0)
    (hy : b + j * dir_dy d = b0 + j0 * dir_dy d0) :
    (a + s * dir_dx d = a0 ∧ b + s * dir_dy d = b0) ∨
      (a + s * dir_dx d = a0 + s * dir_dx d0 ∧ b + s * dir_dy d = b0 + s * dir_dy d0) := by
  have hX := dvd_three_cases s (a - a0) hs (Int.dvd_sub ha ha0)
  have hY := dvd_three_cases s (b - b0) hs (Int.dvd_sub hb hb0)
  unfold is_direction at hd hd0
  rcases hd with h | h | h | h <;> rcases hd0 with h0 | h0 | h0 | h0 <;> subst h h0 <;>
    simp only [dir_dx, dir_dy, MOVE_UP, MOVE_RIGHT, MOVE_DOWN, MOVE_LEFT] at hx hy ⊢ <;>
    norm_num at hx hy ⊢ <;>
    (have hX1 := hX (by omega) (by omega)
     have hY1 := hY (by omega) (by omega)
     omega)

theorem displaced_coords (p : point_t) (d k : Int) :
    (displaced p d k).x = p.x + k * dir_dx d ∧ (displaced p d k).y = p.y + k * dir_dy d :=
  ⟨rfl, rfl⟩

theorem point_ext (p q : point_t) (hx : p.x = q.x) (hy : p.y = q.y) : p = q := by
  cases p; cases q
  simp only [point_t.mk.injEq]
  exact ⟨hx, hy⟩

theorem legal_moves_direction (e : Env) (p : point_t) (d : Int) (hd : d ∈ legal_moves e p) :
    is_direction d ∧ is_free e (displaced p d e.step) :=
  (legal_moves_mem e p d).mp hd

theorem edge_inv_congr {e0 e1 : Env} (hc : same_cfg e0 e1) (hm : e1.map = e0.map)
    (hi : edge_inv e0) : edge_inv e1 := by
  intro p d j hp hd h1 h2 hin hv
  rw [hc.1] at h2 ⊢
  have hv0 : visited e0 (displaced p d j) := by
    unfold visited at *
    rw [← cell_congr hc hm]; exact hv
  obtain ⟨r1, r2⟩ := hi p d j ((on_lattice_cfg hc p).mp hp) hd h1 h2
    ((in_bounds_cfg hc _).mp hin) hv0
  exact ⟨(in_bounds_cfg hc _).mpr r1, visited_mono hc (map_mono_of_eq hm) _ r2⟩

/-- A move keeps the corridor invariant. -/
theorem edge_inv_moved {e0 e1 : Env} {h0 h1 : head_t} (hg : grid_wf e0) (hk : head_ok e0 h0)
    (hi : edge_inv e0) (hs : moved_summary e0 h0 e1 h1) : edge_inv e1 := by
  obtain ⟨a1, a2, _, p0, d0, hp0, hd0, _, _, hseg, hframe, _, _⟩ := hs
  obtain ⟨hdir0, hfree0⟩ := legal_moves_direction e0 p0 d0 hd0
  have hp0good : good_point e0 p0 := by
    rcases hp0 with hp | hp
    · rw [← hp]; exact hk.2.1
    · exact hk.2.2 p0 hp
  have hstep : ((e0.step.toNat : Nat) : Int) = e0.step := Int.toNat_of_nonneg (le_of_lt hg.1)
  intro p d j hp hd h1 h2 hin hv
  rw [a1.1] at h2 ⊢
  have hp' : on_lattice e0 p := (on_lattice_cfg a1 p).mp hp
  have hin0 : in_bounds e0 (displaced p d j) := (in_bounds_cfg a1 _).mp hin
  by_cases hon : ∃ j0 : Nat, 1 ≤ j0 ∧ (j0 : Int) ≤ e0.step ∧
      displaced p d j = displaced p0 d0 j0
  · obtain ⟨j0, k1, k2, heq⟩ := hon
    have hx : p.x + j * dir_dx d = p0.x + (j0 : Int) * dir_dx d0 := congrArg point_t.x heq
    have hy : p.y + j * dir_dy d = p0.y + (j0 : Int) * dir_dy d0 := congrArg point_t.y heq
    have hm := segment_match e0.step p.x p.y p0.x p0.y j j0 d d0 hg.1 hp'.1 hp'.2
      hp0good.1.1 hp0good.1.2 h1 h2 (by omega) k2 hd hdir0 hx hy
    rcases hm with ⟨m1, m2⟩ | ⟨m1, m2⟩
    · have : displaced p d e0.step = p0 := point_ext _ _ m1 m2
      rw [this]
      exact ⟨(in_bounds_cfg a1 _).mpr hp0good.2.1, visited_mono a1 a2 _ hp0good.2.2⟩
    · have : displaced p d e0.step = displaced p0 d0 e0.step := point_ext _ _ m1 m2
      rw [this]
      obtain ⟨s1, s2⟩ := hseg e0.step.toNat (by have := hg.1; omega) (by omega)
      rw [hstep] at s1 s2
      exact ⟨(in_bounds_cfg a1 _).mpr s1, s2⟩
  · have hv0 : visited e0 (displaced p d j) := by
      unfold visited at *
      rw [hframe _ hin0 (fun j0 k1 k2 heq => hon ⟨j0, k1, k2, heq⟩)] at hv
      exact hv
    obtain ⟨r1, r2⟩ := hi p d j hp' hd h1 h2 hin0 hv0
    exact ⟨(in_bounds_cfg a1 _).mpr r1, visited_mono a1 a2 _ r2⟩

/-- Under the corridor invariant every cell a legal move from a visited lattice
point is about to mark is in bounds and unvisited. -/
theorem move_cells_fresh (e : Env) (p : point_t) (d : Int)
    (hb : binary_map e) (hi : edge_inv e) (hp : good_point e p) (hd : d ∈ legal_moves e p)
    (j : Nat) (h1 : 1 ≤ j) (h2 : (j : Int) ≤ e.step) :
    in_bounds e (displaced p d j) ∧ cell e (displaced p d j).x (displaced p d j).y = 0 := by
  obtain ⟨hdir, hfree⟩ := legal_moves_direction e p d hd
  have hin := segment_in_bounds e p d e.step hdir hp.2.1 hfree.1 j (by omega) h2
  refine ⟨hin, ?_⟩
  by_cases hj : (j : Int) = e.step
  · rw [hj]; exact hfree.2
  · have hnv : ¬ visited e (displaced p d j) := by
      intro hv
      obtain ⟨_, r2⟩ := hi p d j hp.1 hdir (by omega) (by omega) hin hv
      unfold visited at r2
      rw [hfree.2] at r2
      exact absurd r2 (by decide)
    unfold visited at hnv
    have := hb (cell_index e (displaced p d j).x (displaced p d j).y)
    unfold cell at hnv ⊢
    omega

/-! ## Counting the cells of a move -/

theorem count_set_fresh (m : List Nat) (k : Nat) (hk : k < m.length) (h0 : m.getD k 0 = 0) :
    (m.set k 1).count 1 = m.count 1 + 1 := by
  rw [List.count_set _ _ _ _ hk]
  rw [List.getD_eq_getElem _ _ hk] at h0
  simp [h0]

theorem displaced_inj (p : point_t) (d a b : Int) (hd : is_direction d)
    (h : displaced p d a = displaced p d b) : a = b := by
  have hx : p.x + a * dir_dx d = p.x + b * dir_dx d := congrArg point_t.x h
  have hy : p.y + a * dir_dy d = p.y + b * dir_dy d := congrArg point_t.y h
  unfold is_direction at hd
  rcases hd with h1 | h1 | h1 | h1 <;> subst h1 <;>
    simp only [dir_dx, dir_dy, MOVE_UP, MOVE_RIGHT, MOVE_DOWN, MOVE_LEFT] at hx hy <;>
    norm_num at hx hy <;> omega

/-- The carving loop over `n` fresh in-bounds cells visits exactly `n` more
cells. -/
theorem update_move_loop_count (d : Int) (hd : is_direction d) (n : Nat) (e : Env)
    (p : point_t) (hg : grid_wf e)
    (hfresh : ∀ j : Nat, 1 ≤ j → j ≤ n → in_bounds e (displaced p d j) ∧
      cell e (displaced p d j).x (displaced p d j).y = 0) :
    visited_count (update_move_loop d n e p).1 = visited_count e + n := by
  induction n generalizing e p with
  | zero => rfl
  | succ n ih =>
    simp only [update_move_loop]
    obtain ⟨a1, a2, _⟩ := update_move_cell_mono d e p
    obtain ⟨hin1, hc1⟩ := hfresh 1 (le_refl 1) (by omega)
    simp only [Nat.cast_one] at hin1 hc1
    have hcount : visited_count (update_move_cell d e p).1 = visited_count e + 1 := by
      rw [update_move_cell_map]
      exact count_set_fresh e.map _ (cell_index_lt e _ hg hin1) hc1
    have hg1 : grid_wf (update_move_cell d e p).1 := grid_wf_mono a1 a2 hg
    have hfresh1 : ∀ j : Nat, 1 ≤ j → j ≤ n →
        in_bounds (update_move_cell d e p).1 (displaced (update_move_cell d e p).2 d j) ∧
        cell (update_move_cell d e p).1 (displaced (update_move_cell d e p).2 d j).x
          (displaced (update_move_cell d e p).2 d j).y = 0 := by
      intro j h1 h2
      obtain ⟨hin, hc⟩ := hfresh (j + 1) (by omega) (by omega)
      have e1 : ((j + 1 : Nat) : Int) = 1 + (j : Int) := by push_cast; ring
      rw [e1] at hin hc
      rw [update_move_cell_point, displaced_add, in_bounds_cfg a1]
      refine ⟨hin, ?_⟩
      rw [update_move_cell_map, cell_mark e _ _ hg hin1 hin, if_neg, hc]
      intro heq
      have := displaced_inj p d _ _ hd heq
      omega
    rw [ih _ _ hg1 hfresh1, hcount]
    omega

theorem after_stuck_loop_switched (rnd : Nat → Nat) (e : Env) (h : head_t) (hk : head_ok e h) :
    switched e h (after_stuck_loop rnd e h).1 (after_stuck_loop rnd e h).2.1 := by
  have s1 := update_random_switch_switched rnd (switched_refl e h hk)
  exact (update_stuck_loop_spec rnd ((update_random_switch rnd e h).2.branches.length + 1)
    (update_random_switch rnd e h).1 (update_random_switch rnd e h).2 s1 (by omega)).1

/-- A head that `update` keeps, on a grid satisfying the corridor invariant:
the cells its move marks were all in bounds and unvisited, are visited
afterwards, and the number of visited cells has grown by exactly `step`. -/
theorem update_head_fresh (rnd : Nat → Nat) (e : Env) (h : head_t) (hg : grid_wf e)
    (hk : head_ok e h) (hb : binary_map e) (hi : edge_inv e)
    (hr : (update_head rnd e h).2.2 = false) :
    covers h (after_stuck_loop rnd e h).2.1.point ∧
      chosen_direction rnd (after_stuck_loop rnd e h).1 (after_stuck_loop rnd e h).2.1.point ∈
        legal_moves e (after_stuck_loop rnd e h).2.1.point ∧
      (update_head rnd e h).2.1.point =
        displaced (after_stuck_loop rnd e h).2.1.point
          (chosen_direction rnd (after_stuck_loop rnd e h).1
            (after_stuck_loop rnd e h).2.1.point) e.step ∧
      (∀ j : Nat, 1 ≤ j → (j : Int) ≤ e.step →
        in_bounds e (displaced (after_stuck_loop rnd e h).2.1.point
          (chosen_direction rnd (after_stuck_loop rnd e h).1
            (after_stuck_loop rnd e h).2.1.point) j) ∧
        cell e
          (displaced (after_stuck_loop rnd e h).2.1.point
            (chosen_direction rnd (after_stuck_loop rnd e h).1
              (after_stuck_loop rnd e h).2.1.point) j).x
          (displaced (after_stuck_loop rnd e h).2.1.point
            (chosen_direction rnd (after_stuck_loop rnd e h).1
              (after_stuck_loop rnd e h).2.1.point) j).y = 0 ∧
        visited (update_head rnd e h).1
          (displaced (after_stuck_loop rnd e h).2.1.point
            (chosen_direction rnd (after_stuck_loop rnd e h).1
              (after_stuck_loop rnd e h).2.1.point) j)) ∧
      visited_count (update_head rnd e h).1 = visited_count e + e.step.toNat := by
  have hsw := after_stuck_loop_switched rnd e h hk
  rw [update_head_removed_iff] at hr
  have hnr : ¬ ((after_stuck_loop rnd e h).2.2 = true) := by rw [hr]; decide
  have hc : count_paths (after_stuck_loop rnd e h).1 (after_stuck_loop rnd e h).2.1.point ≠ 0 := by
    intro hc0
    unfold after_stuck_loop at hc0 hr
    rcases update_stuck_loop_fuel rnd ((update_random_switch rnd e h).2.branches.length + 1)
      (update_random_switch rnd e h).1 (update_random_switch rnd e h).2 (by omega) with
      ⟨h1, _, _⟩ | ⟨_, h2⟩
    · rw [h1] at hr; exact absurd hr (by decide)
    · exact h2 hc0
  rw [update_head_eq, if_neg hnr]
  simp only
  generalize after_stuck_loop rnd e h = r at hsw hc
  obtain ⟨a1, a2, a3, a4, _⟩ := hsw
  have hge : grid_wf r.1 := grid_wf_congr a1 a2 hg
  have hstep : ((e.step.toNat : Nat) : Int) = e.step := Int.toNat_of_nonneg (le_of_lt hg.1)
  have hd := chosen_direction_legal rnd r.1 r.2.1.point hc
  rw [legal_moves_congr a1 a2] at hd
  have hpgood : good_point e r.2.1.point := by
    rcases a4 _ (Or.inl rfl) with hp | hp
    · rw [← hp]; exact hk.2.1
    · exact hk.2.2 _ hp
  have hfresh := move_cells_fresh e r.2.1.point _ hb hi hpgood hd
  obtain ⟨_, hpt, hseg⟩ := update_move_cells rnd r.1 r.2.1 hge
    ((in_bounds_cfg a1 _).mpr hpgood.2.1) hc
  rw [a1.1] at hpt hseg
  refine ⟨a4 _ (Or.inl rfl), hd, hpt, fun j h1 h2 => ?_, ?_⟩
  · obtain ⟨f1, f2⟩ := hfresh j h1 h2
    exact ⟨f1, f2, (hseg j h1 h2).2⟩
  · rw [update_move_env]
    have hc1 : same_cfg r.1 (rand rnd r.1).2 := rand_cfg rnd r.1
    have hcc := same_cfg_trans a1 hc1
    have hmm : (rand rnd r.1).2.map = e.map := a2
    rw [update_move_loop_count _ (legal_moves_direction e _ _ hd).1 _ _ _
      (grid_wf_congr hcc hmm hg)]
    · have : visited_count (rand rnd r.1).2 = visited_count e := by
        unfold visited_count; rw [hmm]
      rw [this, a1.1]
    · intro j h1 h2
      obtain ⟨f1, f2⟩ := hfresh j h1 (by rw [← a1.1]; omega)
      rw [in_bounds_cfg hcc, cell_congr hcc hmm]
      exact ⟨f1, f2⟩

/-! ## The corridor invariant through a tick -/

theorem carve_inv_removed {e e1 : Env} {h : head_t} {done todo : List head_t}
    (hi : carve_inv e (done ++ h :: todo)) (hs : removed_summary e h e1) :
    carve_inv e1 (done ++ todo) :=
  ⟨pool_inv_removed hi.1 hs, binary_map_mono (map_mono_of_eq hs.2.1) hi.2.1,
    edge_inv_congr hs.1 hs.2.1 hi.2.2⟩

theorem carve_inv_moved {e e1 : Env} {h h1 : head_t} {done todo : List head_t}
    (hi : carve_inv e (done ++ h :: todo)) (hs : moved_summary e h e1 h1) :
    carve_inv e1 ((done ++ [h1]) ++ todo) :=
  ⟨pool_inv_moved hi.1 hs, binary_map_mono hs.2.1 hi.2.1,
    edge_inv_moved hi.1.1 (hi.1.2.1 h (List.mem_append_right _ (List.mem_cons_self _ _)))
      hi.2.2 hs⟩

theorem run_heads_append (rnd : Nat → Nat) (e : Env) (l1 l2 : List head_t) :
    run_heads rnd e (l1 ++ l2) =
      ((run_heads rnd (run_heads rnd e l1).1 l2).1,
        (run_heads rnd e l1).2 ++ (run_heads rnd (run_heads rnd e l1).1 l2).2) := by
  induction l1 generalizing e with
  | nil => rfl
  | cons h t ih =>
    rw [List.cons_append, run_heads_cons, run_heads_cons, ih]
    split_ifs <;> rfl

/-- Part of a tick, on the list of heads, with heads `rest` still to come: the
corridor invariant is kept and the number of visited cells grows by `step` for
each head kept. -/
theorem run_heads_carve (rnd : Nat → Nat) (e : Env) (done todo rest : List head_t)
    (hi : carve_inv e (done ++ (todo ++ rest))) :
    carve_inv (run_heads rnd e todo).1 (done ++ ((run_heads rnd e todo).2 ++ rest)) ∧
      same_cfg e (run_heads rnd e todo).1 ∧
      visited_count (run_heads rnd e todo).1 =
        visited_count e + e.step.toNat * (run_heads rnd e todo).2.length := by
  induction todo generalizing e done with
  | nil =>
    rw [run_heads_nil]
    exact ⟨hi, same_cfg_refl e, by simp⟩
  | cons h t ih =>
    rw [run_heads_cons]
    have hi1 : carve_inv e (done ++ h :: (t ++ rest)) := hi
    have hkh : head_ok e h := hi.1.2.1 h (List.mem_append_right _ (List.mem_cons_self _ _))
    rcases update_head_summary rnd e h hi.1.1 hkh with ⟨hr, hs⟩ | ⟨hr, hs⟩
    · rw [hr]
      simp only [↓reduceIte]
      obtain ⟨b1, b2, b3⟩ := ih (update_head rnd e h).1 done (carve_inv_removed hi1 hs)
      refine ⟨b1, same_cfg_trans hs.1 b2, ?_⟩
      rw [b3, hs.1.1]
      have : visited_count (update_head rnd e h).1 = visited_count e := by
        unfold visited_count; rw [hs.2.1]
      rw [this]
    · rw [hr]
      simp only [Bool.false_eq_true, ↓reduceIte]
      obtain ⟨b1, b2, b3⟩ := ih (update_head rnd e h).1 (done ++ [(update_head rnd e h).2.1])
        (carve_inv_moved hi1 hs)
      obtain ⟨_, _, _, _, hcount⟩ := update_head_fresh rnd e h hi.1.1 hkh hi.2.1 hi.2.2 hr
      refine ⟨by simpa using b1, same_cfg_trans hs.1 b2, ?_⟩
      rw [b3, hs.1.1, hcount, List.length_cons]
      ring

theorem update_carve (rnd : Nat → Nat) (s : State) (hw : pool_wf s.heads)
    (hi : carve_inv s.env s.heads.elems) :
    carve_inv (update rnd s).env (update rnd s).heads.elems ∧
      visited_count (update rnd s).env =
        visited_count s.env + s.env.step.toNat * (update rnd s).heads.length := by
  obtain ⟨r1, r2, r3⟩ := update_run rnd s hw
  obtain ⟨b1, _, b3⟩ := run_heads_carve rnd s.env [] s.heads.elems [] (by simpa using hi)
  rw [← r1, ← r2] at b1
  rw [← r1, ← r2, blist_elems_length _ r3.1] at b3
  exact ⟨by simpa using b1, b3⟩

/-- In the state `main` builds only lattice points are visited, so the corridor
invariant holds. -/
theorem setup_edge_inv (s : State) (hi : setup_inv s) : edge_inv s.env := by
  intro p d j hp hd h1 h2 hin hv
  exfalso
  obtain ⟨h, hh, hpt⟩ := hi.2.2.2.2.2 _ hin hv
  have hl : on_lattice s.env (displaced p d j) := by
    rw [← hpt]; exact (hi.2.2.2.2.1 h hh).1.2.1.1
  have := lattice_on_segment s.env p d j hd hp hl (by omega) (le_of_lt h2)
  omega

theorem iterate_carve (rnd : Nat → Nat) (s : State) (hi : state_inv s)
    (hc : carve_inv s.env s.heads.elems) (n : Nat) :
    carve_inv ((update rnd)^[n] s).env ((update rnd)^[n] s).heads.elems := by
  induction n with
  | zero => exact hc
  | succ n ih =>
    rw [Function.iterate_succ_apply']
    exact (update_carve rnd _ (iterate_inv rnd s hi n).1 ih).1

/-- C13: in every state reachable from a valid initial state (the one `main`
builds from a valid configuration whose sizes keep its `int` arithmetic in
range, `int_config`) a head never revisits a cell.  Whenever `update` reaches
a head `h` of the pool, the heads `done` before it having been processed, and
keeps it, each of the `step` cells
its move marks (the intermediate cells and the destination) was in bounds and
unvisited immediately before the move and is visited after it, and the move
increases the number of visited cells by exactly `step`; over a whole tick the
number grows by `step` for every head left in the pool. -/
theorem heads_never_revisit (rnd : Nat → Nat) (c : Config) (hv : valid_config c)
    (hf : int_config c) :
    ∃ s0, main_setup rnd c = main_result.started s0 ∧ ∀ n,
      visited_count ((update rnd)^[n + 1] s0).env =
        visited_count ((update rnd)^[n] s0).env +
          c.step.toNat * ((update rnd)^[n + 1] s0).heads.length ∧
      ∀ done h todo, ((update rnd)^[n] s0).heads.elems = done ++ h :: todo →
        (update rnd ((update rnd)^[n] s0)).env =
          (run_heads rnd
            (update_head rnd (run_heads rnd ((update rnd)^[n] s0).env done).1 h).1 todo).1 ∧
        ((update_head rnd (run_heads rnd ((update rnd)^[n] s0).env done).1 h).2.2 = false →
          ∃ p d, is_direction d ∧
            (update_head rnd (run_heads rnd ((update rnd)^[n] s0).env done).1 h).2.1.point =
              displaced p d c.step ∧
            (∀ j : Nat, 1 ≤ j → (j : Int) ≤ c.step →
              in_bounds (run_heads rnd ((update rnd)^[n] s0).env done).1 (displaced p d j) ∧
              cell (run_heads rnd ((update rnd)^[n] s0).env done).1 (displaced p d j).x
                (displaced p d j).y = 0 ∧
              visited (update_head rnd (run_heads rnd ((update rnd)^[n] s0).env done).1 h).1
                (displaced p d j)) ∧
            visited_count (update_head rnd (run_heads rnd ((update rnd)^[n] s0).env done).1 h).1 =
              visited_count (run_heads rnd ((update rnd)^[n] s0).env done).1 +
                c.step.toNat) := by
  obtain ⟨s0, h0, hsetup, hinv, hs, _, _, _, hall⟩ := run_complete rnd c hv hf
  have hbin := main_setup_binary rnd c s0 h0
  have hc0 : carve_inv s0.env s0.heads.elems := ⟨hinv.2, hbin, setup_edge_inv s0 hsetup⟩
  refine ⟨s0, h0, fun n => ?_⟩
  obtain ⟨hin, hcfg, _⟩ := hall n
  have hcn := iterate_carve rnd s0 hinv hc0 n
  have hstepn : ((update rnd)^[n] s0).env.step = c.step := by rw [hcfg.1, hs]
  refine ⟨?_, fun done h todo hsplit => ?_⟩
  · rw [Function.iterate_succ_apply', (update_carve rnd _ hin.1 hcn).2, hstepn]
  · obtain ⟨r1, _, _⟩ := update_run rnd ((update rnd)^[n] s0) hin.1
    rw [hsplit] at hcn
    obtain ⟨b1, b2, _⟩ := run_heads_carve rnd ((update rnd)^[n] s0).env [] done (h :: todo)
      (by simpa using hcn)
    have hstepe : (run_heads rnd ((update rnd)^[n] s0).env done).1.step = c.step := by
      rw [b2.1, hstepn]
    constructor
    · rw [r1, hsplit, run_heads_append, run_heads_cons]
    · intro hr
      have hkh : head_ok (run_heads rnd ((update rnd)^[n] s0).env done).1 h :=
        b1.1.2.1 h (by simp)
      obtain ⟨_, f2, f3, f4, f5⟩ := update_head_fresh rnd _ h b1.1.1 hkh b1.2.1 b1.2.2 hr
      rw [hstepe] at f3 f4 f5
      exact ⟨_, _, (legal_moves_direction _ _ _ f2).1, f3, f4, f5⟩

theorem heads_never_revisit_witness :
    valid_config sample_config ∧ int_config sample_config ∧
      main_setup sample_rnd sample_config = main_result.started sample_state ∧
      visited_count ((update sample_rnd)^[1] sample_state).env =
        visited_count sample_state.env + 2 ∧
      ∃ s0, main_setup sample_rnd sample_config = main_result.started s0 ∧ ∀ n,
        visited_count ((update sample_rnd)^[n + 1] s0).env =
          visited_count ((update sample_rnd)^[n] s0).env +
            sample_config.step.toNat * ((update sample_rnd)^[n + 1] s0).heads.length :=
  ⟨by decide, by decide, by rfl, by decide,
    (heads_never_revisit sample_rnd sample_config (by decide) (by decide)).imp
      (fun _ hx => ⟨hx.1, fun n => (hx.2 n).1⟩)⟩

/-! ## Stores without repetition -/

theorem nodup_eraseIdx {α : Type} (l : List α) (i : Nat) (h : l.Nodup) :
    (l.eraseIdx i).Nodup :=
  List.Nodup.sublist (List.eraseIdx_sublist l i) h

theorem not_mem_eraseIdx_self {α : Type} (l : List α) (i : Nat) (b : α) (h : l.Nodup)
    (hb : l[i]? = some b) : b ∉ l.eraseIdx i := by
  intro hmem
  rw [List.mem_iff_getElem?] at hmem
  obtain ⟨n, hn⟩ := hmem
  rw [List.getElem?_eraseIdx] at hn
  have hinj : ∀ a c : Nat, l[a]? = some b → l[c]? = some b → a = c := by
    intro a c ha hc
    obtain ⟨ha1, ha2⟩ := List.getElem?_eq_some_iff.mp ha
    obtain ⟨hc1, hc2⟩ := List.getElem?_eq_some_iff.mp hc
    exact (List.Nodup.getElem_inj_iff h).mp (ha2.trans hc2.symm)
  by_cases hlt : n < i
  · rw [if_pos hlt] at hn
    have := hinj n i hn hb
    omega
  · rw [if_neg hlt] at hn
    have := hinj (n + 1) i hn hb
    omega

/-- A switch keeps the position and the stored points pairwise different. -/
theorem head_switch_branch_distinct (rnd : Nat → Nat) (e : Env) (h : head_t)
    (hwf : h.branches.wf) (hlen : 0 < h.branches.length) (hd : head_distinct h) :
    head_distinct (head_switch_branch rnd e h).2 := by
  obtain ⟨c1, c2, _, _⟩ := head_switch_branch_spec rnd e h hwf hlen
  unfold head_distinct at hd ⊢
  rw [List.nodup_cons] at hd ⊢
  obtain ⟨hp, hn⟩ := hd
  have hb : (head_switch_branch rnd e h).2.point ∈ h.branches.elems :=
    List.mem_iff_getElem?.mpr ⟨_, c1⟩
  have hnot := not_mem_eraseIdx_self _ _ _ hn c1
  have hne := nodup_eraseIdx h.branches.elems (switch_index rnd e h) hn
  have hpe : h.point ∉ h.branches.elems.eraseIdx (switch_index rnd e h) :=
    fun hx => hp (List.mem_of_mem_eraseIdx hx)
  rw [c2]
  by_cases hc : count_paths e h.point ≠ 0
  · rw [if_pos hc]
    constructor
    · rw [List.mem_append, List.mem_singleton]
      rintro (hx | hx)
      · exact hnot hx
      · exact hp (hx ▸ hb)
    · rw [List.nodup_append]
      refine ⟨hne, List.nodup_singleton _, ?_⟩
      intro a ha1 ha2
      rw [List.mem_singleton] at ha2
      exact hpe (ha2 ▸ ha1)
  · rw [if_neg hc, List.append_nil]
    exact ⟨hnot, hne⟩

theorem update_random_switch_distinct (rnd : Nat → Nat) (e : Env) (h : head_t)
    (hwf : h.branches.wf) (hd : head_distinct h) :
    (update_random_switch rnd e h).2.branches.wf ∧
      head_distinct (update_random_switch rnd e h).2 := by
  unfold update_random_switch
  simp only [rand]
  split_ifs with h1 h2
  · exact ⟨(head_switch_branch_spec rnd _ h hwf h1.2).2.2.1,
      head_switch_branch_distinct rnd _ h hwf h1.2 hd⟩
  · exact ⟨hwf, hd⟩
  · exact ⟨hwf, hd⟩

theorem update_stuck_loop_distinct (rnd : Nat → Nat) (fuel : Nat) (e : Env) (h : head_t)
    (hwf : h.branches.wf) (hd : head_distinct h) :
    head_distinct (update_stuck_loop rnd fuel e h).2.1 := by
  induction fuel generalizing e h with
  | zero => exact hd
  | succ fuel ih =>
    rw [update_stuck_loop_succ]
    split_ifs with h1 h2
    · exact hd
    · have hlen : 0 < h.branches.length := by omega
      exact ih _ _ (head_switch_branch_spec rnd e h hwf hlen).2.2.1
        (head_switch_branch_distinct rnd e h hwf hlen hd)
    · exact hd

theorem after_stuck_loop_distinct (rnd : Nat → Nat) (e : Env) (h : head_t)
    (hwf : h.branches.wf) (hd : head_distinct h) :
    head_distinct (after_stuck_loop rnd e h).2.1 := by
  obtain ⟨a1, a2⟩ := update_random_switch_distinct rnd e h hwf hd
  exact update_stuck_loop_distinct rnd _ _ _ a1 a2

/-- A move goes to a cell that was free, hence different from the old position
and from every stored point, which are visited; the old position, if pushed, was
not in the store. -/
theorem update_move_distinct (rnd : Nat → Nat) (e : Env) (h : head_t) (hg : grid_wf e)
    (hk : head_ok e h) (hc : count_paths e h.point ≠ 0) (hd : head_distinct h) :
    head_distinct (update_move rnd e h).2 := by
  have hstep : ((e.step.toNat : Nat) : Int) = e.step := Int.toNat_of_nonneg (le_of_lt hg.1)
  obtain ⟨_, hfree⟩ := legal_moves_direction e h.point _ (chosen_direction_legal rnd e h.point hc)
  have hnew : ∀ z, good_point e z →
      z ≠ displaced h.point (chosen_direction rnd e h.point) e.step := by
    intro z hz heq
    have hv := hz.2.2
    unfold visited at hv
    rw [heq, hfree.2] at hv
    exact absurd hv (by decide)
  have hh := update_move_head rnd e h
  have hpt : (update_move rnd e h).2.point =
      displaced h.point (chosen_direction rnd e h.point) e.step := by
    rw [hh, hstep]
  have hbr : (update_move rnd e h).2.branches =
      if count_paths (update_move rnd e h).1 h.point ≠ 0 then blist_push h.branches h.point
      else h.branches := by
    rw [hh]
  unfold head_distinct at hd ⊢
  rw [List.nodup_cons] at hd ⊢
  obtain ⟨hp, hn⟩ := hd
  have hq : (update_move rnd e h).2.point ∉ h.branches.elems := by
    intro hx
    exact hnew _ (hk.2.2 _ hx) hpt
  rw [hbr]
  by_cases hcp : count_paths (update_move rnd e h).1 h.point ≠ 0
  · rw [if_pos hcp, (blist_push_spec h.branches h.point hk.1).2.1]
    constructor
    · rw [List.mem_append, List.mem_singleton]
      rintro (hx | hx)
      · exact hq hx
      · exact hnew _ hk.2.1 (hx ▸ hpt)
    · rw [List.nodup_append]
      refine ⟨hn, List.nodup_singleton _, ?_⟩
      intro a ha1 ha2
      rw [List.mem_singleton] at ha2
      exact hp (ha2 ▸ ha1)
  · rw [if_neg hcp]
    exact ⟨hq, hn⟩

theorem update_head_distinct (rnd : Nat → Nat) (e : Env) (h : head_t) (hg : grid_wf e)
    (hk : head_ok e h) (hd : head_distinct h) (hr : (update_head rnd e h).2.2 = false) :
    head_distinct (update_head rnd e h).2.1 := by
  have hsw := after_stuck_loop_switched rnd e h hk
  have hdist := after_stuck_loop_distinct rnd e h hk.1 hd
  rw [update_head_removed_iff] at hr
  have hnr : ¬ ((after_stuck_loop rnd e h).2.2 = true) := by rw [hr]; decide
  have hc : count_paths (after_stuck_loop rnd e h).1 (after_stuck_loop rnd e h).2.1.point ≠ 0 := by
    intro hc0
    exact hnr ((after_stuck_loop_spec rnd e h).mpr
      ⟨hc0, by
        unfold after_stuck_loop at hr ⊢
        rcases update_stuck_loop_fuel rnd
          ((update_random_switch rnd e h).2.branches.length + 1)
          (update_random_switch rnd e h).1 (update_random_switch rnd e h).2 (by omega) with
          ⟨_, _, h3⟩ | ⟨_, h2⟩
        · exact h3
        · exact absurd hc0 h2⟩)
  rw [update_head_eq, if_neg hnr]
  exact update_move_distinct rnd _ _ (grid_wf_congr hsw.1 hsw.2.1 hg) hsw.2.2.1 hc hdist

/-- One tick, on the list of heads: the heads kept have their position and
stored points pairwise different. -/
theorem run_heads_distinct (rnd : Nat → Nat) (e : Env) (done todo : List head_t)
    (hi : pool_inv e (done ++ todo)) (hd : ∀ h ∈ todo, head_distinct h) :
    ∀ h ∈ (run_heads rnd e todo).2, head_distinct h := by
  induction todo generalizing e done with
  | nil =>
    rw [run_heads_nil]
    intro h hh
    simp at hh
  | cons x t ih =>
    rw [run_heads_cons]
    have hkx : head_ok e x := hi.2.1 x (List.mem_append_right _ (List.mem_cons_self _ _))
    have hdt : ∀ h ∈ t, head_distinct h := fun h hh => hd h (List.mem_cons_of_mem _ hh)
    rcases update_head_summary rnd e x hi.1 hkx with ⟨hr, hs⟩ | ⟨hr, hs⟩
    · rw [hr]
      simp only [↓reduceIte]
      exact ih _ done (pool_inv_removed hi hs) hdt
    · rw [hr]
      simp only [Bool.false_eq_true, ↓reduceIte]
      intro h hh
      rcases List.mem_cons.mp hh with hh | hh
      · rw [hh]
        exact update_head_distinct rnd e x hi.1 hkx (hd x (List.mem_cons_self _ _)) hr
      · exact ih _ (done ++ [(update_head rnd e x).2.1]) (pool_inv_moved hi hs) hdt h hh

theorem update_distinct (rnd : Nat → Nat) (s : State) (hi : state_inv s)
    (hd : ∀ h ∈ s.heads.elems, head_distinct h) :
    ∀ h ∈ (update rnd s).heads.elems, head_distinct h := by
  obtain ⟨_, r2, _⟩ := update_run rnd s hi.1
  rw [r2]
  exact run_heads_distinct rnd s.env [] s.heads.elems (by simpa using hi.2) hd

theorem iterate_distinct (rnd : Nat → Nat) (s : State) (hi : state_inv s)
    (hd : ∀ h ∈ s.heads.elems, head_distinct h) (n : Nat) :
    ∀ h ∈ ((update rnd)^[n] s).heads.elems, head_distinct h := by
  induction n with
  | zero => exact hd
  | succ n ih =>
    rw [Function.iterate_succ_apply']
    exact update_distinct rnd _ (iterate_inv rnd s hi n) ih

/-- C21: in every state reachable from a valid initial state (the one `main`
builds from a valid configuration whose sizes keep its `int` arithmetic in
range, `int_config`), under every policy, each head's Branch Store contains no
point more than once and does not contain that head's current position. -/
theorem branch_store_has_no_repeats (rnd : Nat → Nat) (c : Config) (hv : valid_config c)
    (hf : int_config c) :
    ∃ s0, main_setup rnd c = main_result.started s0 ∧ s0.env.mode = c.mode ∧
      ∀ n, ∀ h ∈ ((update rnd)^[n] s0).heads.elems,
        h.branches.elems.Nodup ∧ h.point ∉ h.branches.elems := by
  obtain ⟨s0, h0, hsetup, hinv, _, _, _, _, hmode, _⟩ := main_setup_spec rnd c hv hf
  refine ⟨s0, h0, hmode, fun n h hh => ?_⟩
  have hd0 : ∀ x ∈ s0.heads.elems, head_distinct x := by
    intro x hx
    unfold head_distinct
    rw [(hsetup.2.2.2.2.1 x hx).2]
    exact List.nodup_singleton _
  have := iterate_distinct rnd s0 hinv hd0 n h hh
  unfold head_distinct at this
  rw [List.nodup_cons] at this
  exact ⟨this.2, this.1⟩

theorem branch_store_has_no_repeats_witness :
    valid_config random_config ∧ int_config random_config ∧
      ∃ s0, main_setup sample_rnd random_config = main_result.started s0 ∧
        s0.env.mode = random_config.mode ∧
        ∀ n, ∀ h ∈ ((update sample_rnd)^[n] s0).heads.elems,
          h.branches.elems.Nodup ∧ h.point ∉ h.branches.elems :=
  ⟨by decide, by decide,
    branch_store_has_no_repeats sample_rnd random_config (by decide) (by decide)⟩

end MazeGen
